import Mathlib

/-!
ReusingMemoryResource and PmrStack

A shallow embedding of `include/memory_resource_reuse.hpp` and `include/stack.hpp`.

* Addresses (`void *`) are natural numbers, `0` is `nullptr`.
* `std::size_t` values are natural numbers: the code only compares and copies them.
* `std::vector<Block>` is `List Block`; `push_back` is `++ [b]`, `erase(it)` is `eraseIdx`.
  A `push_back` that has to enlarge the vector can throw `std::bad_alloc`; whether it finds
  room is an input of the call (`grow`, `false` for the throw).  `erase` never throws.
  The capacity of a vector is not part of the state, so `grow = false` is admitted at every
  `push_back`: the theorems hold for every choice of `grow`, and the concrete runs in which a
  `push_back` throws are runs in which the vector is full at that moment.
* The system heap (`::operator new` / `::operator delete`) is external.  Every call that
  `raw_alloc` or `raw_dealloc` makes to it is recorded as a `RawEvent`; the value
  `::operator new` answers with is an input (`oracle`), `none` standing for `std::bad_alloc`.
  The storage of the two vectors is not a block of the registry and is not in the record.
* `alignof(std::max_align_t)` is the parameter `maxAlign`.
* An exception that leaves `do_deallocate` inside a stack operation crosses
  `std::pmr::polymorphic_allocator::deallocate`, which is `noexcept`: `std::terminate`.
-/

namespace ReusingMemoryResource

/-- The record `struct Block { void *ptr; std::size_t size; std::size_t alignment; }`. -/
structure Block where
  ptr : Nat
  size : Nat
  alignment : Nat
  deriving DecidableEq, Repr

/-- The two vectors of a `ReusingMemoryResource` object. -/
structure Registry where
  in_use_ : List Block
  free_blocks_ : List Block
  deriving DecidableEq, Repr

/-- A call that reached the system heap.  `reserve` is `::operator new` (the over-aligned
overload when `overAligned`), `result` what it answered (`none`: it threw `std::bad_alloc`);
`release` is `::operator delete`.  `bytes` and `alignment` are the arguments `raw_alloc` /
`raw_dealloc` were called with (`raw_dealloc` discards `bytes`, and both hand `alignment` on
only in the over-aligned overload). -/
inductive RawEvent where
  | reserve (bytes alignment : Nat) (overAligned : Bool) (result : Option Nat)
  | release (p bytes alignment : Nat) (overAligned : Bool)
  deriving DecidableEq, Repr

/-- What `do_allocate` hands back: an address, or a `std::bad_alloc` that leaves it. -/
inductive AllocResult where
  | address (p : Nat)
  | bad_alloc
  deriving DecidableEq, Repr

/-- The result of `do_allocate`, the registry afterwards and the heap calls made. -/
structure AllocOutcome where
  result : AllocResult
  state : Registry
  trace : List RawEvent
  deriving DecidableEq, Repr

/-- The end of `do_deallocate` (`thrown`: a `std::bad_alloc` left it), the registry
afterwards and the heap calls made. -/
structure DeallocOutcome where
  thrown : Bool
  state : Registry
  trace : List RawEvent
  deriving DecidableEq, Repr

/-- A forward scan `for (it = begin(); it != end(); ++it) if (pred(*it)) ...` (also
`std::find_if`): the position and the element of the first hit, `none` for `end()`. -/
def find_if {α : Type} (pred : α → Bool) : List α → Option (Nat × α)
  | [] => none
  | x :: xs =>
    if pred x then some (0, x)
    else match find_if pred xs with
      | some (i, y) => some (i + 1, y)
      | none => none

/-- The test of the scan in `do_allocate`: `it->size >= bytes && it->alignment >= alignment`. -/
def fits (bytes alignment : Nat) (b : Block) : Bool :=
  decide (b.size ≥ bytes) && decide (b.alignment ≥ alignment)

/-- The static helper `raw_alloc(bytes, alignment)`: one `::operator new`, over-aligned when
`alignment > alignof(std::max_align_t)`; `oracle` is its answer. -/
def raw_alloc (maxAlign bytes alignment : Nat) (oracle : Option Nat) : Option Nat × List RawEvent :=
  if alignment > maxAlign then (oracle, [RawEvent.reserve bytes alignment true oracle])
  else (oracle, [RawEvent.reserve bytes alignment false oracle])

/-- The static helper `raw_dealloc(p, bytes, alignment)`: nothing for `nullptr`, else one `::operator delete`. -/
def raw_dealloc (maxAlign p bytes alignment : Nat) : List RawEvent :=
  if p = 0 then []
  else if alignment > maxAlign then [RawEvent.release p bytes alignment true]
  else [RawEvent.release p bytes alignment false]

/-- The member `ReusingMemoryResource::do_allocate(bytes, alignment)`: scan `free_blocks_`
for the first fitting block, erase it and `push_back` it to `in_use_`; else reserve a new
block with `raw_alloc` and `push_back` its record to `in_use_`.  `grow` says whether that
`in_use_.push_back` finds room; when it throws, the exception leaves the function with what
was done before: the fitting block already erased from `free_blocks_`, or the new block
reserved and recorded nowhere.  Nothing is done when `raw_alloc` throws. -/
def do_allocate (maxAlign : Nat) (s : Registry) (bytes alignment : Nat) (oracle : Option Nat)
    (grow : Bool) : AllocOutcome :=
  match find_if (fits bytes alignment) s.free_blocks_ with
  | some (i, b) =>
    if grow then
      { result := AllocResult.address b.ptr
        state := { in_use_ := s.in_use_ ++ [b], free_blocks_ := s.free_blocks_.eraseIdx i }
        trace := [] }
    else
      { result := AllocResult.bad_alloc
        state := { in_use_ := s.in_use_, free_blocks_ := s.free_blocks_.eraseIdx i }
        trace := [] }
  | none =>
    match raw_alloc maxAlign bytes alignment oracle with
    | (some p, t) =>
      if grow then
        { result := AllocResult.address p
          state := { in_use_ := s.in_use_ ++ [{ ptr := p, size := bytes, alignment := alignment }]
                     free_blocks_ := s.free_blocks_ }
          trace := t }
      else { result := AllocResult.bad_alloc, state := s, trace := t }
    | (none, t) => { result := AllocResult.bad_alloc, state := s, trace := t }

/-- The two `if`s of `do_deallocate` on the copied record: a zero size or alignment is
replaced by the caller's. -/
def backfill (b : Block) (bytes alignment : Nat) : Block :=
  let b1 : Block := if b.size = 0 then { b with size := bytes } else b
  if b1.alignment = 0 then { b1 with alignment := alignment } else b1

/-- The member `ReusingMemoryResource::do_deallocate(p, bytes, alignment)`: erase the first
record of `in_use_` with address `p` and `push_back` it to `free_blocks_`; when there is
none, `raw_dealloc` the pointer directly.  `grow` says whether `free_blocks_.push_back` finds
room; when it throws, the exception leaves the function with the record already erased from
`in_use_`. -/
def do_deallocate (maxAlign : Nat) (s : Registry) (p bytes alignment : Nat) (grow : Bool) :
    DeallocOutcome :=
  match find_if (fun b => decide (b.ptr = p)) s.in_use_ with
  | some (i, b) =>
    if grow then
      { thrown := false
        state := { in_use_ := s.in_use_.eraseIdx i
                   free_blocks_ := s.free_blocks_ ++ [backfill b bytes alignment] }
        trace := [] }
    else
      { thrown := true
        state := { in_use_ := s.in_use_.eraseIdx i, free_blocks_ := s.free_blocks_ }
        trace := [] }
  | none => { thrown := false, state := s, trace := raw_dealloc maxAlign p bytes alignment }

/-- The accessor `in_use_count()`. -/
def in_use_count (s : Registry) : Nat := s.in_use_.length

/-- The accessor `free_count()`. -/
def free_count (s : Registry) : Nat := s.free_blocks_.length

/-- The destructor `~ReusingMemoryResource()`: `raw_dealloc` on every record of `in_use_`,
then on every record of `free_blocks_`. -/
def destroy (maxAlign : Nat) (s : Registry) : List RawEvent :=
  let t1 := s.in_use_.foldl (fun t b => t ++ raw_dealloc maxAlign b.ptr b.size b.alignment) []
  s.free_blocks_.foldl (fun t b => t ++ raw_dealloc maxAlign b.ptr b.size b.alignment) t1

/-- A default-constructed resource: both vectors empty. -/
def empty : Registry := { in_use_ := [], free_blocks_ := [] }

/-- A registry with two `in_use_` records of address 7, the first with recorded size 0. -/
def dupRegistry : Registry :=
  { in_use_ := [⟨1, 8, 8⟩, ⟨7, 0, 8⟩, ⟨7, 4, 4⟩], free_blocks_ := [⟨2, 4, 8⟩] }

/-- A registry whose free blocks are all smaller than its first lent block. -/
def reuseRegistry : Registry :=
  { in_use_ := [⟨5, 64, 8⟩, ⟨6, 8, 8⟩], free_blocks_ := [⟨2, 4, 8⟩, ⟨3, 16, 8⟩] }

/-- A sample registry: one block lent out, three free blocks of growing size. -/
def sampleRegistry : Registry :=
  { in_use_ := [⟨1, 8, 8⟩], free_blocks_ := [⟨2, 4, 8⟩, ⟨3, 16, 8⟩, ⟨4, 32, 16⟩] }

/-- The heap call `raw_dealloc` makes for a record with a non-null address. -/
def releaseOf (maxAlign : Nat) (b : Block) : RawEvent :=
  RawEvent.release b.ptr b.size b.alignment (decide (b.alignment > maxAlign))

/-! ### Sequences of calls and the heap seen from outside -/

/-- One call a client makes on the resource.  `oracle` is what `::operator new` would answer
if this call reaches it, `grow` whether the `push_back` of this call finds room.  The client
catches a `std::bad_alloc` and goes on. -/
inductive Call where
  | allocate (bytes alignment : Nat) (oracle : Option Nat) (grow : Bool)
  | deallocate (p bytes alignment : Nat) (grow : Bool)
  deriving DecidableEq, Repr

/-- One client call: the registry afterwards and the heap calls made. -/
def step (maxAlign : Nat) (s : Registry) : Call → Registry × List RawEvent
  | Call.allocate bytes alignment oracle grow =>
    ((do_allocate maxAlign s bytes alignment oracle grow).state,
     (do_allocate maxAlign s bytes alignment oracle grow).trace)
  | Call.deallocate p bytes alignment grow =>
    ((do_deallocate maxAlign s p bytes alignment grow).state,
     (do_deallocate maxAlign s p bytes alignment grow).trace)

/-- A sequence of client calls: the final registry and all heap calls, in order. -/
def run (maxAlign : Nat) : Registry → List Call → Registry × List RawEvent
  | s, [] => (s, [])
  | s, c :: cs =>
    ((run maxAlign (step maxAlign s c).1 cs).1,
     (step maxAlign s c).2 ++ (run maxAlign (step maxAlign s c).1 cs).2)

/-- The books of the system heap: `live` holds one entry per reservation not yet released,
`released` the addresses of reservations that were released. -/
structure Heap where
  live : List Nat
  released : List Nat
  deriving DecidableEq, Repr

/-- The heap before any call. -/
def Heap.init : Heap := { live := [], released := [] }

/-- The effect of one heap call on the books.  A release of an address with a live
reservation ends that reservation; any other release changes nothing. -/
def Heap.step (h : Heap) : RawEvent → Heap
  | RawEvent.reserve _ _ _ (some p) => { live := p :: h.live, released := h.released }
  | RawEvent.reserve _ _ _ none => h
  | RawEvent.release p _ _ _ =>
    if p ∈ h.live then { live := h.live.erase p, released := p :: h.released } else h

/-- The books after a sequence of heap calls. -/
def Heap.run (h : Heap) : List RawEvent → Heap
  | [] => h
  | e :: t => Heap.run (h.step e) t

/-- The heap only hands out addresses it does not currently have reserved. -/
def freshTrace : Heap → List RawEvent → Bool
  | _, [] => true
  | h, e :: t =>
    (match e with
      | RawEvent.reserve _ _ _ (some p) => decide (p ∉ h.live)
      | _ => true) && freshTrace (h.step e) t

/-- The heap never answers with the null address. -/
def nonNullTrace : List RawEvent → Bool
  | [] => true
  | RawEvent.reserve _ _ _ (some p) :: t => decide (p ≠ 0) && nonNullTrace t
  | _ :: t => nonNullTrace t

/-- No reservation is released twice: no release names an address that has no live
reservation but whose reservation was released before. -/
def noDoubleRelease : Heap → List RawEvent → Bool
  | _, [] => true
  | h, e :: t =>
    (match e with
      | RawEvent.release p _ _ _ => !(decide (p ∉ h.live) && decide (p ∈ h.released))
      | _ => true) && noDoubleRelease (h.step e) t

/-- The client never calls `deallocate` with an address that sits in `free_blocks_` at that
moment. -/
def noFreeDealloc (maxAlign : Nat) : Registry → List Call → Bool
  | _, [] => true
  | s, c :: cs =>
    (match c with
      | Call.deallocate p _ _ _ => decide (p ∉ s.free_blocks_.map Block.ptr)
      | _ => true) && noFreeDealloc maxAlign (step maxAlign s c).1 cs

/-- Every `deallocate` of the run names an address that is in `in_use_` at that moment, or
one that is not in `free_blocks_` at that moment and of which the heap (whose books are `h`
at the start) has no released reservation. -/
def noStaleDealloc (maxAlign : Nat) : Registry → Heap → List Call → Bool
  | _, _, [] => true
  | s, h, c :: cs =>
    (match c with
      | Call.deallocate p _ _ _ =>
        decide (p ∈ s.in_use_.map Block.ptr) ||
          (decide (p ∉ s.free_blocks_.map Block.ptr) && decide (p ∉ h.released))
      | _ => true) &&
      noStaleDealloc maxAlign (step maxAlign s c).1 (h.run (step maxAlign s c).2) cs

/-- Every address the registry tracks, `in_use_` first, with repetitions. -/
def addrs (s : Registry) : List Nat := (s.in_use_ ++ s.free_blocks_).map Block.ptr

/-- Allocate, deallocate, deallocate the same address again. -/
def doubleReleaseCalls : List Call :=
  [Call.allocate 8 8 (some 1) true, Call.deallocate 1 8 8 true, Call.deallocate 1 8 8 true]

/-- Allocate, a deallocate whose `free_blocks_.push_back` throws, and two more deallocates
of the same address. -/
def lostBlockCalls : List Call :=
  [Call.allocate 8 8 (some 1) true, Call.deallocate 1 8 8 false, Call.deallocate 1 8 8 true,
   Call.deallocate 1 8 8 true]

/-- A well-behaved client: allocate, deallocate, a refused reservation, a reuse, a new block,
an allocation whose record finds no room in the full `in_use_`, the release of a pointer the
resource never tracked, another block and its deallocation, and a deallocate whose record
finds no room in the full `free_blocks_`. -/
def sampleCalls : List Call :=
  [Call.allocate 8 8 (some 1) true, Call.deallocate 1 8 8 true, Call.allocate 64 8 none true,
   Call.allocate 4 8 (some 9) true, Call.allocate 16 8 (some 2) true,
   Call.allocate 32 8 (some 3) false, Call.deallocate 5 8 8 true,
   Call.allocate 24 8 (some 4) true, Call.deallocate 4 24 8 true, Call.deallocate 2 16 8 false]

/-- Allocate, deallocate, deallocate the same address again, allocate something larger, the
heap answering with the address it got back. -/
def doubleFreeCalls : List Call :=
  [Call.allocate 8 8 (some 1) true, Call.deallocate 1 8 8 true, Call.deallocate 1 8 8 true,
   Call.allocate 16 8 (some 1) true]

/-- Calls after which `in_use_` holds one record and `free_blocks_` a smaller block:
allocate 8 bytes, deallocate them, allocate 16 bytes.  With a vector that starts with room
for one record, `in_use_` is then full. -/
def fullInUseCalls : List Call :=
  [Call.allocate 8 8 (some 1) true, Call.deallocate 1 8 8 true, Call.allocate 16 8 (some 2) true]

/-- The number of bytes reserved at the heap for address `p` after the heap calls `t`, when
it was `cur` before them: the size of the last reservation answered with `p`, unless `p` was
released since. -/
def reservedBytes (cur : Option Nat) : List RawEvent → Nat → Option Nat
  | [], _ => cur
  | RawEvent.reserve bytes _ _ (some q) :: t, p =>
    reservedBytes (if q = p then some bytes else cur) t p
  | RawEvent.reserve _ _ _ none :: t, p => reservedBytes cur t p
  | RawEvent.release q _ _ _ :: t, p => reservedBytes (if q = p then none else cur) t p

/-- Every `deallocate` of the run names an address that is in `in_use_` at that moment, and
passes `bytes = 0` when the record found there has size 0. -/
def sizeKeepingCalls (maxAlign : Nat) : Registry → List Call → Bool
  | _, [] => true
  | s, c :: cs =>
    (match c with
      | Call.deallocate p bytes _ _ =>
        (match find_if (fun b => decide (b.ptr = p)) s.in_use_ with
          | some (_, b) => decide (b.size ≠ 0) || decide (bytes = 0)
          | none => false)
      | _ => true) && sizeKeepingCalls maxAlign (step maxAlign s c).1 cs

/-- Allocate 0 bytes, then deallocate the block with `bytes = 100`. -/
def zeroSizeCalls : List Call :=
  [Call.allocate 0 8 (some 1) true, Call.deallocate 1 100 8 true]

/-- Allocations of 0 and of 24 bytes, a reservation whose record finds no room in the full
`in_use_`, deallocations with other sizes and alignments than allocated, a reuse, a refused
reservation, and a deallocate whose record finds no room in the full `free_blocks_`. -/
def sizeSampleCalls : List Call :=
  [Call.allocate 0 8 (some 1) true, Call.allocate 24 8 (some 2) true,
   Call.allocate 64 8 (some 3) false, Call.deallocate 2 99 64 true, Call.allocate 8 8 none true,
   Call.allocate 64 8 none true, Call.deallocate 2 7 8 true, Call.deallocate 1 0 16 false]

end ReusingMemoryResource

namespace PmrStack

open ReusingMemoryResource

/-- The list cell `struct Node { T value; Node *next; }`. -/
structure Node (T : Type) where
  value : T
  next : Nat
  deriving DecidableEq, Repr

/-- What a stack works on: the memory resource `alloc_` points to and the `Node` objects
alive, by address. -/
structure World (T : Type) where
  rmr : Registry
  mem : List (Nat × Node T)
  deriving DecidableEq, Repr

/-- The data members `head_` (0 is `nullptr`) and `sz_` of a `PmrStack<T>`. -/
structure Stack where
  head_ : Nat
  sz_ : Nat
  deriving DecidableEq, Repr

/-- How a call of `emplace` ends: normally, with the `std::bad_alloc` of the allocation,
with the exception of the value constructor, rethrown, or in `std::terminate`, when the
`deallocate` of the catch block throws. -/
inductive EmplaceResult where
  | done
  | bad_alloc
  | construction_failed
  | terminated
  deriving DecidableEq, Repr

/-- The end of `emplace`, the world and the stack afterwards (at the moment of
`std::terminate` when the result is `terminated`), and the heap calls made. -/
structure EmplaceOutcome (T : Type) where
  result : EmplaceResult
  world : World T
  stack : Stack
  trace : List RawEvent
  deriving DecidableEq, Repr

/-- Constructing a `Node` at address `p`. -/
def writeNode {T : Type} (mem : List (Nat × Node T)) (p : Nat) (n : Node T) :
    List (Nat × Node T) :=
  (p, n) :: mem.filter (fun e => decide (e.1 ≠ p))

/-- The member `PmrStack::emplace(args...)`.  `nodeSize` and `nodeAlign` are `sizeof(Node)` and
`alignof(Node)`, the request `polymorphic_allocator<Node>::allocate(1)` passes to
`do_allocate`; `ctor` is the outcome of `Node(args...)`, `none` when the value constructor
throws (the constructor itself does not use the resource).  `grow` is the fate of the
`push_back` in `do_allocate`, `growBack` that of the `push_back` in the `do_deallocate` of the
catch block; an exception leaving that `deallocate` ends the program.  `++sz_` is on a 64-bit
`std::size_t`. -/
def emplace {T : Type} (maxAlign nodeSize nodeAlign : Nat) (w : World T) (st : Stack)
    (oracle : Option Nat) (ctor : Option T) (grow growBack : Bool) : EmplaceOutcome T :=
  match (do_allocate maxAlign w.rmr nodeSize nodeAlign oracle grow).result with
  | AllocResult.bad_alloc =>
    { result := EmplaceResult.bad_alloc
      world := { w with rmr := (do_allocate maxAlign w.rmr nodeSize nodeAlign oracle grow).state }
      stack := st
      trace := (do_allocate maxAlign w.rmr nodeSize nodeAlign oracle grow).trace }
  | AllocResult.address node =>
    match ctor with
    | none =>
      { result :=
          if (do_deallocate maxAlign
              (do_allocate maxAlign w.rmr nodeSize nodeAlign oracle grow).state
              node nodeSize nodeAlign growBack).thrown
          then EmplaceResult.terminated else EmplaceResult.construction_failed
        world :=
          { w with
            rmr := (do_deallocate maxAlign
              (do_allocate maxAlign w.rmr nodeSize nodeAlign oracle grow).state
              node nodeSize nodeAlign growBack).state }
        stack := st
        trace := (do_allocate maxAlign w.rmr nodeSize nodeAlign oracle grow).trace ++
          (do_deallocate maxAlign
            (do_allocate maxAlign w.rmr nodeSize nodeAlign oracle grow).state
            node nodeSize nodeAlign growBack).trace }
    | some v =>
      { result := EmplaceResult.done
        world :=
          { rmr := (do_allocate maxAlign w.rmr nodeSize nodeAlign oracle grow).state
            mem := writeNode w.mem node { value := v, next := st.head_ } }
        stack := { head_ := node, sz_ := (st.sz_ + 1) % 2 ^ 64 }
        trace := (do_allocate maxAlign w.rmr nodeSize nodeAlign oracle grow).trace }

/-- A world on the sample registry, no node alive. -/
def sampleWorld : World Nat := { rmr := sampleRegistry, mem := [] }

/-- A world whose resource has one free block of node size and nothing lent out. -/
def oneFreeWorld : World Nat :=
  { rmr := { in_use_ := [], free_blocks_ := [⟨1, 16, 8⟩] }, mem := [] }

/-- The world a client reaches with the calls `doubleFreeCalls` on a fresh resource (address 1
lent out and also in `free_blocks_`), no node alive. -/
def doubleFreeWorld : World Nat :=
  { rmr := (run 16 ReusingMemoryResource.empty doubleFreeCalls).1, mem := [] }

/-- The world after one `push` of 7 on a fresh resource, the heap answering with 101. -/
def oneNodeWorld : World Nat :=
  { rmr := { in_use_ := [⟨101, 16, 8⟩], free_blocks_ := [] }, mem := [(101, ⟨7, 0⟩)] }

/-- The stack living in `oneNodeWorld`. -/
def oneNodeStack : Stack := { head_ := 101, sz_ := 1 }

/-- A world whose resource another client has used before (`fullInUseCalls`): `in_use_` is
full with one record, `free_blocks_` holds a block of 8 bytes; no node alive. -/
def sharedWorld : World Nat :=
  { rmr := (run 16 ReusingMemoryResource.empty fullInUseCalls).1, mem := [] }

/-- The `Node` object alive at address `p`, if there is one. -/
def nodeAt {T : Type} : List (Nat × Node T) → Nat → Option (Node T)
  | [], _ => none
  | (a, n) :: rest, p => if a = p then some n else nodeAt rest p

/-- Destroying the `Node` at address `p` (`allocator_traits::destroy`). -/
def destroyNode {T : Type} (mem : List (Nat × Node T)) (p : Nat) : List (Nat × Node T) :=
  mem.filter (fun e => decide (e.1 ≠ p))

/-- The world and the stack after `pop`, `clear` or a run of operations, the heap calls
made, and whether it ended in `std::terminate` (world and stack are then those of that
moment). -/
structure PopOutcome (T : Type) where
  world : World T
  stack : Stack
  trace : List RawEvent
  terminated : Bool
  deriving DecidableEq, Repr

/-- The member `PmrStack::pop()`.  Nothing happens when `head_` is null.  Otherwise
`head_ = head_->next`, `--sz_` (on a 64-bit `std::size_t`), the node is destroyed and its
storage goes to `do_deallocate` with `sizeof(Node)`, `alignof(Node)`; `grow` is the fate of
the `push_back` there, and an exception leaving that `deallocate` ends the program.  The
result is `none` when `head_` is not null and no `Node` lives there: the code then reads
through a dangling pointer, which has no defined behaviour.  The value destructor does not
use the resource. -/
def pop {T : Type} (maxAlign nodeSize nodeAlign : Nat) (w : World T) (st : Stack)
    (grow : Bool) : Option (PopOutcome T) :=
  if st.head_ = 0 then some { world := w, stack := st, trace := [], terminated := false }
  else
    match nodeAt w.mem st.head_ with
    | none => none
    | some n =>
      some
        { world :=
            { rmr := (do_deallocate maxAlign w.rmr st.head_ nodeSize nodeAlign grow).state
              mem := destroyNode w.mem st.head_ }
          stack := { head_ := n.next, sz_ := (st.sz_ + 2 ^ 64 - 1) % 2 ^ 64 }
          trace := (do_deallocate maxAlign w.rmr st.head_ nodeSize nodeAlign grow).trace
          terminated := (do_deallocate maxAlign w.rmr st.head_ nodeSize nodeAlign grow).thrown }

/-- The loop `while (head_) pop();` of `clear()`, run for at most `fuel` rounds; `none` when
a `pop` has no defined behaviour or the rounds do not suffice.  `grows` lists, round by
round, the fate of the `push_back` of that round (rounds beyond the list find room); the loop
ends where a `pop` ends the program. -/
def clearFuel {T : Type} (maxAlign nodeSize nodeAlign : Nat) :
    Nat → World T → Stack → List Bool → Option (PopOutcome T)
  | 0, w, st, _ =>
    if st.head_ = 0 then some { world := w, stack := st, trace := [], terminated := false }
    else none
  | fuel + 1, w, st, grows =>
    if st.head_ = 0 then some { world := w, stack := st, trace := [], terminated := false }
    else
      match pop maxAlign nodeSize nodeAlign w st (grows.headD true) with
      | none => none
      | some r =>
        if r.terminated then some r
        else
          match clearFuel maxAlign nodeSize nodeAlign fuel r.world r.stack grows.tail with
          | none => none
          | some r2 =>
            some { world := r2.world, stack := r2.stack, trace := r.trace ++ r2.trace,
                   terminated := r2.terminated }

/-- The member `PmrStack::clear()` (and with it the destructor `~PmrStack()`, which only
calls `clear()`).  Every round of the loop destroys one `Node`, so as many rounds as there are
`Node` objects alive are enough. -/
def clear {T : Type} (maxAlign nodeSize nodeAlign : Nat) (w : World T) (st : Stack)
    (grows : List Bool) : Option (PopOutcome T) :=
  clearFuel maxAlign nodeSize nodeAlign w.mem.length w st grows

/-- The member `PmrStack::push(value)`: `emplace(value)`, the copy or move of the value
succeeding, so that the catch block of `emplace` is not entered. -/
def push {T : Type} (maxAlign nodeSize nodeAlign : Nat) (w : World T) (st : Stack)
    (oracle : Option Nat) (v : T) (grow : Bool) : EmplaceOutcome T :=
  emplace maxAlign nodeSize nodeAlign w st oracle (some v) grow true

/-- The member `PmrStack::top()`: `head_->value`; `none` when `head_` points to no `Node`. -/
def top {T : Type} (w : World T) (st : Stack) : Option T :=
  if st.head_ = 0 then none
  else
    match nodeAt w.mem st.head_ with
    | none => none
    | some n => some n.value

/-- The member `PmrStack::empty()`. -/
def isEmpty (st : Stack) : Bool := decide (st.sz_ = 0)

/-- The member `PmrStack::size()`. -/
def size (st : Stack) : Nat := st.sz_

/-- The loop `for (it = iterator(cur); it != end(); ++it) got.push_back(*it)`, run for at
most `fuel` comparisons with `end()`: the values met.  `none` when the iterator is
dereferenced where no `Node` lives or the rounds do not suffice. -/
def iterate {T : Type} (mem : List (Nat × Node T)) : Nat → Nat → Option (List T)
  | 0, _ => none
  | fuel + 1, cur =>
    if cur = 0 then some []
    else
      match nodeAt mem cur with
      | none => none
      | some n =>
        match iterate mem fuel n.next with
        | none => none
        | some vs => some (n.value :: vs)

/-- The move constructor `PmrStack(PmrStack &&other)`: the world, the new stack and `other`
afterwards. -/
def move_construct {T : Type} (w : World T) (other : Stack) : World T × Stack × Stack :=
  (w, { head_ := other.head_, sz_ := other.sz_ }, { head_ := 0, sz_ := 0 })

/-- The constructor `PmrStack(mr)`. -/
def construct : Stack := { head_ := 0, sz_ := 0 }

/-- The nodes reachable from `p` by `next` links are exactly the cells of `l` (address and
value), in order, and the last link is null. -/
def IsChain {T : Type} (mem : List (Nat × Node T)) : Nat → List (Nat × T) → Prop
  | p, [] => p = 0
  | p, (a, v) :: rest =>
    p = a ∧ a ≠ 0 ∧ ∃ nxt, nodeAt mem a = some { value := v, next := nxt } ∧ IsChain mem nxt rest

/-- The registry tracks no address twice, and every address it tracks is a non-null 64-bit
pointer value. -/
def RegistryWF (s : Registry) : Prop :=
  (addrs s).Nodup ∧ ∀ a ∈ addrs s, a ≠ 0 ∧ a < 2 ^ 64

/-- The answers of the heap in the heap calls `t` of one operation started on registry `s`:
every address handed out is a non-null 64-bit pointer value that the registry does not
track. -/
def heapAnswerOK (s : Registry) : List RawEvent → Bool
  | [] => true
  | RawEvent.reserve _ _ _ (some p) :: t =>
    decide (p ≠ 0) && decide (p < 2 ^ 64) && decide (p ∉ addrs s) && heapAnswerOK s t
  | _ :: t => heapAnswerOK s t

/-- The representation invariant of a stack in its world: `l` lists the nodes reachable from
`head_` up to the null link, `sz_` is their number, every node is a block of `in_use_`, and
the registry is well formed. -/
def SysInv {T : Type} (w : World T) (st : Stack) (l : List (Nat × T)) : Prop :=
  IsChain w.mem st.head_ l ∧ st.sz_ = l.length ∧
  (∀ a ∈ l.map Prod.fst, a ∈ w.rmr.in_use_.map Block.ptr) ∧ RegistryWF w.rmr

/-- A world with a three-node stack `[30, 20, 10]` at addresses 3, 2, 1, all lent out, and
one more free block. -/
def threeWorld : World Nat :=
  { rmr := { in_use_ := [⟨1, 16, 8⟩, ⟨2, 16, 8⟩, ⟨3, 16, 8⟩], free_blocks_ := [⟨4, 16, 8⟩] }
    mem := [(3, ⟨30, 2⟩), (2, ⟨20, 1⟩), (1, ⟨10, 0⟩)] }

/-- The stack living in `threeWorld`. -/
def threeStack : Stack := { head_ := 3, sz_ := 3 }

/-- The cells of `threeStack`, head first. -/
def threeCells : List (Nat × Nat) := [(3, 30), (2, 20), (1, 10)]

/-- One operation a client performs on a stack.  `push(v)` is `emplace (some v)`;
`move_construct` builds a second stack from this one, and the client goes on with the new
stack (`true`) or with the moved-from one (`false`).  The other arguments are the inputs of
`emplace`, `pop` and `clear`. -/
inductive StackOp (T : Type) where
  | emplace (ctor : Option T) (oracle : Option Nat) (grow growBack : Bool)
  | pop (grow : Bool)
  | clear (grows : List Bool)
  | move_construct (follow_new : Bool)
  deriving DecidableEq, Repr

/-- One operation: how it ended (`done`, an exception of `emplace`, or `terminated`), the
world and the stack the client holds afterwards, the heap calls made; `none` when the
operation has no defined behaviour. -/
def stepOp {T : Type} (maxAlign nodeSize nodeAlign : Nat) (w : World T) (st : Stack) :
    StackOp T → Option (EmplaceOutcome T)
  | StackOp.emplace ctor oracle grow growBack =>
    some (emplace maxAlign nodeSize nodeAlign w st oracle ctor grow growBack)
  | StackOp.pop grow =>
    match pop maxAlign nodeSize nodeAlign w st grow with
    | none => none
    | some r =>
      some { result := if r.terminated then EmplaceResult.terminated else EmplaceResult.done
             world := r.world, stack := r.stack, trace := r.trace }
  | StackOp.clear grows =>
    match clear maxAlign nodeSize nodeAlign w st grows with
    | none => none
    | some r =>
      some { result := if r.terminated then EmplaceResult.terminated else EmplaceResult.done
             world := r.world, stack := r.stack, trace := r.trace }
  | StackOp.move_construct follow_new =>
    some
      { result := EmplaceResult.done
        world := (move_construct w st).1
        stack := if follow_new then (move_construct w st).2.1 else (move_construct w st).2.2
        trace := [] }

/-- A sequence of operations, exceptions caught by the client: the world and the stack at
the end, or at the operation that ended the program (the rest is then not run), and all heap
calls. -/
def runOps {T : Type} (maxAlign nodeSize nodeAlign : Nat) :
    World T → Stack → List (StackOp T) → Option (PopOutcome T)
  | w, st, [] => some { world := w, stack := st, trace := [], terminated := false }
  | w, st, op :: ops =>
    match stepOp maxAlign nodeSize nodeAlign w st op with
    | none => none
    | some r =>
      if r.result = EmplaceResult.terminated then
        some { world := r.world, stack := r.stack, trace := r.trace, terminated := true }
      else
        match runOps maxAlign nodeSize nodeAlign r.world r.stack ops with
        | none => none
        | some r2 =>
          some { world := r2.world, stack := r2.stack, trace := r.trace ++ r2.trace,
                 terminated := r2.terminated }

/-- In every operation that the run reaches the heap answers properly (`heapAnswerOK`). -/
def heapHonest {T : Type} (maxAlign nodeSize nodeAlign : Nat) :
    World T → Stack → List (StackOp T) → Bool
  | _, _, [] => true
  | w, st, op :: ops =>
    match stepOp maxAlign nodeSize nodeAlign w st op with
    | none => true
    | some r =>
      heapAnswerOK w.rmr r.trace &&
        (decide (r.result = EmplaceResult.terminated) ||
          heapHonest maxAlign nodeSize nodeAlign r.world r.stack ops)

/-- Every operation of the run ends normally: no `emplace` throws, nothing ends the
program. -/
def allDone {T : Type} (maxAlign nodeSize nodeAlign : Nat) :
    World T → Stack → List (StackOp T) → Bool
  | _, _, [] => true
  | w, st, op :: ops =>
    match stepOp maxAlign nodeSize nodeAlign w st op with
    | none => true
    | some r =>
      decide (r.result = EmplaceResult.done) &&
        allDone maxAlign nodeSize nodeAlign r.world r.stack ops

/-- The sequence consists of `push`/`emplace` and `pop` only. -/
def pushPopOnly {T : Type} : List (StackOp T) → Bool
  | [] => true
  | StackOp.emplace _ _ _ _ :: ops => pushPopOnly ops
  | StackOp.pop _ :: ops => pushPopOnly ops
  | _ :: _ => false

/-- The number of `push`/`emplace` operations in the sequence. -/
def pushCount {T : Type} : List (StackOp T) → Nat
  | [] => 0
  | StackOp.emplace _ _ _ _ :: ops => pushCount ops + 1
  | _ :: ops => pushCount ops

/-- The number of `pop` operations that the run reaches and that were applied to a stack
with `empty()` false. -/
def effectivePops {T : Type} (maxAlign nodeSize nodeAlign : Nat) :
    World T → Stack → List (StackOp T) → Nat
  | _, _, [] => 0
  | w, st, op :: ops =>
    match stepOp maxAlign nodeSize nodeAlign w st op with
    | none => 0
    | some r =>
      (match op with
        | StackOp.pop _ => if isEmpty st then 0 else 1
        | _ => 0) +
        (if r.result = EmplaceResult.terminated then 0
         else effectivePops maxAlign nodeSize nodeAlign r.world r.stack ops)

/-- The largest `size()` the stack has during the run, the start and the end included. -/
def peakSize {T : Type} (maxAlign nodeSize nodeAlign : Nat) :
    World T → Stack → List (StackOp T) → Nat
  | _, st, [] => size st
  | w, st, op :: ops =>
    match stepOp maxAlign nodeSize nodeAlign w st op with
    | none => size st
    | some r =>
      if r.result = EmplaceResult.terminated then max (size st) (size r.stack)
      else max (size st) (peakSize maxAlign nodeSize nodeAlign r.world r.stack ops)

/-- A world with a freshly constructed resource and no node alive. -/
def freshWorld : World Nat := { rmr := ReusingMemoryResource.empty, mem := [] }

/-- The operations of the test `BasicAllocateDeallocateReuse`: three `emplace`, one `pop`,
one `emplace`, the heap answering 101, 102, 103 (and 104 if it were asked once more). -/
def testOps : List (StackOp Nat) :=
  [StackOp.emplace (some 1) (some 101) true true, StackOp.emplace (some 2) (some 102) true true,
   StackOp.emplace (some 3) (some 103) true true, StackOp.pop true,
   StackOp.emplace (some 42) (some 104) true true]

/-- A run on `sharedWorld` with nodes of 8 bytes in which the vectors fail to grow: a push
whose reused block finds no room in `in_use_`, a push whose new block finds no room, a push,
an `emplace` whose constructor throws, a push that reuses the block handed back, a pop, and a
`clear` whose first round finds no room in `free_blocks_` and ends the program; the last
push is not reached. -/
def faultyOps : List (StackOp Nat) :=
  [StackOp.emplace (some 1) none false true, StackOp.emplace (some 2) (some 102) false true,
   StackOp.emplace (some 3) (some 103) true true, StackOp.emplace none (some 104) true true,
   StackOp.emplace (some 5) none true true, StackOp.pop true, StackOp.clear [false],
   StackOp.emplace (some 6) (some 106) true true]

/-- The operations that push the values of `items` in order, each with the answer the heap
would give if asked and the fate of the `push_back` of `do_allocate`. -/
def pushOps {T : Type} (items : List (T × Option Nat × Bool)) : List (StackOp T) :=
  items.map (fun x => StackOp.emplace (some x.1) x.2.1 x.2.2 true)

end PmrStack

namespace ReusingMemoryResource

/-! ## Facts about the scan -/

theorem find_if_none_iff {α : Type} (pred : α → Bool) (l : List α) :
    find_if pred l = none ↔ ∀ x ∈ l, pred x = false := by
  induction l with
  | nil => simp [find_if]
  | cons x xs ih =>
    by_cases hx : pred x = true
    · simp [find_if, hx]
    · have hx' : pred x = false := by simpa using hx
      cases hf : find_if pred xs with
      | none =>
        simp only [find_if, hx', hf, Bool.false_eq_true, if_false, List.mem_cons,
          forall_eq_or_imp, true_and, true_iff]
        exact ih.mp hf
      | some r =>
        have hne : ¬ ∀ y ∈ xs, pred y = false := fun h => by
          rw [ih.mpr h] at hf; cases hf
        simp only [find_if, hx', hf, Bool.false_eq_true, if_false, List.mem_cons, forall_eq_or_imp,
          true_and]
        constructor
        · intro h; cases h
        · intro h; exact absurd h hne

theorem find_if_some_spec {α : Type} (pred : α → Bool) (l : List α) (i : Nat) (x : α)
    (h : find_if pred l = some (i, x)) :
    l[i]? = some x ∧ pred x = true ∧ ∀ j y, j < i → l[j]? = some y → pred y = false := by
  induction l generalizing i with
  | nil => simp [find_if] at h
  | cons a as ih =>
    by_cases ha : pred a = true
    · simp only [find_if, ha, if_true, Option.some.injEq, Prod.mk.injEq] at h
      obtain ⟨rfl, rfl⟩ := h
      refine ⟨by simp, ha, ?_⟩
      intro j y hj; omega
    · have ha' : pred a = false := by simpa using ha
      cases hf : find_if pred as with
      | none => simp [find_if, ha', hf] at h
      | some r =>
        obtain ⟨k, y⟩ := r
        simp only [find_if, ha', hf, Bool.false_eq_true, if_false, Option.some.injEq,
          Prod.mk.injEq] at h
        obtain ⟨rfl, rfl⟩ := h
        obtain ⟨h1, h2, h3⟩ := ih k hf
        refine ⟨by simpa using h1, h2, ?_⟩
        intro j z hj hz
        cases j with
        | zero => simp at hz; subst hz; exact ha'
        | succ j => exact h3 j z (by omega) (by simpa using hz)

theorem find_if_exists_of_mem {α : Type} (pred : α → Bool) (l : List α) (x : α) (hx : x ∈ l)
    (hp : pred x = true) : ∃ i y, find_if pred l = some (i, y) := by
  cases hf : find_if pred l with
  | none =>
    have := (find_if_none_iff pred l).mp hf x hx
    rw [hp] at this; cases this
  | some r => exact ⟨r.1, r.2, rfl⟩

theorem fits_iff (bytes alignment : Nat) (b : Block) :
    fits bytes alignment b = true ↔ bytes ≤ b.size ∧ alignment ≤ b.alignment := by
  simp [fits]

theorem fits_false_iff (bytes alignment : Nat) (b : Block) :
    fits bytes alignment b = false ↔ ¬ (bytes ≤ b.size ∧ alignment ≤ b.alignment) := by
  rw [← fits_iff]; simp

theorem backfill_eq (b : Block) (bytes alignment : Nat) :
    backfill b bytes alignment =
      { ptr := b.ptr
        size := if b.size = 0 then bytes else b.size
        alignment := if b.alignment = 0 then alignment else b.alignment } := by
  obtain ⟨p, sz, al⟩ := b
  by_cases h1 : sz = 0 <;> by_cases h2 : al = 0 <;> simp [backfill, h1, h2]

theorem raw_alloc_eq (maxAlign bytes alignment : Nat) (oracle : Option Nat) :
    raw_alloc maxAlign bytes alignment oracle =
      (oracle, [RawEvent.reserve bytes alignment (decide (alignment > maxAlign)) oracle]) := by
  by_cases ha : alignment > maxAlign <;> simp [raw_alloc, ha]

/-! ## The exits of a single call -/

/-- The five exits of `do_allocate`: a fitting free block moved to `in_use_`; a fitting free
block erased and lost because `in_use_` did not grow; a new block recorded; a new block
reserved and not recorded because `in_use_` did not grow; a refused reservation. -/
theorem do_allocate_cases (maxAlign : Nat) (s : Registry) (bytes alignment : Nat)
    (oracle : Option Nat) (grow : Bool) :
    (∃ i b, find_if (fits bytes alignment) s.free_blocks_ = some (i, b) ∧ grow = true ∧
      do_allocate maxAlign s bytes alignment oracle grow =
        { result := AllocResult.address b.ptr
          state := { in_use_ := s.in_use_ ++ [b], free_blocks_ := s.free_blocks_.eraseIdx i }
          trace := [] }) ∨
    (∃ i b, find_if (fits bytes alignment) s.free_blocks_ = some (i, b) ∧ grow = false ∧
      do_allocate maxAlign s bytes alignment oracle grow =
        { result := AllocResult.bad_alloc
          state := { in_use_ := s.in_use_, free_blocks_ := s.free_blocks_.eraseIdx i }
          trace := [] }) ∨
    (∃ p, find_if (fits bytes alignment) s.free_blocks_ = none ∧ oracle = some p ∧ grow = true ∧
      do_allocate maxAlign s bytes alignment oracle grow =
        { result := AllocResult.address p
          state := { in_use_ := s.in_use_ ++ [{ ptr := p, size := bytes, alignment := alignment }]
                     free_blocks_ := s.free_blocks_ }
          trace := [RawEvent.reserve bytes alignment (decide (alignment > maxAlign)) (some p)] }) ∨
    (∃ p, find_if (fits bytes alignment) s.free_blocks_ = none ∧ oracle = some p ∧ grow = false ∧
      do_allocate maxAlign s bytes alignment oracle grow =
        { result := AllocResult.bad_alloc
          state := s
          trace := [RawEvent.reserve bytes alignment (decide (alignment > maxAlign)) (some p)] }) ∨
    (find_if (fits bytes alignment) s.free_blocks_ = none ∧ oracle = none ∧
      do_allocate maxAlign s bytes alignment oracle grow =
        { result := AllocResult.bad_alloc
          state := s
          trace := [RawEvent.reserve bytes alignment (decide (alignment > maxAlign)) none] }) := by
  cases hf : find_if (fits bytes alignment) s.free_blocks_ with
  | some r =>
    obtain ⟨i, b⟩ := r
    cases grow with
    | true => exact Or.inl ⟨i, b, rfl, rfl, by simp [do_allocate, hf]⟩
    | false => exact Or.inr (Or.inl ⟨i, b, rfl, rfl, by simp [do_allocate, hf]⟩)
  | none =>
    cases oracle with
    | none =>
      exact Or.inr (Or.inr (Or.inr (Or.inr
        ⟨rfl, rfl, by simp [do_allocate, hf, raw_alloc_eq]⟩)))
    | some p =>
      cases grow with
      | true =>
        exact Or.inr (Or.inr (Or.inl ⟨p, rfl, rfl, rfl, by simp [do_allocate, hf, raw_alloc_eq]⟩))
      | false =>
        exact Or.inr (Or.inr (Or.inr (Or.inl
          ⟨p, rfl, rfl, rfl, by simp [do_allocate, hf, raw_alloc_eq]⟩)))

/-- The three exits of `do_deallocate`: the record moved to `free_blocks_`; the record erased
and lost because `free_blocks_` did not grow; the untracked pointer handed to
`raw_dealloc`. -/
theorem do_deallocate_cases (maxAlign : Nat) (s : Registry) (p bytes alignment : Nat)
    (grow : Bool) :
    (∃ i b, find_if (fun b => decide (b.ptr = p)) s.in_use_ = some (i, b) ∧ grow = true ∧
      do_deallocate maxAlign s p bytes alignment grow =
        { thrown := false
          state := { in_use_ := s.in_use_.eraseIdx i
                     free_blocks_ := s.free_blocks_ ++ [backfill b bytes alignment] }
          trace := [] }) ∨
    (∃ i b, find_if (fun b => decide (b.ptr = p)) s.in_use_ = some (i, b) ∧ grow = false ∧
      do_deallocate maxAlign s p bytes alignment grow =
        { thrown := true
          state := { in_use_ := s.in_use_.eraseIdx i, free_blocks_ := s.free_blocks_ }
          trace := [] }) ∨
    (find_if (fun b => decide (b.ptr = p)) s.in_use_ = none ∧
      do_deallocate maxAlign s p bytes alignment grow =
        { thrown := false, state := s, trace := raw_dealloc maxAlign p bytes alignment }) := by
  cases hf : find_if (fun b => decide (b.ptr = p)) s.in_use_ with
  | some r =>
    obtain ⟨i, b⟩ := r
    cases grow with
    | true => exact Or.inl ⟨i, b, rfl, rfl, by simp [do_deallocate, hf]⟩
    | false => exact Or.inr (Or.inl ⟨i, b, rfl, rfl, by simp [do_deallocate, hf]⟩)
  | none => exact Or.inr (Or.inr ⟨rfl, by simp [do_deallocate, hf]⟩)

theorem find_if_ptr_spec (l : List Block) (p i : Nat) (b : Block)
    (h : find_if (fun b => decide (b.ptr = p)) l = some (i, b)) :
    l[i]? = some b ∧ b.ptr = p ∧ ∀ j c, j < i → l[j]? = some c → c.ptr ≠ p := by
  obtain ⟨h1, h2, h3⟩ := find_if_some_spec _ _ _ _ h
  refine ⟨h1, by simpa using h2, ?_⟩
  intro j c hj hc
  simpa using h3 j c hj hc

theorem find_if_ptr_none (l : List Block) (p : Nat) :
    find_if (fun b => decide (b.ptr = p)) l = none ↔ p ∉ l.map Block.ptr := by
  rw [find_if_none_iff]
  constructor
  · intro h hmem
    obtain ⟨b, hb, hbp⟩ := List.mem_map.mp hmem
    have := h b hb
    simp [hbp] at this
  · intro h b hb
    have : b.ptr ≠ p := fun hbp => h (List.mem_map.mpr ⟨b, hb, hbp⟩)
    simpa using this

theorem find_if_fits_none (l : List Block) (bytes alignment : Nat) :
    find_if (fits bytes alignment) l = none ↔
      ∀ b ∈ l, ¬ (bytes ≤ b.size ∧ alignment ≤ b.alignment) := by
  rw [find_if_none_iff]
  constructor
  · intro h b hb
    exact (fits_false_iff _ _ _).mp (h b hb)
  · intro h b hb
    exact (fits_false_iff _ _ _).mpr (h b hb)

/-- C1 (as stated, refuted). After an allocation of 8 bytes, its deallocation and an
allocation of 16 bytes, `free_blocks_` holds a block that fits the request `(8, 8)`; when
`in_use_` cannot grow, `do_allocate` ends in `std::bad_alloc` instead of returning the block,
which is erased from `free_blocks_` and not appended to `in_use_`. -/
theorem first_fit_hit_push_back_throws :
    (∃ b ∈ (run 16 empty fullInUseCalls).1.free_blocks_, 8 ≤ b.size ∧ 8 ≤ b.alignment) ∧
    do_allocate 16 (run 16 empty fullInUseCalls).1 8 8 none false =
      { result := AllocResult.bad_alloc
        state := { in_use_ := [⟨2, 16, 8⟩], free_blocks_ := [] }
        trace := [] } ∧
    (run 16 empty fullInUseCalls).1 = { in_use_ := [⟨2, 16, 8⟩], free_blocks_ := [⟨1, 8, 8⟩] } := by
  decide

/-- C1 (amended). First-fit hit: when some free block has `size >= bytes` and
`alignment >= alignment` and the `push_back` to `in_use_` does not throw, `do_allocate`
returns the address of the block at the smallest such index of `free_blocks_`, erases exactly
that entry from `free_blocks_`, appends that record to `in_use_`, and makes no heap call. -/
theorem do_allocate_first_fit_hit (maxAlign : Nat) (s : Registry) (bytes alignment : Nat)
    (oracle : Option Nat)
    (h : ∃ b ∈ s.free_blocks_, bytes ≤ b.size ∧ alignment ≤ b.alignment) :
    ∃ i b, s.free_blocks_[i]? = some b ∧ (bytes ≤ b.size ∧ alignment ≤ b.alignment) ∧
      (∀ j c, j < i → s.free_blocks_[j]? = some c →
        ¬ (bytes ≤ c.size ∧ alignment ≤ c.alignment)) ∧
      do_allocate maxAlign s bytes alignment oracle true =
        { result := AllocResult.address b.ptr
          state := { in_use_ := s.in_use_ ++ [b], free_blocks_ := s.free_blocks_.eraseIdx i }
          trace := [] } := by
  obtain ⟨b0, hb0, hfit0⟩ := h
  obtain ⟨i, b, hf⟩ := find_if_exists_of_mem (fits bytes alignment) s.free_blocks_ b0 hb0
    ((fits_iff _ _ _).mpr hfit0)
  obtain ⟨h1, h2, h3⟩ := find_if_some_spec _ _ _ _ hf
  refine ⟨i, b, h1, (fits_iff _ _ _).mp h2, ?_, ?_⟩
  · intro j c hj hc
    exact (fits_false_iff _ _ _).mp (h3 j c hj hc)
  · simp [do_allocate, hf]

/-- Witness for C1 (amended): free set `[(2,4,8), (3,16,8), (4,32,16)]`, request `(8, 8)`. -/
theorem do_allocate_first_fit_hit_witness :
    (∃ b ∈ sampleRegistry.free_blocks_, 8 ≤ b.size ∧ 8 ≤ b.alignment) ∧
    ∃ i b, sampleRegistry.free_blocks_[i]? = some b ∧ (8 ≤ b.size ∧ 8 ≤ b.alignment) ∧
      (∀ j c, j < i → sampleRegistry.free_blocks_[j]? = some c →
        ¬ (8 ≤ c.size ∧ 8 ≤ c.alignment)) ∧
      do_allocate 16 sampleRegistry 8 8 none true =
        { result := AllocResult.address b.ptr
          state := { in_use_ := sampleRegistry.in_use_ ++ [b]
                     free_blocks_ := sampleRegistry.free_blocks_.eraseIdx i }
          trace := [] } :=
  ⟨⟨⟨3, 16, 8⟩, by decide, by decide⟩,
   do_allocate_first_fit_hit 16 sampleRegistry 8 8 none ⟨⟨3, 16, 8⟩, by decide, by decide⟩⟩

/-- C6 (as stated, refuted). After one allocation `free_blocks_` has never held a record;
when it cannot grow, `do_deallocate` of the tracked address 1 ends in `std::bad_alloc` with
the record erased from `in_use_` and nothing appended to `free_blocks_`. -/
theorem tracked_deallocate_push_back_throws :
    (∃ b ∈ (run 16 empty [Call.allocate 8 8 (some 1) true]).1.in_use_, b.ptr = 1) ∧
    do_deallocate 16 (run 16 empty [Call.allocate 8 8 (some 1) true]).1 1 8 8 false =
      { thrown := true, state := { in_use_ := [], free_blocks_ := [] }, trace := [] } := by
  decide

/-- C6 (amended). Deallocate of a tracked address, when the `push_back` to `free_blocks_`
does not throw: the first record of `in_use_` with address `p` is erased from `in_use_`, one
record with address `p` is appended to `free_blocks_` carrying the recorded size and
alignment (a recorded 0 replaced by the caller's value), nothing else changes, the call
returns and no heap call is made. -/
theorem do_deallocate_tracked (maxAlign : Nat) (s : Registry) (p bytes alignment : Nat)
    (h : ∃ b ∈ s.in_use_, b.ptr = p) :
    ∃ i b, s.in_use_[i]? = some b ∧ b.ptr = p ∧
      (∀ j c, j < i → s.in_use_[j]? = some c → c.ptr ≠ p) ∧
      do_deallocate maxAlign s p bytes alignment true =
        { thrown := false
          state :=
            { in_use_ := s.in_use_.eraseIdx i
              free_blocks_ := s.free_blocks_ ++
                [{ ptr := p
                   size := if b.size = 0 then bytes else b.size
                   alignment := if b.alignment = 0 then alignment else b.alignment }] }
          trace := [] } := by
  obtain ⟨b0, hb0, hp0⟩ := h
  obtain ⟨i, b, hf⟩ := find_if_exists_of_mem (fun b => decide (b.ptr = p)) s.in_use_ b0 hb0
    (by simpa using hp0)
  obtain ⟨h1, hbp, h3⟩ := find_if_ptr_spec _ _ _ _ hf
  exact ⟨i, b, h1, hbp, h3, by simp [do_deallocate, hf, backfill_eq, hbp]⟩

/-- Witness for C6 (amended): a registry with two records of address 7, the first with
size 0. -/
theorem do_deallocate_tracked_witness :
    (∃ b ∈ dupRegistry.in_use_, b.ptr = 7) ∧
    ∃ i b, dupRegistry.in_use_[i]? = some b ∧ b.ptr = 7 ∧
      (∀ j c, j < i → dupRegistry.in_use_[j]? = some c → c.ptr ≠ 7) ∧
      do_deallocate 16 dupRegistry 7 24 8 true =
        { thrown := false
          state :=
            { in_use_ := dupRegistry.in_use_.eraseIdx i
              free_blocks_ := dupRegistry.free_blocks_ ++
                [{ ptr := 7
                   size := if b.size = 0 then 24 else b.size
                   alignment := if b.alignment = 0 then 8 else b.alignment }] }
          trace := [] } :=
  ⟨⟨⟨7, 0, 8⟩, by decide, rfl⟩,
   do_deallocate_tracked 16 dupRegistry 7 24 8 ⟨⟨7, 0, 8⟩, by decide, rfl⟩⟩

/-- C7. Deallocate of an untracked non-null address: whatever room the vectors have, the
call returns, the registry is unchanged and exactly one heap release is made, of `p` with the
caller's `bytes` and `alignment`. -/
theorem do_deallocate_untracked (maxAlign : Nat) (s : Registry) (p bytes alignment : Nat)
    (grow : Bool) (hp : p ≠ 0) (h : ∀ b ∈ s.in_use_, b.ptr ≠ p) :
    do_deallocate maxAlign s p bytes alignment grow =
      { thrown := false
        state := s
        trace := [RawEvent.release p bytes alignment (decide (alignment > maxAlign))] } := by
  have hf : find_if (fun b => decide (b.ptr = p)) s.in_use_ = none := by
    rw [find_if_none_iff]
    intro b hb
    simpa using h b hb
  by_cases ha : alignment > maxAlign <;> simp [do_deallocate, hf, raw_dealloc, hp, ha]

/-- Witness for C7: address 3 sits in the free set of the sample registry, not in `in_use_`. -/
theorem do_deallocate_untracked_witness :
    (3 ≠ 0 ∧ ∀ b ∈ sampleRegistry.in_use_, b.ptr ≠ 3) ∧
    do_deallocate 16 sampleRegistry 3 99 32 false =
      { thrown := false
        state := sampleRegistry
        trace := [RawEvent.release 3 99 32 (decide (32 > 16))] } :=
  ⟨⟨by decide, by decide⟩,
   do_deallocate_untracked 16 sampleRegistry 3 99 32 false (by decide) (by decide)⟩

/-- C8 (as stated, refuted). On a fresh resource no free block fits and the heap answers the
request `(8, 8)` with address 1; when `in_use_` cannot grow, `do_allocate` ends in
`std::bad_alloc`: no address is returned and no record is appended, although the one
reservation was made. -/
theorem miss_push_back_throws :
    (∀ b ∈ empty.free_blocks_, ¬ (8 ≤ b.size ∧ 8 ≤ b.alignment)) ∧
    do_allocate 16 empty 8 8 (some 1) false =
      { result := AllocResult.bad_alloc
        state := { in_use_ := [], free_blocks_ := [] }
        trace := [RawEvent.reserve 8 8 false (some 1)] } := by
  decide

/-- C8 (amended). Allocate miss: when no free block fits, the heap answers with `p` and the
`push_back` to `in_use_` does not throw, `do_allocate` makes exactly one heap reservation,
for `(bytes, alignment)`, returns `p`, appends the record `(p, bytes, alignment)` to `in_use_`
and leaves `free_blocks_` unchanged. -/
theorem do_allocate_miss (maxAlign : Nat) (s : Registry) (bytes alignment p : Nat)
    (h : ∀ b ∈ s.free_blocks_, ¬ (bytes ≤ b.size ∧ alignment ≤ b.alignment)) :
    do_allocate maxAlign s bytes alignment (some p) true =
      { result := AllocResult.address p
        state := { in_use_ := s.in_use_ ++ [{ ptr := p, size := bytes, alignment := alignment }]
                   free_blocks_ := s.free_blocks_ }
        trace := [RawEvent.reserve bytes alignment (decide (alignment > maxAlign)) (some p)] } := by
  have hf : find_if (fits bytes alignment) s.free_blocks_ = none :=
    (find_if_fits_none _ _ _).mpr h
  simp [do_allocate, hf, raw_alloc_eq]

/-- Witness for C8 (amended): request `(64, 8)` on the sample registry, the heap answers 9. -/
theorem do_allocate_miss_witness :
    (∀ b ∈ sampleRegistry.free_blocks_, ¬ (64 ≤ b.size ∧ 8 ≤ b.alignment)) ∧
    do_allocate 16 sampleRegistry 64 8 (some 9) true =
      { result := AllocResult.address 9
        state := { in_use_ := sampleRegistry.in_use_ ++ [{ ptr := 9, size := 64, alignment := 8 }]
                   free_blocks_ := sampleRegistry.free_blocks_ }
        trace := [RawEvent.reserve 64 8 (decide (8 > 16)) (some 9)] } :=
  ⟨by decide, do_allocate_miss 16 sampleRegistry 64 8 9 (by decide)⟩

/-- C9 (as stated, refuted). `do_allocate` ends in `std::bad_alloc` although a free block
fits the request, and `free_blocks_` is not what it was: the state after `fullInUseCalls`,
request `(8, 8)`, `in_use_` unable to grow.  It also ends in `std::bad_alloc` on a fresh
resource although the heap answers the reservation, when `in_use_` cannot grow. -/
theorem bad_alloc_with_fitting_block :
    ((do_allocate 16 (run 16 empty fullInUseCalls).1 8 8 none false).result =
        AllocResult.bad_alloc ∧
      (∃ b ∈ (run 16 empty fullInUseCalls).1.free_blocks_, 8 ≤ b.size ∧ 8 ≤ b.alignment) ∧
      (do_allocate 16 (run 16 empty fullInUseCalls).1 8 8 none false).state.free_blocks_ ≠
        (run 16 empty fullInUseCalls).1.free_blocks_) ∧
    (do_allocate 16 empty 8 8 (some 1) false).result = AllocResult.bad_alloc := by
  decide

/-- C9 (amended). OutOfMemory: `do_allocate` ends in `std::bad_alloc` exactly when no free
block fits the request and the heap reservation fails, or the `push_back` to `in_use_`
throws; when no free block fits the request, the registry is then unchanged. -/
theorem do_allocate_bad_alloc_iff (maxAlign : Nat) (s : Registry) (bytes alignment : Nat)
    (oracle : Option Nat) (grow : Bool) :
    ((do_allocate maxAlign s bytes alignment oracle grow).result = AllocResult.bad_alloc ↔
      ((∀ b ∈ s.free_blocks_, ¬ (bytes ≤ b.size ∧ alignment ≤ b.alignment)) ∧ oracle = none) ∨
        grow = false) ∧
    ((∀ b ∈ s.free_blocks_, ¬ (bytes ≤ b.size ∧ alignment ≤ b.alignment)) →
      (do_allocate maxAlign s bytes alignment oracle grow).result = AllocResult.bad_alloc →
      (do_allocate maxAlign s bytes alignment oracle grow).state = s) := by
  rcases do_allocate_cases maxAlign s bytes alignment oracle grow with
    ⟨i, b, hf, hg, he⟩ | ⟨i, b, hf, hg, he⟩ | ⟨p, hf, ho, hg, he⟩ | ⟨p, hf, ho, hg, he⟩ |
    ⟨hf, ho, he⟩
  · obtain ⟨h1, h2, -⟩ := find_if_some_spec _ _ _ _ hf
    have hmem : b ∈ s.free_blocks_ := List.getElem?_mem h1
    have hfit := (fits_iff _ _ _).mp h2
    rw [he]
    subst hg
    refine ⟨⟨fun h => (by cases h), fun h => ?_⟩, fun _ h => (by cases h)⟩
    rcases h with h | h
    · exact absurd hfit (h.1 b hmem)
    · cases h
  · obtain ⟨h1, h2, -⟩ := find_if_some_spec _ _ _ _ hf
    have hmem : b ∈ s.free_blocks_ := List.getElem?_mem h1
    have hfit := (fits_iff _ _ _).mp h2
    rw [he]
    exact ⟨⟨fun _ => Or.inr hg, fun _ => rfl⟩, fun h _ => absurd hfit (h b hmem)⟩
  · rw [he]
    subst hg ho
    refine ⟨⟨fun h => (by cases h), fun h => ?_⟩, fun _ h => (by cases h)⟩
    rcases h with h | h
    · cases h.2
    · cases h
  · rw [he]
    exact ⟨⟨fun _ => Or.inr hg, fun _ => rfl⟩, fun _ _ => rfl⟩
  · rw [he]
    exact ⟨⟨fun _ => Or.inl ⟨(find_if_fits_none _ _ _).mp hf, ho⟩, fun _ => rfl⟩, fun _ _ => rfl⟩

/-- Witness for C9 (amended): request `(64, 8)` on the sample registry with a failing heap. -/
theorem do_allocate_bad_alloc_iff_witness :
    (∀ b ∈ sampleRegistry.free_blocks_, ¬ (64 ≤ b.size ∧ 8 ≤ b.alignment)) ∧
    (do_allocate 16 sampleRegistry 64 8 none true).result = AllocResult.bad_alloc ∧
    (do_allocate 16 sampleRegistry 64 8 none true).state = sampleRegistry :=
  ⟨by decide,
   ((do_allocate_bad_alloc_iff 16 sampleRegistry 64 8 none true).1).2 (Or.inl ⟨by decide, rfl⟩),
   (do_allocate_bad_alloc_iff 16 sampleRegistry 64 8 none true).2 (by decide) (by decide)⟩

theorem foldl_append_eq {α β : Type} (f : α → List β) (l : List α) (acc : List β) :
    l.foldl (fun t b => t ++ f b) acc = acc ++ (l.map f).flatten := by
  induction l generalizing acc with
  | nil => simp
  | cons x xs ih => simp [ih]

theorem raw_dealloc_flatten (maxAlign : Nat) (l : List Block) :
    (l.map (fun b => raw_dealloc maxAlign b.ptr b.size b.alignment)).flatten =
      (l.filter (fun b => decide (b.ptr ≠ 0))).map (releaseOf maxAlign) := by
  induction l with
  | nil => rfl
  | cons b bs ih =>
    rw [List.map_cons, List.flatten_cons, ih]
    by_cases hp : b.ptr = 0
    · simp [raw_dealloc, hp, List.filter_cons]
    · by_cases ha : b.alignment > maxAlign
      · simp [raw_dealloc, hp, ha, List.filter_cons, releaseOf]
      · simp [raw_dealloc, hp, ha, List.filter_cons, releaseOf]

theorem destroy_eq (maxAlign : Nat) (s : Registry) :
    destroy maxAlign s =
      ((s.in_use_ ++ s.free_blocks_).filter (fun b => decide (b.ptr ≠ 0))).map
        (releaseOf maxAlign) := by
  simp only [destroy, foldl_append_eq, List.nil_append, raw_dealloc_flatten, List.filter_append,
    List.map_append]

/-- On a registry without a null address the destructor releases every record, `in_use_`
first, with the record's own address, size and alignment. -/
theorem destroy_of_nonnull (maxAlign : Nat) (s : Registry)
    (h : ∀ a ∈ addrs s, a ≠ 0) :
    destroy maxAlign s = (s.in_use_ ++ s.free_blocks_).map (releaseOf maxAlign) := by
  have hf : (s.in_use_ ++ s.free_blocks_).filter (fun b => decide (b.ptr ≠ 0)) =
      s.in_use_ ++ s.free_blocks_ := by
    rw [List.filter_eq_self]
    intro b hb
    have := h b.ptr (List.mem_map_of_mem Block.ptr hb)
    simpa using this
  rw [destroy_eq, hf]

theorem find_if_append_singleton {α : Type} (pred : α → Bool) (l : List α) (x : α)
    (hl : find_if pred l = none) (hx : pred x = true) :
    find_if pred (l ++ [x]) = some (l.length, x) := by
  induction l with
  | nil => simp [find_if, hx]
  | cons a as ih =>
    have ha : pred a = false := (find_if_none_iff pred (a :: as)).mp hl a (by simp)
    have has : find_if pred as = none := by
      rw [find_if_none_iff] at hl ⊢
      intro y hy
      exact hl y (by simp [hy])
    simp [find_if, ha, ih has]

theorem getElem?_lt_length {α : Type} (l : List α) (i : Nat) (x : α) (h : l[i]? = some x) :
    i < l.length := by
  by_contra hc
  rw [List.getElem?_eq_none (by omega)] at h
  cases h

/-! ## Sequences of calls -/

theorem perm_cons_eraseIdx {α : Type} (l : List α) (i : Nat) (x : α) (h : l[i]? = some x) :
    l.Perm (x :: l.eraseIdx i) := by
  induction l generalizing i with
  | nil => simp at h
  | cons a as ih =>
    cases i with
    | zero =>
      simp at h
      subst h
      exact List.Perm.refl _
    | succ k =>
      have hk : as[k]? = some x := by simpa using h
      exact (List.Perm.cons a (ih k hk)).trans (List.Perm.swap x a _)

theorem subperm_nodup {l1 l2 : List Nat} (h : l1.Subperm l2) (hn : l2.Nodup) : l1.Nodup := by
  obtain ⟨l, hperm, hsub⟩ := h
  exact hperm.nodup_iff.mp (hn.sublist hsub)

theorem subperm_erase_of_not_mem {l1 l2 : List Nat} (p : Nat) (h : l1.Subperm l2)
    (hp : p ∉ l1) : l1.Subperm (l2.erase p) := by
  have := h.erase p
  rwa [List.erase_of_not_mem hp] at this

/-- The addresses tracked after `do_allocate`: those tracked before, without the block lost
when a reuse finds no room in `in_use_`, and with the new address when one was recorded. -/
theorem do_allocate_addrs (maxAlign : Nat) (s : Registry) (bytes alignment : Nat)
    (oracle : Option Nat) (grow : Bool) :
    ((do_allocate maxAlign s bytes alignment oracle grow).trace = [] ∧
      (addrs (do_allocate maxAlign s bytes alignment oracle grow).state).Subperm (addrs s)) ∨
    (∃ p f, (do_allocate maxAlign s bytes alignment oracle grow).trace =
        [RawEvent.reserve bytes alignment f (some p)] ∧
      (addrs (do_allocate maxAlign s bytes alignment oracle grow).state).Subperm
        (p :: addrs s)) ∨
    (∃ f, (do_allocate maxAlign s bytes alignment oracle grow).trace =
        [RawEvent.reserve bytes alignment f none] ∧
      (do_allocate maxAlign s bytes alignment oracle grow).state = s) := by
  rcases do_allocate_cases maxAlign s bytes alignment oracle grow with
    ⟨i, b, hf, -, he⟩ | ⟨i, b, hf, -, he⟩ | ⟨p, -, -, -, he⟩ | ⟨p, -, -, -, he⟩ | ⟨-, -, he⟩
  · obtain ⟨h1, -, -⟩ := find_if_some_spec _ _ _ _ hf
    left
    rw [he]
    refine ⟨rfl, List.Perm.subperm ?_⟩
    have hperm := perm_cons_eraseIdx _ _ _ h1
    simp only [addrs, List.map_append, List.map_cons, List.map_nil, List.append_assoc,
      List.singleton_append]
    exact List.Perm.append_left _ (hperm.map Block.ptr).symm
  · left
    rw [he]
    refine ⟨rfl, List.Sublist.subperm ?_⟩
    simp only [addrs]
    exact (List.Sublist.append_left (List.eraseIdx_sublist _ _) _).map Block.ptr
  · right; left
    rw [he]
    refine ⟨p, _, rfl, List.Perm.subperm ?_⟩
    simp only [addrs, List.map_append, List.map_cons, List.map_nil, List.append_assoc,
      List.singleton_append]
    exact List.perm_middle
  · right; left
    rw [he]
    exact ⟨p, _, rfl, (List.Subperm.refl _).cons_right p⟩
  · right; right
    rw [he]
    exact ⟨_, rfl, rfl⟩

/-- The addresses tracked after `do_deallocate`: those tracked before, without the block
lost when `free_blocks_` finds no room; the untracked path changes nothing and makes at most
one release, of the caller's pointer. -/
theorem do_deallocate_addrs (maxAlign : Nat) (s : Registry) (p bytes alignment : Nat)
    (grow : Bool) :
    ((do_deallocate maxAlign s p bytes alignment grow).trace = [] ∧
      (addrs (do_deallocate maxAlign s p bytes alignment grow).state).Subperm (addrs s)) ∨
    (p ∉ s.in_use_.map Block.ptr ∧ (do_deallocate maxAlign s p bytes alignment grow).state = s ∧
      ∃ f, (do_deallocate maxAlign s p bytes alignment grow).trace =
        [RawEvent.release p bytes alignment f]) := by
  rcases do_deallocate_cases maxAlign s p bytes alignment grow with
    ⟨i, b, hf, -, he⟩ | ⟨i, b, hf, -, he⟩ | ⟨hf, he⟩
  · obtain ⟨h1, hbp, -⟩ := find_if_ptr_spec _ _ _ _ hf
    left
    rw [he]
    refine ⟨rfl, List.Perm.subperm ?_⟩
    have hperm := (perm_cons_eraseIdx _ _ _ h1).map Block.ptr
    have hptr : (backfill b bytes alignment).ptr = b.ptr := by rw [backfill_eq]
    simp only [addrs, List.map_append, List.map_cons, List.map_nil, hptr]
    have e1 : List.map Block.ptr (s.in_use_.eraseIdx i) ++
        (List.map Block.ptr s.free_blocks_ ++ [b.ptr]) =
        List.map Block.ptr (s.in_use_.eraseIdx i) ++ List.map Block.ptr s.free_blocks_ ++
          [b.ptr] := by simp
    rw [e1]
    refine (List.perm_append_singleton _ _).trans ?_
    rw [← List.cons_append]
    exact List.Perm.append_right _ hperm.symm
  · left
    rw [he]
    refine ⟨rfl, List.Sublist.subperm ?_⟩
    simp only [addrs]
    exact (List.Sublist.append_right (List.eraseIdx_sublist _ _) _).map Block.ptr
  · have hnot : p ∉ s.in_use_.map Block.ptr := (find_if_ptr_none _ _).mp hf
    rw [he]
    by_cases hp : p = 0
    · left
      subst hp
      exact ⟨by simp [raw_dealloc], List.Subperm.refl _⟩
    · right
      refine ⟨hnot, rfl, decide (alignment > maxAlign), ?_⟩
      by_cases ha : alignment > maxAlign <;> simp [raw_dealloc, hp, ha]

theorem noDoubleRelease_append (t1 t2 : List RawEvent) (h : Heap) :
    noDoubleRelease h (t1 ++ t2) = (noDoubleRelease h t1 && noDoubleRelease (h.run t1) t2) := by
  induction t1 generalizing h with
  | nil => simp [noDoubleRelease, Heap.run]
  | cons e t ih => simp [noDoubleRelease, Heap.run, ih, Bool.and_assoc]

theorem freshTrace_append (t1 t2 : List RawEvent) (h : Heap) :
    freshTrace h (t1 ++ t2) = (freshTrace h t1 && freshTrace (h.run t1) t2) := by
  induction t1 generalizing h with
  | nil => simp [freshTrace, Heap.run]
  | cons e t ih => simp [freshTrace, Heap.run, ih, Bool.and_assoc]

theorem nonNullTrace_append (t1 t2 : List RawEvent) :
    nonNullTrace (t1 ++ t2) = (nonNullTrace t1 && nonNullTrace t2) := by
  induction t1 with
  | nil => simp [nonNullTrace]
  | cons e t ih =>
    cases e with
    | reserve bytes alignment f result =>
      cases result with
      | none => simp [nonNullTrace, ih]
      | some p => simp [nonNullTrace, ih, Bool.and_assoc]
    | release p bytes alignment f => simp [nonNullTrace, ih]

theorem Heap.run_append (t1 t2 : List RawEvent) (h : Heap) :
    h.run (t1 ++ t2) = (h.run t1).run t2 := by
  induction t1 generalizing h with
  | nil => rfl
  | cons e t ih => simp [Heap.run, ih]

/-- One client call, whatever its exit, keeps every tracked address reserved at the heap, as
long as a deallocated address does not sit in the free set. -/
theorem step_tracked_live (maxAlign : Nat) (s : Registry) (h : Heap) (c : Call)
    (hsub : (addrs s).Subperm h.live)
    (hc : ∀ p bytes alignment grow, c = Call.deallocate p bytes alignment grow →
      p ∈ s.in_use_.map Block.ptr ∨ p ∉ s.free_blocks_.map Block.ptr) :
    (addrs (step maxAlign s c).1).Subperm (h.run (step maxAlign s c).2).live := by
  cases c with
  | allocate bytes alignment oracle grow =>
    simp only [step]
    rcases do_allocate_addrs maxAlign s bytes alignment oracle grow with
      ⟨ht, hp⟩ | ⟨p, f, ht, hp⟩ | ⟨f, ht, hs⟩
    · rw [ht]
      exact hp.trans hsub
    · rw [ht]
      simp only [Heap.run, Heap.step]
      exact hp.trans ((List.subperm_cons p).mpr hsub)
    · rw [ht, hs]
      simpa [Heap.run, Heap.step] using hsub
  | deallocate p bytes alignment grow =>
    simp only [step]
    rcases do_deallocate_addrs maxAlign s p bytes alignment grow with ⟨ht, hp⟩ | ⟨hin, hs, f, ht⟩
    · rw [ht]
      exact hp.trans hsub
    · have hfree : p ∉ s.free_blocks_.map Block.ptr :=
        (hc p bytes alignment grow rfl).elim (fun h1 => absurd h1 hin) id
      have hnot : p ∉ addrs s := by
        simp only [addrs, List.map_append, List.mem_append]
        exact fun h1 => h1.elim hin hfree
      rw [ht, hs]
      simp only [Heap.run, Heap.step]
      split
      · exact subperm_erase_of_not_mem p hsub hnot
      · exact hsub

theorem run_tracked_live (maxAlign : Nat) (calls : List Call) :
    ∀ (s : Registry) (h : Heap), (addrs s).Subperm h.live →
      noFreeDealloc maxAlign s calls = true →
      (addrs (run maxAlign s calls).1).Subperm (h.run (run maxAlign s calls).2).live := by
  induction calls with
  | nil =>
    intro s h hsub _
    exact hsub
  | cons c cs ih =>
    intro s h hsub hc
    simp only [noFreeDealloc, Bool.and_eq_true] at hc
    have h2 := step_tracked_live maxAlign s h c hsub (by
      intro p bytes alignment grow hcd
      subst hcd
      right
      simpa using hc.1)
    have k2 := ih (step maxAlign s c).1 (h.run (step maxAlign s c).2) h2 hc.2
    simp only [run]
    rw [Heap.run_append]
    exact k2

/-- A run in which every deallocated address is lent out, or is neither free nor released
before, releases nothing twice and keeps every tracked address reserved at the heap. -/
theorem run_no_stale (maxAlign : Nat) (calls : List Call) :
    ∀ (s : Registry) (h : Heap), (addrs s).Subperm h.live →
      noStaleDealloc maxAlign s h calls = true →
      noDoubleRelease h (run maxAlign s calls).2 = true ∧
      (addrs (run maxAlign s calls).1).Subperm (h.run (run maxAlign s calls).2).live := by
  induction calls with
  | nil =>
    intro s h hsub _
    exact ⟨rfl, hsub⟩
  | cons c cs ih =>
    intro s h hsub hc
    simp only [noStaleDealloc, Bool.and_eq_true] at hc
    obtain ⟨hc1, hc2⟩ := hc
    have h2 := step_tracked_live maxAlign s h c hsub (by
      intro p bytes alignment grow hcd
      subst hcd
      simp only [Bool.or_eq_true, Bool.and_eq_true, decide_eq_true_eq] at hc1
      exact hc1.elim Or.inl (fun h1 => Or.inr h1.1))
    have h1 : noDoubleRelease h (step maxAlign s c).2 = true := by
      cases c with
      | allocate bytes alignment oracle grow =>
        simp only [step]
        rcases do_allocate_addrs maxAlign s bytes alignment oracle grow with
          ⟨ht, -⟩ | ⟨p, f, ht, -⟩ | ⟨f, ht, -⟩ <;> rw [ht] <;> simp [noDoubleRelease]
      | deallocate p bytes alignment grow =>
        simp only [step]
        rcases do_deallocate_addrs maxAlign s p bytes alignment grow with
          ⟨ht, -⟩ | ⟨hin, -, f, ht⟩
        · rw [ht]
          rfl
        · simp only [Bool.or_eq_true, Bool.and_eq_true, decide_eq_true_eq] at hc1
          have hrel : p ∉ h.released := hc1.elim (fun h1 => absurd h1 hin) (fun h1 => h1.2)
          rw [ht]
          simp [noDoubleRelease, hrel]
    obtain ⟨k1, k2⟩ := ih (step maxAlign s c).1 (h.run (step maxAlign s c).2) h2 hc2
    simp only [run]
    rw [noDoubleRelease_append, Heap.run_append]
    exact ⟨by simp [h1, k1], k2⟩

theorem fresh_nodup (t : List RawEvent) :
    ∀ h : Heap, freshTrace h t = true → h.live.Nodup → (h.run t).live.Nodup := by
  induction t with
  | nil => intro h _ hn; exact hn
  | cons e t ih =>
    intro h hf hn
    simp only [freshTrace, Bool.and_eq_true] at hf
    obtain ⟨he, ht⟩ := hf
    simp only [Heap.run]
    apply ih _ ht
    cases e with
    | reserve bytes alignment f result =>
      cases result with
      | none => simpa [Heap.step] using hn
      | some p =>
        have hp : p ∉ h.live := by simpa using he
        simp only [Heap.step]
        exact List.nodup_cons.mpr ⟨hp, hn⟩
    | release p bytes alignment f =>
      simp only [Heap.step]
      split
      · exact hn.erase p
      · exact hn

theorem release_all_once (maxAlign : Nat) (bl : List Block) :
    ∀ h : Heap, (bl.map Block.ptr).Subperm h.live →
      noDoubleRelease h (bl.map (releaseOf maxAlign)) = true := by
  induction bl with
  | nil => intro h _; rfl
  | cons b bs ih =>
    intro h hsub
    have hmem : b.ptr ∈ h.live := hsub.subset (by simp)
    have htail : (bs.map Block.ptr).Subperm (h.live.erase b.ptr) := by
      have := hsub.erase b.ptr
      simpa using this
    simp only [List.map_cons, noDoubleRelease, releaseOf, Heap.step, hmem, if_true,
      not_true_eq_false, decide_False, Bool.false_and, Bool.not_false, Bool.true_and]
    exact ih _ htail

/-- One client call records no null address when the heap answers none. -/
theorem step_nonnull (maxAlign : Nat) (s : Registry) (c : Call)
    (hs : ∀ a ∈ addrs s, a ≠ 0) (ht : nonNullTrace (step maxAlign s c).2 = true) :
    ∀ a ∈ addrs (step maxAlign s c).1, a ≠ 0 := by
  cases c with
  | allocate bytes alignment oracle grow =>
    simp only [step] at ht ⊢
    rcases do_allocate_addrs maxAlign s bytes alignment oracle grow with
      ⟨-, hp⟩ | ⟨p, f, he, hp⟩ | ⟨f, -, he⟩
    · intro a ha
      exact hs a (hp.subset ha)
    · rw [he] at ht
      have hp0 : p ≠ 0 := by simpa [nonNullTrace] using ht
      intro a ha
      rcases List.mem_cons.mp (hp.subset ha) with h1 | h1
      · rw [h1]; exact hp0
      · exact hs a h1
    · rw [he]
      exact hs
  | deallocate p bytes alignment grow =>
    simp only [step]
    rcases do_deallocate_addrs maxAlign s p bytes alignment grow with ⟨-, hp⟩ | ⟨-, he, -⟩
    · intro a ha
      exact hs a (hp.subset ha)
    · rw [he]
      exact hs

theorem run_nonnull (maxAlign : Nat) (calls : List Call) :
    ∀ s : Registry, (∀ a ∈ addrs s, a ≠ 0) → nonNullTrace (run maxAlign s calls).2 = true →
      ∀ a ∈ addrs (run maxAlign s calls).1, a ≠ 0 := by
  induction calls with
  | nil =>
    intro s hs _
    exact hs
  | cons c cs ih =>
    intro s hs ht
    simp only [run, nonNullTrace_append, Bool.and_eq_true] at ht
    exact ih _ (step_nonnull maxAlign s c hs ht.1) ht.2

/-- C5. Teardown: in every state a resource reaches from its construction by allocate and
deallocate calls, whatever their exits, the heap never answering with the null address, the
destructor makes exactly one heap release per record of `in_use_` and then of `free_blocks_`,
in that order, each with the record's address, size and alignment, and no other heap call;
that is `in_use_count() + free_count()` releases. -/
theorem destroy_releases_each_record_once (maxAlign : Nat) (calls : List Call)
    (hheap : nonNullTrace (run maxAlign empty calls).2 = true) :
    destroy maxAlign (run maxAlign empty calls).1 =
      ((run maxAlign empty calls).1.in_use_ ++ (run maxAlign empty calls).1.free_blocks_).map
        (fun b => RawEvent.release b.ptr b.size b.alignment (decide (b.alignment > maxAlign))) ∧
    (destroy maxAlign (run maxAlign empty calls).1).length =
      in_use_count (run maxAlign empty calls).1 + free_count (run maxAlign empty calls).1 := by
  have hnn := run_nonnull maxAlign calls empty (by simp [addrs, empty]) hheap
  have he := destroy_of_nonnull maxAlign _ hnn
  refine ⟨he, ?_⟩
  rw [he]
  simp [in_use_count, free_count]

/-- Witness for C5: the state after `sampleCalls` (one block lent out, one free, one lost,
one reserved and never recorded). -/
theorem destroy_releases_each_record_once_witness :
    nonNullTrace (run 16 empty sampleCalls).2 = true ∧
    destroy 16 (run 16 empty sampleCalls).1 =
      ((run 16 empty sampleCalls).1.in_use_ ++ (run 16 empty sampleCalls).1.free_blocks_).map
        (fun b => RawEvent.release b.ptr b.size b.alignment (decide (b.alignment > 16))) ∧
    (destroy 16 (run 16 empty sampleCalls).1).length =
      in_use_count (run 16 empty sampleCalls).1 + free_count (run 16 empty sampleCalls).1 :=
  ⟨by decide, destroy_releases_each_record_once 16 sampleCalls (by decide)⟩

/-- C3 (as stated, refuted). An allocation, a deallocation, a second deallocation of the same
address and a larger allocation that the heap serves with the address it got back: the heap
never hands out an address it has reserved, and address 1 ends up in both vectors. -/
theorem double_free_breaks_disjointness :
    freshTrace Heap.init (run 16 empty doubleFreeCalls).2 = true ∧
    ¬ (∀ b ∈ (run 16 empty doubleFreeCalls).1.in_use_,
        ∀ c ∈ (run 16 empty doubleFreeCalls).1.free_blocks_, b.ptr ≠ c.ptr) := by
  decide

/-- C3 (amended). Registry disjointness: in every state reached from the empty registry by a
sequence of allocate and deallocate calls, whatever their exits, in which deallocate is never
called with an address that sits in the free set at that moment (any other address is
allowed), the heap only handing out addresses it does not currently have reserved, no address
occurs in both `in_use_` and `free_blocks_`. -/
theorem registry_disjoint (maxAlign : Nat) (calls : List Call)
    (hfresh : freshTrace Heap.init (run maxAlign empty calls).2 = true)
    (hcaller : noFreeDealloc maxAlign empty calls = true) :
    ∀ b ∈ (run maxAlign empty calls).1.in_use_,
      ∀ c ∈ (run maxAlign empty calls).1.free_blocks_, b.ptr ≠ c.ptr := by
  have hsub := run_tracked_live maxAlign calls empty Heap.init
    (by simp [addrs, empty, Heap.init]) hcaller
  have hnd : (addrs (run maxAlign empty calls).1).Nodup :=
    subperm_nodup hsub (fresh_nodup _ Heap.init hfresh (by simp [Heap.init]))
  simp only [addrs, List.map_append] at hnd
  have hdis := (List.nodup_append.mp hnd).2.2
  intro b hb c hc heq
  exact hdis (List.mem_map_of_mem Block.ptr hb) (heq ▸ List.mem_map_of_mem Block.ptr hc)

/-- Witness for C3 (amended): the calls of `sampleCalls`, two of which end in
`std::bad_alloc`. -/
theorem registry_disjoint_witness :
    (freshTrace Heap.init (run 16 empty sampleCalls).2 = true ∧
      noFreeDealloc 16 empty sampleCalls = true) ∧
    ∀ b ∈ (run 16 empty sampleCalls).1.in_use_,
      ∀ c ∈ (run 16 empty sampleCalls).1.free_blocks_, b.ptr ≠ c.ptr :=
  ⟨⟨by decide, by decide⟩, registry_disjoint 16 sampleCalls (by decide) (by decide)⟩

/-- C4 (as stated, refuted). Allocate, deallocate, deallocate the same address again, destroy:
the second deallocate releases block 1 to the heap, and the destructor, which still finds it
in the free set, releases it once more.  Also without an address of the free set: allocate, a
deallocate that loses the record because `free_blocks_` cannot grow, and two more deallocates
of that address release block 1 twice. -/
theorem double_free_releases_twice :
    (noDoubleRelease Heap.init
        ((run 16 empty doubleReleaseCalls).2 ++ destroy 16 (run 16 empty doubleReleaseCalls).1) =
        false ∧
      (run 16 empty doubleReleaseCalls).2 ++ destroy 16 (run 16 empty doubleReleaseCalls).1 =
        [RawEvent.reserve 8 8 false (some 1), RawEvent.release 1 8 8 false,
         RawEvent.release 1 8 8 false]) ∧
    (noFreeDealloc 16 empty lostBlockCalls = true ∧
      noDoubleRelease Heap.init
        ((run 16 empty lostBlockCalls).2 ++ destroy 16 (run 16 empty lostBlockCalls).1) =
        false ∧
      (run 16 empty lostBlockCalls).2 ++ destroy 16 (run 16 empty lostBlockCalls).1 =
        [RawEvent.reserve 8 8 false (some 1), RawEvent.release 1 8 8 false,
         RawEvent.release 1 8 8 false]) := by
  decide

/-- C4 (amended). No double release: for every sequence of allocate and deallocate calls on
a fresh resource, whatever their exits, in which deallocate is only called with an address
that is in `in_use_` at that moment, or with one that is not in `free_blocks_` at that moment
and whose reservation was not released to the heap before, followed by the destructor, no
reservation made at the heap is released more than once, counting the releases of the
untracked-pointer path and of the destructor. -/
theorem no_double_release (maxAlign : Nat) (calls : List Call)
    (hcaller : noStaleDealloc maxAlign empty Heap.init calls = true) :
    noDoubleRelease Heap.init
      ((run maxAlign empty calls).2 ++ destroy maxAlign (run maxAlign empty calls).1) = true := by
  obtain ⟨h1, hsub0⟩ := run_no_stale maxAlign calls empty Heap.init
    (by simp [addrs, empty, Heap.init]) hcaller
  rw [noDoubleRelease_append, h1, destroy_eq, Bool.true_and]
  apply release_all_once
  have hsub : ((List.filter (fun b => decide (b.ptr ≠ 0))
        ((run maxAlign empty calls).1.in_use_ ++ (run maxAlign empty calls).1.free_blocks_)).map
      Block.ptr).Sublist (addrs (run maxAlign empty calls).1) :=
    (List.filter_sublist _).map Block.ptr
  exact hsub.subperm.trans hsub0

/-- Witness for C4 (amended): the calls of `sampleCalls`, with the release of a pointer the
resource never tracked and two calls that end in `std::bad_alloc`. -/
theorem no_double_release_witness :
    noStaleDealloc 16 empty Heap.init sampleCalls = true ∧
    noDoubleRelease Heap.init
      ((run 16 empty sampleCalls).2 ++ destroy 16 (run 16 empty sampleCalls).1) = true :=
  ⟨by decide, no_double_release 16 sampleCalls (by decide)⟩

/-- C2 (as stated, refuted). With a fitting block already in the free set, deallocating
address 2 and then allocating does not return address 2 but the older free block 1.  And
when `free_blocks_` cannot take the record of address 2 (first deallocate on a resource with
one block lent out), the record is lost and the next allocation is served by the heap. -/
theorem reuse_returns_older_free_block :
    ¬ ((do_allocate 16
          (do_deallocate 16 { in_use_ := [⟨2, 8, 8⟩], free_blocks_ := [⟨1, 8, 8⟩] } 2 8 8
            true).state
          8 8 none true).result = AllocResult.address 2) ∧
    (do_allocate 16
        (do_deallocate 16 (run 16 empty [Call.allocate 8 8 (some 2) true]).1 2 8 8 false).state
        8 8 (some 9) true).result = AllocResult.address 9 := by
  decide

/-- C2 (amended). Reuse law: if the first record of `in_use_` with address `p` has size `S`
and alignment `A`, the request has `bytes <= S` and `alignment <= A`, no block already in
the free set fits the request, and neither `push_back` throws, then `deallocate(p, ...)`
followed by `allocate(bytes, alignment)` returns `p`, without a heap call. -/
theorem reuse_returns_same_address (maxAlign : Nat) (s : Registry) (p dbytes dalignment : Nat)
    (bytes alignment : Nat) (oracle : Option Nat) (i : Nat) (b : Block)
    (hb : s.in_use_[i]? = some b) (hp : b.ptr = p)
    (hfirst : ∀ j c, j < i → s.in_use_[j]? = some c → c.ptr ≠ p)
    (hbytes : bytes ≤ b.size) (halign : alignment ≤ b.alignment)
    (hfree : ∀ c ∈ s.free_blocks_, ¬ (bytes ≤ c.size ∧ alignment ≤ c.alignment)) :
    (do_deallocate maxAlign s p dbytes dalignment true).thrown = false ∧
    (do_allocate maxAlign (do_deallocate maxAlign s p dbytes dalignment true).state
        bytes alignment oracle true).result = AllocResult.address p ∧
    (do_deallocate maxAlign s p dbytes dalignment true).trace ++
      (do_allocate maxAlign (do_deallocate maxAlign s p dbytes dalignment true).state
        bytes alignment oracle true).trace = [] := by
  obtain ⟨k, c, hfind⟩ := find_if_exists_of_mem (fun b => decide (b.ptr = p)) s.in_use_ b
    (List.getElem?_mem hb) (by simpa using hp)
  obtain ⟨hk, hcp, hmin⟩ := find_if_ptr_spec _ _ _ _ hfind
  have hkc : k = i ∧ c = b := by
    have h1 : ¬ i < k := fun hlt => hmin i b hlt hb hp
    have h2 : ¬ k < i := fun hlt => hfirst k c hlt hk hcp
    have hki : k = i := by omega
    subst hki
    rw [hk] at hb
    exact ⟨rfl, Option.some.inj hb⟩
  obtain ⟨rfl, rfl⟩ := hkc
  have he : do_deallocate maxAlign s p dbytes dalignment true =
      { thrown := false
        state := { in_use_ := s.in_use_.eraseIdx k
                   free_blocks_ := s.free_blocks_ ++ [backfill c dbytes dalignment] }
        trace := [] } := by
    simp [do_deallocate, hfind]
  have hnone : find_if (fits bytes alignment) s.free_blocks_ = none :=
    (find_if_fits_none _ _ _).mpr hfree
  have hfit : fits bytes alignment (backfill c dbytes dalignment) = true := by
    rw [fits_iff, backfill_eq]
    constructor
    · show bytes ≤ if c.size = 0 then dbytes else c.size
      split <;> omega
    · show alignment ≤ if c.alignment = 0 then dalignment else c.alignment
      split <;> omega
  have hscan := find_if_append_singleton _ _ _ hnone hfit
  have hptr : (backfill c dbytes dalignment).ptr = p := by
    rw [backfill_eq]
    exact hcp
  rw [he]
  simp only [do_allocate, hscan]
  simp [hptr]

/-- Witness for C2 (amended): address 5 of `reuseRegistry`, recorded with `(64, 8)`, released
and then requested with `(32, 8)`, which neither older free block fits. -/
theorem reuse_returns_same_address_witness :
    (reuseRegistry.in_use_[0]? = some ⟨5, 64, 8⟩ ∧
      (∀ j c, j < 0 → reuseRegistry.in_use_[j]? = some c → c.ptr ≠ 5) ∧
      (∀ c ∈ reuseRegistry.free_blocks_, ¬ (32 ≤ c.size ∧ 8 ≤ c.alignment))) ∧
    (do_deallocate 16 reuseRegistry 5 64 8 true).thrown = false ∧
    (do_allocate 16 (do_deallocate 16 reuseRegistry 5 64 8 true).state 32 8 none true).result =
      AllocResult.address 5 ∧
    (do_deallocate 16 reuseRegistry 5 64 8 true).trace ++
      (do_allocate 16 (do_deallocate 16 reuseRegistry 5 64 8 true).state 32 8 none true).trace =
      [] :=
  ⟨⟨by decide, (by intro j c hj; omega), by decide⟩,
   reuse_returns_same_address 16 reuseRegistry 5 64 8 32 8 none 0 ⟨5, 64, 8⟩ (by decide) rfl
     (by intro j c hj; omega) (by decide) (by decide) (by decide)⟩

/-! ## Recorded sizes and reserved sizes -/

theorem reservedBytes_append (t1 t2 : List RawEvent) (p : Nat) :
    ∀ cur, reservedBytes cur (t1 ++ t2) p = reservedBytes (reservedBytes cur t1 p) t2 p := by
  induction t1 with
  | nil => intro cur; rfl
  | cons e t ih =>
    intro cur
    cases e with
    | reserve bytes alignment f result =>
      cases result with
      | none =>
        rw [List.cons_append]
        simp only [reservedBytes]
        exact ih _
      | some q =>
        rw [List.cons_append]
        simp only [reservedBytes]
        exact ih _
    | release q bytes alignment f =>
      rw [List.cons_append]
      simp only [reservedBytes]
      exact ih _

/-- One call that keeps to `sizeKeepingCalls`, whatever its exit, keeps every recorded size
equal to the reserved size. -/
theorem step_sizes (maxAlign : Nat) (s : Registry) (h : Heap) (t0 : List RawEvent) (c : Call)
    (hrec : ∀ b ∈ s.in_use_ ++ s.free_blocks_, reservedBytes none t0 b.ptr = some b.size)
    (hlive : ∀ a ∈ addrs s, a ∈ h.live)
    (hfresh : freshTrace h (step maxAlign s c).2 = true)
    (hc : sizeKeepingCalls maxAlign s [c] = true) :
    (∀ b ∈ (step maxAlign s c).1.in_use_ ++ (step maxAlign s c).1.free_blocks_,
      reservedBytes none (t0 ++ (step maxAlign s c).2) b.ptr = some b.size) ∧
    (∀ a ∈ addrs (step maxAlign s c).1, a ∈ (h.run (step maxAlign s c).2).live) := by
  have hmem_addr : ∀ (r : Registry) (a : Nat), a ∈ addrs r ↔
      ∃ b ∈ r.in_use_ ++ r.free_blocks_, b.ptr = a := by
    intro r a
    simp only [addrs, List.mem_map]
  cases c with
  | allocate bytes alignment oracle grow =>
    simp only [step] at hfresh ⊢
    rcases do_allocate_cases maxAlign s bytes alignment oracle grow with
      ⟨i, b, hf, -, he⟩ | ⟨i, b, hf, -, he⟩ | ⟨p, -, -, -, he⟩ | ⟨p, -, -, -, he⟩ | ⟨-, -, he⟩
    · obtain ⟨hi, -, -⟩ := find_if_some_spec _ _ _ _ hf
      have hbmem : b ∈ s.free_blocks_ := List.getElem?_mem hi
      rw [he]
      have hsub : ∀ c ∈ (s.in_use_ ++ [b]) ++ s.free_blocks_.eraseIdx i,
          c ∈ s.in_use_ ++ s.free_blocks_ := by
        intro c hc
        simp only [List.mem_append, List.mem_singleton] at hc ⊢
        rcases hc with (hc | hc) | hc
        · exact Or.inl hc
        · exact Or.inr (hc ▸ hbmem)
        · exact Or.inr (List.mem_of_mem_eraseIdx hc)
      refine ⟨fun c hc => ?_, fun a ha => ?_⟩
      · rw [List.append_nil]
        exact hrec c (hsub c hc)
      · obtain ⟨c, hc, hca⟩ := (hmem_addr _ a).mp ha
        exact hlive a ((hmem_addr s a).mpr ⟨c, hsub c hc, hca⟩)
    · rw [he]
      have hsub : ∀ c ∈ s.in_use_ ++ s.free_blocks_.eraseIdx i,
          c ∈ s.in_use_ ++ s.free_blocks_ := by
        intro c hc
        simp only [List.mem_append] at hc ⊢
        exact hc.elim Or.inl (fun h1 => Or.inr (List.mem_of_mem_eraseIdx h1))
      refine ⟨fun c hc => ?_, fun a ha => ?_⟩
      · rw [List.append_nil]
        exact hrec c (hsub c hc)
      · obtain ⟨c, hc, hca⟩ := (hmem_addr _ a).mp ha
        exact hlive a ((hmem_addr s a).mpr ⟨c, hsub c hc, hca⟩)
    · rw [he] at hfresh ⊢
      have hnew : p ∉ h.live := by
        simpa [freshTrace] using hfresh
      have hold : ∀ d ∈ s.in_use_ ++ s.free_blocks_,
          (if p = d.ptr then some bytes else reservedBytes none t0 d.ptr) = some d.size := by
        intro d hd
        have hne : p ≠ d.ptr := fun h1 => hnew (hlive p ((hmem_addr s p).mpr ⟨d, hd, h1.symm⟩))
        rw [if_neg hne]
        exact hrec d hd
      refine ⟨fun c hc => ?_, fun a ha => ?_⟩
      · rw [reservedBytes_append]
        simp only [reservedBytes]
        simp only [List.mem_append, List.mem_singleton] at hc
        rcases hc with (hc | hc) | hc
        · exact hold c (by simp [hc])
        · rw [hc]
          simp
        · exact hold c (by simp [hc])
      · simp only [Heap.run, Heap.step, List.mem_cons]
        obtain ⟨c, hc, hca⟩ := (hmem_addr _ a).mp ha
        simp only [List.mem_append, List.mem_singleton] at hc
        rcases hc with (hc | hc) | hc
        · exact Or.inr (hlive a ((hmem_addr s a).mpr ⟨c, by simp [hc], hca⟩))
        · left
          rw [← hca, hc]
        · exact Or.inr (hlive a ((hmem_addr s a).mpr ⟨c, by simp [hc], hca⟩))
    · rw [he] at hfresh ⊢
      have hnew : p ∉ h.live := by
        simpa [freshTrace] using hfresh
      refine ⟨fun c hc => ?_, fun a ha => ?_⟩
      · rw [reservedBytes_append]
        simp only [reservedBytes]
        have hne : p ≠ c.ptr := fun h1 => hnew (hlive p ((hmem_addr s p).mpr ⟨c, hc, h1.symm⟩))
        rw [if_neg hne]
        exact hrec c hc
      · simp only [Heap.run, Heap.step, List.mem_cons]
        exact Or.inr (hlive a ha)
    · rw [he]
      refine ⟨fun b hb => ?_, fun a ha => ?_⟩
      · rw [reservedBytes_append]
        simp only [reservedBytes]
        exact hrec b hb
      · simp only [Heap.run, Heap.step]
        exact hlive a ha
  | deallocate p bytes alignment grow =>
    simp only [step] at hfresh ⊢
    rcases do_deallocate_cases maxAlign s p bytes alignment grow with
      ⟨i, b, hf, -, he⟩ | ⟨i, b, hf, -, he⟩ | ⟨hf, -⟩
    · have hsize : b.size ≠ 0 ∨ bytes = 0 := by
        simpa [sizeKeepingCalls, hf] using hc
      obtain ⟨hi, -, -⟩ := find_if_ptr_spec _ _ _ _ hf
      have hbmem : b ∈ s.in_use_ := List.getElem?_mem hi
      have hbf : (backfill b bytes alignment).ptr = b.ptr ∧
          (backfill b bytes alignment).size = b.size := by
        rw [backfill_eq]
        refine ⟨rfl, ?_⟩
        show (if b.size = 0 then bytes else b.size) = b.size
        split
        · rcases hsize with h1 | h1
          · contradiction
          · omega
        · rfl
      rw [he]
      refine ⟨fun c hc => ?_, fun a ha => ?_⟩
      · rw [List.append_nil]
        simp only [List.mem_append, List.mem_singleton] at hc
        rcases hc with hc | hc | hc
        · exact hrec c (by simp [List.mem_of_mem_eraseIdx hc])
        · exact hrec c (by simp [hc])
        · rw [hc, hbf.1, hbf.2]
          exact hrec b (by simp [hbmem])
      · simp only [Heap.run]
        obtain ⟨c, hc, hca⟩ := (hmem_addr _ a).mp ha
        simp only [List.mem_append, List.mem_singleton] at hc
        rcases hc with hc | hc | hc
        · exact hlive a ((hmem_addr s a).mpr ⟨c, by simp [List.mem_of_mem_eraseIdx hc], hca⟩)
        · exact hlive a ((hmem_addr s a).mpr ⟨c, by simp [hc], hca⟩)
        · refine hlive a ((hmem_addr s a).mpr ⟨b, by simp [hbmem], ?_⟩)
          rw [← hca, hc, hbf.1]
    · rw [he]
      have hsub : ∀ c ∈ s.in_use_.eraseIdx i ++ s.free_blocks_,
          c ∈ s.in_use_ ++ s.free_blocks_ := by
        intro c hc
        simp only [List.mem_append] at hc ⊢
        exact hc.elim (fun h1 => Or.inl (List.mem_of_mem_eraseIdx h1)) Or.inr
      refine ⟨fun c hc => ?_, fun a ha => ?_⟩
      · rw [List.append_nil]
        exact hrec c (hsub c hc)
      · obtain ⟨c, hc, hca⟩ := (hmem_addr _ a).mp ha
        exact hlive a ((hmem_addr s a).mpr ⟨c, hsub c hc, hca⟩)
    · simp [sizeKeepingCalls, hf] at hc

theorem run_sizes (maxAlign : Nat) (calls : List Call) :
    ∀ (s : Registry) (h : Heap) (t0 : List RawEvent),
      (∀ b ∈ s.in_use_ ++ s.free_blocks_, reservedBytes none t0 b.ptr = some b.size) →
      (∀ a ∈ addrs s, a ∈ h.live) →
      freshTrace h (run maxAlign s calls).2 = true →
      sizeKeepingCalls maxAlign s calls = true →
      ∀ b ∈ (run maxAlign s calls).1.in_use_ ++ (run maxAlign s calls).1.free_blocks_,
        reservedBytes none (t0 ++ (run maxAlign s calls).2) b.ptr = some b.size := by
  induction calls with
  | nil =>
    intro s h t0 hrec _ _ _ b hb
    simp only [run, List.append_nil] at hb ⊢
    exact hrec b hb
  | cons c cs ih =>
    intro s h t0 hrec hlive hfresh hc
    simp only [run] at hfresh ⊢
    rw [freshTrace_append, Bool.and_eq_true] at hfresh
    have hc1 : sizeKeepingCalls maxAlign s [c] = true := by
      simp only [sizeKeepingCalls, Bool.and_eq_true] at hc ⊢
      exact ⟨hc.1, trivial⟩
    have hc2 : sizeKeepingCalls maxAlign (step maxAlign s c).1 cs = true := by
      simp only [sizeKeepingCalls, Bool.and_eq_true] at hc
      exact hc.2
    obtain ⟨hrec2, hlive2⟩ := step_sizes maxAlign s h t0 c hrec hlive hfresh.1 hc1
    have := ih (step maxAlign s c).1 (h.run (step maxAlign s c).2)
      (t0 ++ (step maxAlign s c).2) hrec2 hlive2 hfresh.2 hc2
    simpa [List.append_assoc] using this

/-- C18 (as stated, refuted). First run: a block of 0 bytes is allocated and then deallocated
with `bytes = 100`; its record in the free set now says 100 while 0 bytes are reserved, and
the next `allocate(100, 8)` returns this address without asking the heap.  Second run: an
address is deallocated twice; the second call releases it to the heap, and the record in the
free set says 8 bytes while nothing is reserved. -/
theorem backfill_breaks_recorded_size :
    (freshTrace Heap.init (run 16 empty zeroSizeCalls).2 = true ∧
      (run 16 empty zeroSizeCalls).1.free_blocks_ = [⟨1, 100, 8⟩] ∧
      reservedBytes none (run 16 empty zeroSizeCalls).2 1 = some 0 ∧
      (do_allocate 16 (run 16 empty zeroSizeCalls).1 100 8 none true).result =
        AllocResult.address 1 ∧
      reservedBytes none ((run 16 empty zeroSizeCalls).2 ++
        (do_allocate 16 (run 16 empty zeroSizeCalls).1 100 8 none true).trace) 1 = some 0) ∧
    (freshTrace Heap.init (run 16 empty doubleReleaseCalls).2 = true ∧
      (run 16 empty doubleReleaseCalls).1.free_blocks_ = [⟨1, 8, 8⟩] ∧
      reservedBytes none (run 16 empty doubleReleaseCalls).2 1 = none) := by
  decide

/-- C18 (amended). Recorded size is the reserved size: in every state reached from the empty
registry by allocate calls and deallocate calls, whatever their exits, each deallocate naming
an address that is in `in_use_` at that moment and passing `bytes = 0` when the record's size
is 0 (any `bytes` otherwise, any `alignment`), the heap only handing out addresses it does not
have reserved, the size in every record of `in_use_` and `free_blocks_` is the number of bytes
reserved at the heap for the record's address; so an address returned by a further
`allocate(bytes, alignment)` has at least `bytes` bytes reserved. -/
theorem recorded_size_is_reserved (maxAlign : Nat) (calls : List Call)
    (hfresh : freshTrace Heap.init (run maxAlign empty calls).2 = true)
    (hcalls : sizeKeepingCalls maxAlign empty calls = true) :
    (∀ b ∈ (run maxAlign empty calls).1.in_use_ ++ (run maxAlign empty calls).1.free_blocks_,
      reservedBytes none (run maxAlign empty calls).2 b.ptr = some b.size) ∧
    (∀ bytes alignment oracle grow p,
      (do_allocate maxAlign (run maxAlign empty calls).1 bytes alignment oracle grow).result =
        AllocResult.address p →
      ∃ n, reservedBytes none ((run maxAlign empty calls).2 ++
          (do_allocate maxAlign (run maxAlign empty calls).1 bytes alignment oracle grow).trace)
          p = some n ∧ bytes ≤ n) := by
  have hmain := run_sizes maxAlign calls empty Heap.init []
    (fun b hb => by simp [empty] at hb) (fun a ha => by simp [addrs, empty] at ha)
    hfresh hcalls
  simp only [List.nil_append] at hmain
  refine ⟨hmain, ?_⟩
  intro bytes alignment oracle grow p hres
  rcases do_allocate_cases maxAlign (run maxAlign empty calls).1 bytes alignment oracle grow with
    ⟨i, b, hf, -, he⟩ | ⟨i, b, hf, -, he⟩ | ⟨q, -, -, -, he⟩ | ⟨q, -, -, -, he⟩ | ⟨-, -, he⟩
  · obtain ⟨hi, hfit, -⟩ := find_if_some_spec _ _ _ _ hf
    have hbmem : b ∈ (run maxAlign empty calls).1.free_blocks_ := List.getElem?_mem hi
    rw [he] at hres ⊢
    have hbp : b.ptr = p := by
      injection hres
    refine ⟨b.size, ?_, ((fits_iff _ _ _).mp hfit).1⟩
    rw [List.append_nil, ← hbp]
    exact hmain b (by simp [hbmem])
  · rw [he] at hres
    cases hres
  · rw [he] at hres ⊢
    have hqp : q = p := by
      injection hres
    subst hqp
    refine ⟨bytes, ?_, Nat.le_refl _⟩
    rw [reservedBytes_append]
    simp [reservedBytes]
  · rw [he] at hres
    cases hres
  · rw [he] at hres
    cases hres

/-- Witness for C18 (amended): the calls of `sizeSampleCalls`. -/
theorem recorded_size_is_reserved_witness :
    (freshTrace Heap.init (run 16 empty sizeSampleCalls).2 = true ∧
      sizeKeepingCalls 16 empty sizeSampleCalls = true) ∧
    (∀ b ∈ (run 16 empty sizeSampleCalls).1.in_use_ ++
        (run 16 empty sizeSampleCalls).1.free_blocks_,
      reservedBytes none (run 16 empty sizeSampleCalls).2 b.ptr = some b.size) ∧
    (∀ bytes alignment oracle grow p,
      (do_allocate 16 (run 16 empty sizeSampleCalls).1 bytes alignment oracle grow).result =
        AllocResult.address p →
      ∃ n, reservedBytes none ((run 16 empty sizeSampleCalls).2 ++
          (do_allocate 16 (run 16 empty sizeSampleCalls).1 bytes alignment oracle grow).trace)
          p = some n ∧ bytes ≤ n) :=
  ⟨⟨by decide, by decide⟩, recorded_size_is_reserved 16 sizeSampleCalls (by decide) (by decide)⟩

end ReusingMemoryResource

namespace PmrStack

open ReusingMemoryResource

/-! ## emplace -/

/-- An address returned by `do_allocate` is the address of the last record of `in_use_`;
that record was a fitting free block, now erased from `free_blocks_` (no heap call), or it is
new, with the requested size and alignment (one reservation, `free_blocks_` unchanged). -/
theorem do_allocate_address_cases (maxAlign : Nat) (s : Registry) (bytes alignment : Nat)
    (oracle : Option Nat) (grow : Bool) (node : Nat)
    (h : (do_allocate maxAlign s bytes alignment oracle grow).result =
      AllocResult.address node) :
    ∃ b, b.ptr = node ∧
      (do_allocate maxAlign s bytes alignment oracle grow).state.in_use_ = s.in_use_ ++ [b] ∧
      ((∃ i, s.free_blocks_[i]? = some b ∧ fits bytes alignment b = true ∧
          (do_allocate maxAlign s bytes alignment oracle grow).state.free_blocks_ =
            s.free_blocks_.eraseIdx i ∧
          (do_allocate maxAlign s bytes alignment oracle grow).trace = []) ∨
        ((∀ c ∈ s.free_blocks_, ¬ (bytes ≤ c.size ∧ alignment ≤ c.alignment)) ∧
          b = { ptr := node, size := bytes, alignment := alignment } ∧
          (do_allocate maxAlign s bytes alignment oracle grow).state.free_blocks_ =
            s.free_blocks_ ∧
          (do_allocate maxAlign s bytes alignment oracle grow).trace =
            [RawEvent.reserve bytes alignment (decide (alignment > maxAlign)) (some node)])) := by
  rcases do_allocate_cases maxAlign s bytes alignment oracle grow with
    ⟨i, b, hf, -, he⟩ | ⟨i, b, hf, -, he⟩ | ⟨p, hf, -, -, he⟩ | ⟨p, -, -, -, he⟩ | ⟨-, -, he⟩
  · obtain ⟨hi, hfit, -⟩ := find_if_some_spec _ _ _ _ hf
    rw [he] at h ⊢
    have hbp : b.ptr = node := by injection h
    exact ⟨b, hbp, rfl, Or.inl ⟨i, hi, hfit, rfl, rfl⟩⟩
  · rw [he] at h
    cases h
  · rw [he] at h ⊢
    have hpn : p = node := by injection h
    subst hpn
    exact ⟨_, rfl, rfl, Or.inr ⟨(find_if_fits_none _ _ _).mp hf, rfl, rfl, rfl⟩⟩
  · rw [he] at h
    cases h
  · rw [he] at h
    cases h

/-- A `do_allocate` that ends in `std::bad_alloc` leaves `in_use_` as it was; `free_blocks_`
is as it was, or has lost one entry without a heap call. -/
theorem do_allocate_bad_alloc_cases (maxAlign : Nat) (s : Registry) (bytes alignment : Nat)
    (oracle : Option Nat) (grow : Bool)
    (h : (do_allocate maxAlign s bytes alignment oracle grow).result = AllocResult.bad_alloc) :
    (do_allocate maxAlign s bytes alignment oracle grow).state.in_use_ = s.in_use_ ∧
    (((do_allocate maxAlign s bytes alignment oracle grow).state = s ∧
        ∃ f r, (do_allocate maxAlign s bytes alignment oracle grow).trace =
          [RawEvent.reserve bytes alignment f r]) ∨
      (∃ i, i < s.free_blocks_.length ∧
        (do_allocate maxAlign s bytes alignment oracle grow).state.free_blocks_ =
          s.free_blocks_.eraseIdx i ∧
        (do_allocate maxAlign s bytes alignment oracle grow).trace = [])) := by
  rcases do_allocate_cases maxAlign s bytes alignment oracle grow with
    ⟨i, b, hf, -, he⟩ | ⟨i, b, hf, -, he⟩ | ⟨p, hf, -, -, he⟩ | ⟨p, -, -, -, he⟩ | ⟨-, -, he⟩
  · rw [he] at h
    cases h
  · obtain ⟨hi, -, -⟩ := find_if_some_spec _ _ _ _ hf
    rw [he]
    exact ⟨rfl, Or.inr ⟨i, getElem?_lt_length _ _ _ hi, rfl, rfl⟩⟩
  · rw [he] at h
    cases h
  · rw [he]
    exact ⟨rfl, Or.inl ⟨rfl, _, _, rfl⟩⟩
  · rw [he]
    exact ⟨rfl, Or.inl ⟨rfl, _, _, rfl⟩⟩

/-- The `do_deallocate` of the catch block finds the record of the node just allocated (or an
older record of the same address): it makes no heap call, shortens `in_use_` by one record and
throws exactly when `free_blocks_` cannot grow, else it appends one record of that address to
`free_blocks_`. -/
theorem do_deallocate_tracked_cases (maxAlign : Nat) (s : Registry) (p bytes alignment : Nat)
    (grow : Bool) (h : p ∈ s.in_use_.map Block.ptr) :
    ∃ i b, s.in_use_[i]? = some b ∧ b.ptr = p ∧
      (∀ j c, j < i → s.in_use_[j]? = some c → c.ptr ≠ p) ∧
      (do_deallocate maxAlign s p bytes alignment grow).thrown = !grow ∧
      (do_deallocate maxAlign s p bytes alignment grow).trace = [] ∧
      (do_deallocate maxAlign s p bytes alignment grow).state.in_use_ = s.in_use_.eraseIdx i ∧
      (do_deallocate maxAlign s p bytes alignment grow).state.free_blocks_ =
        if grow then s.free_blocks_ ++ [backfill b bytes alignment] else s.free_blocks_ := by
  rcases do_deallocate_cases maxAlign s p bytes alignment grow with
    ⟨i, b, hf, hg, he⟩ | ⟨i, b, hf, hg, he⟩ | ⟨hf, -⟩
  · obtain ⟨h1, h2, h3⟩ := find_if_ptr_spec _ _ _ _ hf
    rw [he]
    subst hg
    exact ⟨i, b, h1, h2, h3, rfl, rfl, rfl, rfl⟩
  · obtain ⟨h1, h2, h3⟩ := find_if_ptr_spec _ _ _ _ hf
    rw [he]
    subst hg
    exact ⟨i, b, h1, h2, h3, rfl, rfl, rfl, rfl⟩
  · exact absurd h ((find_if_ptr_none _ _).mp hf)

theorem emplace_bad_alloc_eq {T : Type} (maxAlign nodeSize nodeAlign : Nat) (w : World T)
    (st : Stack) (oracle : Option Nat) (ctor : Option T) (grow growBack : Bool)
    (h : (do_allocate maxAlign w.rmr nodeSize nodeAlign oracle grow).result =
      AllocResult.bad_alloc) :
    emplace maxAlign nodeSize nodeAlign w st oracle ctor grow growBack =
      { result := EmplaceResult.bad_alloc
        world :=
          { rmr := (do_allocate maxAlign w.rmr nodeSize nodeAlign oracle grow).state
            mem := w.mem }
        stack := st
        trace := (do_allocate maxAlign w.rmr nodeSize nodeAlign oracle grow).trace } := by
  simp [emplace, h]

theorem emplace_ctor_throws_eq {T : Type} (maxAlign nodeSize nodeAlign : Nat) (w : World T)
    (st : Stack) (oracle : Option Nat) (grow growBack : Bool) (node : Nat)
    (h : (do_allocate maxAlign w.rmr nodeSize nodeAlign oracle grow).result =
      AllocResult.address node) :
    emplace maxAlign nodeSize nodeAlign w st oracle (none : Option T) grow growBack =
      { result :=
          if (do_deallocate maxAlign
              (do_allocate maxAlign w.rmr nodeSize nodeAlign oracle grow).state
              node nodeSize nodeAlign growBack).thrown
          then EmplaceResult.terminated else EmplaceResult.construction_failed
        world :=
          { rmr := (do_deallocate maxAlign
              (do_allocate maxAlign w.rmr nodeSize nodeAlign oracle grow).state
              node nodeSize nodeAlign growBack).state
            mem := w.mem }
        stack := st
        trace := (do_allocate maxAlign w.rmr nodeSize nodeAlign oracle grow).trace ++
          (do_deallocate maxAlign
            (do_allocate maxAlign w.rmr nodeSize nodeAlign oracle grow).state
            node nodeSize nodeAlign growBack).trace } := by
  simp [emplace, h]

theorem emplace_done_eq {T : Type} (maxAlign nodeSize nodeAlign : Nat) (w : World T)
    (st : Stack) (oracle : Option Nat) (v : T) (grow growBack : Bool) (node : Nat)
    (h : (do_allocate maxAlign w.rmr nodeSize nodeAlign oracle grow).result =
      AllocResult.address node) :
    emplace maxAlign nodeSize nodeAlign w st oracle (some v) grow growBack =
      { result := EmplaceResult.done
        world :=
          { rmr := (do_allocate maxAlign w.rmr nodeSize nodeAlign oracle grow).state
            mem := writeNode w.mem node { value := v, next := st.head_ } }
        stack := { head_ := node, sz_ := (st.sz_ + 1) % 2 ^ 64 }
        trace := (do_allocate maxAlign w.rmr nodeSize nodeAlign oracle grow).trace } := by
  simp [emplace, h]

/-- An `emplace` that ends with the constructor's exception allocated a node, had its
constructor throw and handed the node back without a throw. -/
theorem emplace_construction_failed_inv {T : Type} (maxAlign nodeSize nodeAlign : Nat)
    (w : World T) (st : Stack) (oracle : Option Nat) (ctor : Option T) (grow growBack : Bool)
    (h : (emplace maxAlign nodeSize nodeAlign w st oracle ctor grow growBack).result =
      EmplaceResult.construction_failed) :
    ∃ node, (do_allocate maxAlign w.rmr nodeSize nodeAlign oracle grow).result =
        AllocResult.address node ∧ ctor = none ∧
      (do_deallocate maxAlign (do_allocate maxAlign w.rmr nodeSize nodeAlign oracle grow).state
        node nodeSize nodeAlign growBack).thrown = false := by
  cases hres : (do_allocate maxAlign w.rmr nodeSize nodeAlign oracle grow).result with
  | bad_alloc =>
    rw [emplace_bad_alloc_eq maxAlign nodeSize nodeAlign w st oracle ctor grow growBack hres] at h
    cases h
  | address node =>
    cases ctor with
    | some v =>
      rw [emplace_done_eq maxAlign nodeSize nodeAlign w st oracle v grow growBack node hres] at h
      cases h
    | none =>
      rw [emplace_ctor_throws_eq maxAlign nodeSize nodeAlign w st oracle grow growBack node
        hres] at h
      refine ⟨node, rfl, rfl, ?_⟩
      cases hthr : (do_deallocate maxAlign
          (do_allocate maxAlign w.rmr nodeSize nodeAlign oracle grow).state
          node nodeSize nodeAlign growBack).thrown with
      | false => rfl
      | true => simp [hthr] at h

/-- C10 (as stated, refuted). With a free block of node size in the resource, an `emplace`
whose value constructor throws leaves `free_count()` at 1, not at 2: the block came out of
the free set and went back into it.  And on a fresh resource, where `free_blocks_` has to
grow to take the block, a failing growth ends the program with `free_count()` still 0. -/
theorem emplace_failure_free_count_unchanged :
    ((emplace 16 16 8 oneFreeWorld ⟨0, 0⟩ none (none : Option Nat) true true).result =
        EmplaceResult.construction_failed ∧
      ¬ (free_count
          (emplace 16 16 8 oneFreeWorld ⟨0, 0⟩ none (none : Option Nat) true true).world.rmr =
          free_count oneFreeWorld.rmr + 1)) ∧
    ((emplace 16 16 8 freshWorld ⟨0, 0⟩ (some 101) (none : Option Nat) true false).result =
        EmplaceResult.terminated ∧
      free_count
        (emplace 16 16 8 freshWorld ⟨0, 0⟩ (some 101) (none : Option Nat) true false).world.rmr =
        0) := by
  decide

/-- C10 (amended). Construction-failure law, allocator side: if the value constructor raises
during `emplace` and its exception is re-raised (the hand-back of the block does not end the
program), then `free_count()` afterwards is `free_count()` before plus one when no free block
fitted the node request (the node came from the heap), and equals `free_count()` before when
a free block fitted it (the node came out of the free set and went back). -/
theorem emplace_construction_failed_free_count {T : Type} (maxAlign nodeSize nodeAlign : Nat)
    (w : World T) (st : Stack) (oracle : Option Nat) (ctor : Option T) (grow growBack : Bool)
    (h : (emplace maxAlign nodeSize nodeAlign w st oracle ctor grow growBack).result =
      EmplaceResult.construction_failed) :
    free_count (emplace maxAlign nodeSize nodeAlign w st oracle ctor grow growBack).world.rmr =
      if ∃ b ∈ w.rmr.free_blocks_, nodeSize ≤ b.size ∧ nodeAlign ≤ b.alignment then
        free_count w.rmr
      else free_count w.rmr + 1 := by
  obtain ⟨node, hres, hctor, hthr⟩ :=
    emplace_construction_failed_inv maxAlign nodeSize nodeAlign w st oracle ctor grow growBack h
  subst hctor
  obtain ⟨b, hbp, hin, hcase⟩ :=
    do_allocate_address_cases maxAlign w.rmr nodeSize nodeAlign oracle grow node hres
  have htracked : node ∈ (do_allocate maxAlign w.rmr nodeSize nodeAlign oracle
      grow).state.in_use_.map Block.ptr := by
    rw [hin]
    simp [hbp]
  obtain ⟨i, c, -, -, -, hthr2, -, -, hfree⟩ := do_deallocate_tracked_cases maxAlign
    (do_allocate maxAlign w.rmr nodeSize nodeAlign oracle grow).state node nodeSize nodeAlign
    growBack htracked
  have hg : growBack = true := by
    rw [hthr2] at hthr
    simpa using hthr
  subst hg
  rw [emplace_ctor_throws_eq maxAlign nodeSize nodeAlign w st oracle grow true node hres]
  simp only [free_count, hfree, if_true, List.length_append, List.length_singleton]
  rcases hcase with ⟨k, hk, hfit, hfree2, -⟩ | ⟨hmiss, -, hfree2, -⟩
  · have hhit : ∃ b ∈ w.rmr.free_blocks_, nodeSize ≤ b.size ∧ nodeAlign ≤ b.alignment :=
      ⟨b, List.getElem?_mem hk, (fits_iff _ _ _).mp hfit⟩
    have hlt := getElem?_lt_length _ _ _ hk
    rw [if_pos hhit, hfree2, List.length_eraseIdx, if_pos hlt]
    omega
  · have hno : ¬ ∃ b ∈ w.rmr.free_blocks_, nodeSize ≤ b.size ∧ nodeAlign ≤ b.alignment :=
      fun ⟨b, hb, hfit⟩ => hmiss b hb hfit
    rw [if_neg hno, hfree2]

/-- Witness for C10 (amended): a throwing constructor on the sample registry, which has a
free block fitting the node request `(16, 8)`. -/
theorem emplace_construction_failed_free_count_witness :
    (emplace 16 16 8 sampleWorld ⟨0, 0⟩ (some 9) (none : Option Nat) true true).result =
      EmplaceResult.construction_failed ∧
    free_count (emplace 16 16 8 sampleWorld ⟨0, 0⟩ (some 9) (none : Option Nat) true true).world.rmr =
      if ∃ b ∈ sampleWorld.rmr.free_blocks_, 16 ≤ b.size ∧ 8 ≤ b.alignment then
        free_count sampleWorld.rmr
      else free_count sampleWorld.rmr + 1 :=
  ⟨by decide,
   emplace_construction_failed_free_count 16 16 8 sampleWorld ⟨0, 0⟩ (some 9) none true true
     (by decide)⟩

/-! ## Node memory and chains -/

theorem nodeAt_filter_ne {T : Type} (mem : List (Nat × Node T)) (p q : Nat) (h : q ≠ p) :
    nodeAt (mem.filter (fun e => decide (e.1 ≠ p))) q = nodeAt mem q := by
  induction mem with
  | nil => rfl
  | cons e rest ih =>
    obtain ⟨a, n⟩ := e
    by_cases ha : a = p
    · have hq : ¬ a = q := fun hc => h (hc ▸ ha)
      rw [List.filter_cons_of_neg (by simpa using ha), ih]
      simp only [nodeAt, hq, if_false]
    · rw [List.filter_cons_of_pos (by simpa using ha)]
      by_cases hq : a = q
      · simp only [nodeAt, hq, if_true]
      · simp only [nodeAt, hq, if_false]
        exact ih

theorem nodeAt_writeNode_same {T : Type} (mem : List (Nat × Node T)) (p : Nat) (n : Node T) :
    nodeAt (writeNode mem p n) p = some n := by
  simp [writeNode, nodeAt]

theorem nodeAt_writeNode_other {T : Type} (mem : List (Nat × Node T)) (p q : Nat) (n : Node T)
    (h : q ≠ p) : nodeAt (writeNode mem p n) q = nodeAt mem q := by
  have hp : ¬ p = q := fun hc => h hc.symm
  simp only [writeNode, nodeAt, hp, if_false]
  exact nodeAt_filter_ne mem p q h

theorem nodeAt_destroyNode_other {T : Type} (mem : List (Nat × Node T)) (p q : Nat)
    (h : q ≠ p) : nodeAt (destroyNode mem p) q = nodeAt mem q :=
  nodeAt_filter_ne mem p q h

theorem nodeAt_some_mem {T : Type} (mem : List (Nat × Node T)) (p : Nat) (n : Node T)
    (h : nodeAt mem p = some n) : p ∈ mem.map Prod.fst := by
  induction mem with
  | nil => simp [nodeAt] at h
  | cons e rest ih =>
    obtain ⟨a, m⟩ := e
    by_cases ha : a = p
    · simp [ha]
    · simp only [nodeAt, ha, if_false] at h
      simp [ih h]

theorem IsChain_frame {T : Type} (mem mem2 : List (Nat × Node T)) (l : List (Nat × T)) :
    ∀ p, (∀ a ∈ l.map Prod.fst, nodeAt mem2 a = nodeAt mem a) → IsChain mem p l →
      IsChain mem2 p l := by
  induction l with
  | nil => intro p _ h; exact h
  | cons c rest ih =>
    obtain ⟨a, v⟩ := c
    intro p hagree h
    obtain ⟨hp, ha, nxt, hn, hrest⟩ := h
    refine ⟨hp, ha, nxt, ?_, ih nxt (fun b hb => hagree b (by simp [hb])) hrest⟩
    rw [hagree a (by simp)]
    exact hn

theorem IsChain_unique {T : Type} (mem : List (Nat × Node T)) (l1 : List (Nat × T)) :
    ∀ (l2 : List (Nat × T)) (p : Nat), IsChain mem p l1 → IsChain mem p l2 → l1 = l2 := by
  induction l1 with
  | nil =>
    intro l2 p h1 h2
    cases l2 with
    | nil => rfl
    | cons c rest =>
      obtain ⟨a, v⟩ := c
      obtain ⟨hp, ha, -⟩ := h2
      exact absurd (hp ▸ h1) ha
  | cons c rest ih =>
    obtain ⟨a, v⟩ := c
    intro l2 p h1 h2
    obtain ⟨hp, ha, nxt, hn, hrest⟩ := h1
    cases l2 with
    | nil => exact absurd (hp ▸ h2) ha
    | cons c2 rest2 =>
      obtain ⟨a2, v2⟩ := c2
      obtain ⟨hp2, -, nxt2, hn2, hrest2⟩ := h2
      have haa : a = a2 := hp.symm.trans hp2
      subst haa
      rw [hn] at hn2
      have hv : v = v2 := by injection hn2 with h; injection h
      have hx : nxt = nxt2 := by injection hn2 with h; injection h
      subst hv
      subst hx
      rw [ih rest2 nxt hrest hrest2]

theorem IsChain_suffix {T : Type} (mem : List (Nat × Node T)) (l1 : List (Nat × T)) :
    ∀ (p a : Nat) (v : T) (l2 : List (Nat × T)), IsChain mem p (l1 ++ (a, v) :: l2) →
      IsChain mem a ((a, v) :: l2) := by
  induction l1 with
  | nil =>
    intro p a v l2 h
    obtain ⟨-, ha, nxt, hn, hrest⟩ := h
    exact ⟨rfl, ha, nxt, hn, hrest⟩
  | cons c rest ih =>
    obtain ⟨b, u⟩ := c
    intro p a v l2 h
    obtain ⟨-, -, nxt, -, hrest⟩ := h
    exact ih nxt a v l2 hrest

theorem IsChain_ne_zero {T : Type} (mem : List (Nat × Node T)) (l : List (Nat × T)) :
    ∀ p, IsChain mem p l → ∀ a ∈ l.map Prod.fst, a ≠ 0 := by
  induction l with
  | nil => intro p _ a ha; simp at ha
  | cons c rest ih =>
    obtain ⟨b, u⟩ := c
    intro p h a ha
    obtain ⟨-, hb, nxt, -, hrest⟩ := h
    simp only [List.map_cons, List.mem_cons] at ha
    rcases ha with rfl | ha
    · exact hb
    · exact ih nxt hrest a ha

theorem IsChain_nodup {T : Type} (mem : List (Nat × Node T)) (l : List (Nat × T)) :
    ∀ p, IsChain mem p l → (l.map Prod.fst).Nodup := by
  induction l with
  | nil => intro p _; simp
  | cons c rest ih =>
    obtain ⟨a, v⟩ := c
    intro p h
    have h0 := h
    obtain ⟨hp, ha, nxt, hn, hrest⟩ := h
    simp only [List.map_cons, List.nodup_cons]
    refine ⟨?_, ih nxt hrest⟩
    intro hmem
    obtain ⟨c2, hc2, hfst⟩ := List.mem_map.mp hmem
    obtain ⟨a2, v2⟩ := c2
    simp only at hfst
    subst hfst
    obtain ⟨s, t, hst⟩ := List.append_of_mem hc2
    rw [hst] at hrest
    have hsuf := IsChain_suffix mem s nxt a2 v2 t hrest
    have hfull : IsChain mem a2 ((a2, v) :: rest) := ⟨rfl, ha, nxt, hn, hst ▸ hrest⟩
    have heq := IsChain_unique mem _ _ a2 hfull hsuf
    have hlen := congrArg List.length heq
    rw [hst] at hlen
    simp at hlen
    omega

theorem IsChain_head_zero {T : Type} (mem : List (Nat × Node T)) (l : List (Nat × T)) (p : Nat)
    (h : IsChain mem p l) : p = 0 ↔ l = [] := by
  cases l with
  | nil => exact ⟨fun _ => rfl, fun _ => h⟩
  | cons c rest =>
    obtain ⟨a, v⟩ := c
    obtain ⟨hp, ha, -⟩ := h
    exact ⟨fun h0 => absurd (hp ▸ h0) ha, fun hc => by cases hc⟩

theorem IsChain_length_le {T : Type} (mem : List (Nat × Node T)) (l : List (Nat × T)) (p : Nat)
    (h : IsChain mem p l) : l.length ≤ mem.length := by
  have hsub : l.map Prod.fst ⊆ mem.map Prod.fst := by
    intro a ha
    obtain ⟨c, hc, hfst⟩ := List.mem_map.mp ha
    obtain ⟨a2, v⟩ := c
    simp only at hfst
    subst hfst
    obtain ⟨s, t, hst⟩ := List.append_of_mem hc
    rw [hst] at h
    obtain ⟨-, -, nxt, hn, -⟩ := IsChain_suffix mem s p a2 v t h
    exact nodeAt_some_mem mem a2 _ hn
  have := (List.subperm_of_subset (IsChain_nodup mem l p h) hsub).length_le
  simpa using this

theorem iterate_of_chain {T : Type} (mem : List (Nat × Node T)) (l : List (Nat × T)) :
    ∀ (p fuel : Nat), IsChain mem p l → l.length < fuel →
      iterate mem fuel p = some (l.map Prod.snd) := by
  induction l with
  | nil =>
    intro p fuel h hf
    cases fuel with
    | zero => omega
    | succ f => simp [iterate, (show p = 0 from h)]
  | cons c rest ih =>
    obtain ⟨a, v⟩ := c
    intro p fuel h hf
    obtain ⟨hp, ha, nxt, hn, hrest⟩ := h
    cases fuel with
    | zero => omega
    | succ f =>
      have hlen : rest.length < f := by simpa using hf
      subst hp
      simp [iterate, ha, hn, ih nxt f hrest hlen]

theorem length_succ_le_of_nodup_bounded (l : List Nat) (N : Nat) (hN : 0 < N) (hn : l.Nodup)
    (hb : ∀ a ∈ l, a ≠ 0 ∧ a < N) : l.length + 1 ≤ N := by
  have hnd : (0 :: l).Nodup := List.nodup_cons.mpr ⟨fun h0 => (hb 0 h0).1 rfl, hn⟩
  have hsub : (0 :: l) ⊆ List.range N := by
    intro a ha
    simp only [List.mem_cons] at ha
    rcases ha with rfl | ha
    · exact List.mem_range.mpr hN
    · exact List.mem_range.mpr (hb a ha).2
  have := (List.subperm_of_subset hnd hsub).length_le
  simpa using this


/-! ## The allocator seen from the stack -/

theorem RegistryWF_of_subperm (s s2 : Registry) (hwf : RegistryWF s)
    (h : (addrs s2).Subperm (addrs s)) : RegistryWF s2 :=
  ⟨subperm_nodup h hwf.1, fun a ha => hwf.2 a (h.subset ha)⟩

/-- Whatever its exit, `do_allocate` keeps a well-formed registry well formed when the heap
answers properly. -/
theorem do_allocate_wf_any (maxAlign : Nat) (s : Registry) (bytes alignment : Nat)
    (oracle : Option Nat) (grow : Bool) (hwf : RegistryWF s)
    (hheap : heapAnswerOK s (do_allocate maxAlign s bytes alignment oracle grow).trace = true) :
    RegistryWF (do_allocate maxAlign s bytes alignment oracle grow).state := by
  rcases do_allocate_addrs maxAlign s bytes alignment oracle grow with
    ⟨-, hp⟩ | ⟨p, f, ht, hp⟩ | ⟨f, -, hs⟩
  · exact RegistryWF_of_subperm s _ hwf hp
  · rw [ht] at hheap
    simp only [heapAnswerOK, Bool.and_eq_true, decide_eq_true_eq, and_true] at hheap
    obtain ⟨⟨hn0, hn64⟩, hnew⟩ := hheap
    refine ⟨subperm_nodup hp (List.nodup_cons.mpr ⟨hnew, hwf.1⟩), fun a ha => ?_⟩
    rcases List.mem_cons.mp (hp.subset ha) with h1 | h1
    · rw [h1]
      exact ⟨hn0, hn64⟩
    · exact hwf.2 a h1
  · rw [hs]
    exact hwf

/-- Whatever its exit, `do_deallocate` keeps a well-formed registry well formed. -/
theorem do_deallocate_wf_any (maxAlign : Nat) (s : Registry) (p bytes alignment : Nat)
    (grow : Bool) (hwf : RegistryWF s) :
    RegistryWF (do_deallocate maxAlign s p bytes alignment grow).state := by
  rcases do_deallocate_addrs maxAlign s p bytes alignment grow with ⟨-, hp⟩ | ⟨-, hs, -⟩
  · exact RegistryWF_of_subperm s _ hwf hp
  · rw [hs]
    exact hwf

/-- A successful allocation on a well-formed registry, the heap answering properly: the
address handed out is a non-null 64-bit value that was not lent out before. -/
theorem do_allocate_wf (maxAlign : Nat) (s : Registry) (bytes alignment : Nat)
    (oracle : Option Nat) (grow : Bool) (node : Nat) (hwf : RegistryWF s)
    (hheap : heapAnswerOK s (do_allocate maxAlign s bytes alignment oracle grow).trace = true)
    (h : (do_allocate maxAlign s bytes alignment oracle grow).result =
      AllocResult.address node) :
    RegistryWF (do_allocate maxAlign s bytes alignment oracle grow).state ∧
    node ≠ 0 ∧ node < 2 ^ 64 ∧ node ∉ s.in_use_.map Block.ptr := by
  refine ⟨do_allocate_wf_any maxAlign s bytes alignment oracle grow hwf hheap, ?_⟩
  obtain ⟨b, hb, -, hcase⟩ :=
    do_allocate_address_cases maxAlign s bytes alignment oracle grow node h
  obtain ⟨hnd, hbd⟩ := hwf
  rcases hcase with ⟨i, hi, -, -, -⟩ | ⟨-, -, -, ht⟩
  · have hmemfree : node ∈ s.free_blocks_.map Block.ptr :=
      List.mem_map.mpr ⟨b, List.getElem?_mem hi, hb⟩
    have hmem : node ∈ addrs s := by
      simp only [addrs, List.map_append, List.mem_append]
      exact Or.inr hmemfree
    refine ⟨(hbd node hmem).1, (hbd node hmem).2, ?_⟩
    intro hin2
    simp only [addrs, List.map_append] at hnd
    exact (List.nodup_append.mp hnd).2.2 hin2 hmemfree
  · rw [ht] at hheap
    simp only [heapAnswerOK, Bool.and_eq_true, decide_eq_true_eq, and_true] at hheap
    obtain ⟨⟨hn0, hn64⟩, hnew⟩ := hheap
    refine ⟨hn0, hn64, ?_⟩
    intro hin2
    apply hnew
    simp only [addrs, List.map_append, List.mem_append]
    exact Or.inl hin2

/-! ## Single stack operations -/

/-- Deallocating a lent-out address: no heap call; the first record of that address leaves
`in_use_`; `free_blocks_` gains a record of that address at its end, unless it cannot grow,
in which case the call throws. -/
theorem do_deallocate_tracked_facts (maxAlign : Nat) (s : Registry) (p bytes alignment : Nat)
    (grow : Bool) (hp : p ∈ s.in_use_.map Block.ptr) :
    (do_deallocate maxAlign s p bytes alignment grow).thrown = !grow ∧
    (do_deallocate maxAlign s p bytes alignment grow).trace = [] ∧
    (p :: (do_deallocate maxAlign s p bytes alignment grow).state.in_use_.map Block.ptr).Perm
      (s.in_use_.map Block.ptr) ∧
    (do_deallocate maxAlign s p bytes alignment grow).state.free_blocks_.map Block.ptr =
      (if grow then s.free_blocks_.map Block.ptr ++ [p] else s.free_blocks_.map Block.ptr) ∧
    in_use_count (do_deallocate maxAlign s p bytes alignment grow).state + 1 = in_use_count s ∧
    free_count (do_deallocate maxAlign s p bytes alignment grow).state =
      free_count s + (if grow then 1 else 0) ∧
    (∀ a, a ≠ p → a ∈ s.in_use_.map Block.ptr →
      a ∈ (do_deallocate maxAlign s p bytes alignment grow).state.in_use_.map Block.ptr) ∧
    (∀ a ∈ (do_deallocate maxAlign s p bytes alignment grow).state.in_use_.map Block.ptr,
      a ∈ s.in_use_.map Block.ptr) := by
  obtain ⟨i, b, hi, hbp, -, hthr, ht, hin, hfree⟩ :=
    do_deallocate_tracked_cases maxAlign s p bytes alignment grow hp
  have hpi := (perm_cons_eraseIdx _ _ _ hi).map Block.ptr
  simp only [List.map_cons, hbp] at hpi
  have hilt := getElem?_lt_length _ _ _ hi
  have hptr : (backfill b bytes alignment).ptr = p := by rw [backfill_eq]; exact hbp
  refine ⟨hthr, ht, ?_, ?_, ?_, ?_, ?_, ?_⟩
  · rw [hin]
    exact hpi.symm
  · rw [hfree]
    cases grow <;> simp [hptr]
  · rw [in_use_count, hin, List.length_eraseIdx, if_pos hilt, in_use_count]
    omega
  · rw [free_count, hfree]
    cases grow <;> simp [free_count]
  · intro a hne ha
    rw [hin]
    have := hpi.subset ha
    simp only [List.mem_cons] at this
    rcases this with h1 | h1
    · exact absurd h1 hne
    · exact h1
  · intro a ha
    rw [hin] at ha
    exact hpi.symm.subset (List.mem_cons_of_mem _ ha)

/-- On a well-formed registry the deallocated address is not lent out afterwards. -/
theorem do_deallocate_tracked_gone (maxAlign : Nat) (s : Registry) (p bytes alignment : Nat)
    (grow : Bool) (hwf : RegistryWF s) (hp : p ∈ s.in_use_.map Block.ptr) :
    p ∉ (do_deallocate maxAlign s p bytes alignment grow).state.in_use_.map Block.ptr := by
  obtain ⟨-, -, hperm, -⟩ := do_deallocate_tracked_facts maxAlign s p bytes alignment grow hp
  have hndin : (s.in_use_.map Block.ptr).Nodup := by
    have hnd := hwf.1
    simp only [addrs, List.map_append] at hnd
    exact (List.nodup_append.mp hnd).1
  exact (List.nodup_cons.mp (hperm.nodup_iff.mpr hndin)).1

theorem do_deallocate_last (maxAlign : Nat) (l : List Block) (fr : List Block) (b : Block)
    (bytes alignment : Nat) (grow : Bool) (hnew : b.ptr ∉ l.map Block.ptr) :
    (do_deallocate maxAlign { in_use_ := l ++ [b], free_blocks_ := fr } b.ptr bytes alignment
      grow).state.in_use_ = l ∧
    (do_deallocate maxAlign { in_use_ := l ++ [b], free_blocks_ := fr } b.ptr bytes alignment
      grow).thrown = !grow := by
  have hnone : find_if (fun c => decide (c.ptr = b.ptr)) l = none :=
    (find_if_ptr_none _ _).mpr hnew
  have hscan := find_if_append_singleton (fun c => decide (c.ptr = b.ptr)) l b hnone (by simp)
  cases grow <;> simp only [do_deallocate, hscan] <;>
    rw [List.eraseIdx_append_of_length_le (Nat.le_refl _)] <;> simp


/-- C17. Move transfer: move-constructing from `s` gives the new stack the `head_` and `sz_`
of `s`, hence its size and its iteration sequence, leaves `s` with size 0, `empty()` true and
an empty iteration, and leaves the world, in particular `in_use_` and `free_blocks_`,
untouched: no allocator call is made. -/
theorem move_construct_transfer {T : Type} (w : World T) (s : Stack) :
    size (move_construct w s).2.1 = size s ∧
    (∀ fuel, iterate (move_construct w s).1.mem fuel (move_construct w s).2.1.head_ =
      iterate w.mem fuel s.head_) ∧
    size (move_construct w s).2.2 = 0 ∧
    isEmpty (move_construct w s).2.2 = true ∧
    (∀ fuel, iterate (move_construct w s).1.mem (fuel + 1) (move_construct w s).2.2.head_ =
      some []) ∧
    (move_construct w s).1.rmr.in_use_ = w.rmr.in_use_ ∧
    (move_construct w s).1.rmr.free_blocks_ = w.rmr.free_blocks_ ∧
    (move_construct w s).1 = w := by
  refine ⟨rfl, fun _ => rfl, rfl, rfl, fun fuel => ?_, rfl, rfl, rfl⟩
  simp [move_construct, iterate]


/-- C11 (as stated, refuted). On a resource whose `in_use_` already holds address 1 (reached
by `doubleFreeCalls`), an `emplace` whose constructor throws gets block 1 from the free set
and hands it back, and address 1 is still in `in_use_` afterwards.  And on a fresh resource,
where `free_blocks_` has to grow to take the block handed back, a failing growth ends the
program instead of re-raising the constructor's exception. -/
theorem emplace_failure_node_still_in_use :
    ((do_allocate 16 doubleFreeWorld.rmr 8 8 none true).result = AllocResult.address 1 ∧
      (emplace 16 8 8 doubleFreeWorld ⟨0, 0⟩ none (none : Option Nat) true true).result =
        EmplaceResult.construction_failed ∧
      1 ∈ (emplace 16 8 8 doubleFreeWorld ⟨0, 0⟩ none (none : Option Nat) true
        true).world.rmr.in_use_.map Block.ptr) ∧
    ((do_allocate 16 freshWorld.rmr 16 8 (some 101) true).result = AllocResult.address 101 ∧
      (emplace 16 16 8 freshWorld ⟨0, 0⟩ (some 101) (none : Option Nat) true false).result =
        EmplaceResult.terminated) := by
  decide

/-- C11 (amended). Construction-failure law, stack side: when the allocation for the node
hands out an address `node` and the value constructor throws, the stack (`head_`, `sz_`) and
the node memory, hence the iteration sequence, are what they were; the constructor's
exception is re-raised when the `push_back` of the hand-back does not throw (the program ends
when it does); and when `node` was not in `in_use_` before the call, it is not in `in_use_`
afterwards (`in_use_` is the vector it was before the call). -/
theorem emplace_construction_failed_strong {T : Type} (maxAlign nodeSize nodeAlign : Nat)
    (w : World T) (st : Stack) (oracle : Option Nat) (ctor : Option T) (grow growBack : Bool)
    (node : Nat)
    (hnode : (do_allocate maxAlign w.rmr nodeSize nodeAlign oracle grow).result =
      AllocResult.address node)
    (hctor : ctor = none) :
    (emplace maxAlign nodeSize nodeAlign w st oracle ctor grow growBack).result =
      (if growBack then EmplaceResult.construction_failed else EmplaceResult.terminated) ∧
    (emplace maxAlign nodeSize nodeAlign w st oracle ctor grow growBack).stack = st ∧
    (emplace maxAlign nodeSize nodeAlign w st oracle ctor grow growBack).world.mem = w.mem ∧
    (∀ fuel,
      iterate (emplace maxAlign nodeSize nodeAlign w st oracle ctor grow growBack).world.mem fuel
        (emplace maxAlign nodeSize nodeAlign w st oracle ctor grow growBack).stack.head_ =
      iterate w.mem fuel st.head_) ∧
    (node ∉ w.rmr.in_use_.map Block.ptr →
      node ∉ (emplace maxAlign nodeSize nodeAlign w st oracle ctor grow
        growBack).world.rmr.in_use_.map Block.ptr ∧
      (emplace maxAlign nodeSize nodeAlign w st oracle ctor grow growBack).world.rmr.in_use_ =
        w.rmr.in_use_) := by
  subst hctor
  obtain ⟨b, hb, hin, -⟩ :=
    do_allocate_address_cases maxAlign w.rmr nodeSize nodeAlign oracle grow node hnode
  have htracked : node ∈ (do_allocate maxAlign w.rmr nodeSize nodeAlign oracle
      grow).state.in_use_.map Block.ptr := by
    rw [hin]
    simp [hb]
  obtain ⟨hthr, -⟩ := do_deallocate_tracked_facts maxAlign
    (do_allocate maxAlign w.rmr nodeSize nodeAlign oracle grow).state node nodeSize nodeAlign
    growBack htracked
  rw [emplace_ctor_throws_eq maxAlign nodeSize nodeAlign w st oracle grow growBack node hnode]
  refine ⟨?_, rfl, rfl, fun _ => rfl, ?_⟩
  · rw [hthr]
    cases growBack <;> rfl
  · intro hnew
    have hst : (do_allocate maxAlign w.rmr nodeSize nodeAlign oracle grow).state =
        { in_use_ := w.rmr.in_use_ ++ [b]
          free_blocks_ :=
            (do_allocate maxAlign w.rmr nodeSize nodeAlign oracle grow).state.free_blocks_ } := by
      rw [← hin]
    have hd := (do_deallocate_last maxAlign w.rmr.in_use_
      (do_allocate maxAlign w.rmr nodeSize nodeAlign oracle grow).state.free_blocks_ b nodeSize
      nodeAlign growBack (hb ▸ hnew)).1
    rw [← hst, hb] at hd
    show node ∉ (do_deallocate maxAlign
        (do_allocate maxAlign w.rmr nodeSize nodeAlign oracle grow).state node nodeSize nodeAlign
        growBack).state.in_use_.map Block.ptr ∧
      (do_deallocate maxAlign
        (do_allocate maxAlign w.rmr nodeSize nodeAlign oracle grow).state node nodeSize nodeAlign
        growBack).state.in_use_ = w.rmr.in_use_
    rw [hd]
    exact ⟨hnew, rfl⟩

/-- Witness for C11 (amended): a throwing constructor on `threeWorld`, whose free block 4
serves the node request. -/
theorem emplace_construction_failed_strong_witness :
    (do_allocate 16 threeWorld.rmr 16 8 none true).result = AllocResult.address 4 ∧
    (emplace 16 16 8 threeWorld threeStack none (none : Option Nat) true true).result =
      (if true then EmplaceResult.construction_failed else EmplaceResult.terminated) ∧
    (emplace 16 16 8 threeWorld threeStack none (none : Option Nat) true true).stack =
      threeStack ∧
    (emplace 16 16 8 threeWorld threeStack none (none : Option Nat) true true).world.mem =
      threeWorld.mem ∧
    (∀ fuel,
      iterate (emplace 16 16 8 threeWorld threeStack none (none : Option Nat) true true).world.mem
        fuel (emplace 16 16 8 threeWorld threeStack none (none : Option Nat) true true).stack.head_ =
      iterate threeWorld.mem fuel threeStack.head_) ∧
    (4 ∉ threeWorld.rmr.in_use_.map Block.ptr →
      4 ∉ (emplace 16 16 8 threeWorld threeStack none (none : Option Nat) true
        true).world.rmr.in_use_.map Block.ptr ∧
      (emplace 16 16 8 threeWorld threeStack none (none : Option Nat) true true).world.rmr.in_use_ =
        threeWorld.rmr.in_use_) :=
  ⟨by decide,
   emplace_construction_failed_strong 16 16 8 threeWorld threeStack none none true true 4
     (by decide) rfl⟩

theorem pop_cons {T : Type} (maxAlign nodeSize nodeAlign : Nat) (w : World T) (st : Stack)
    (grow : Bool) (a : Nat) (v : T) (rest : List (Nat × T))
    (hchain : IsChain w.mem st.head_ ((a, v) :: rest))
    (hsz : st.sz_ = rest.length + 1) (hszb : st.sz_ < 2 ^ 64) :
    ∃ nxt, st.head_ = a ∧ a ∉ rest.map Prod.fst ∧
      pop maxAlign nodeSize nodeAlign w st grow =
        some
          { world :=
              { rmr := (do_deallocate maxAlign w.rmr a nodeSize nodeAlign grow).state
                mem := destroyNode w.mem a }
            stack := { head_ := nxt, sz_ := rest.length }
            trace := (do_deallocate maxAlign w.rmr a nodeSize nodeAlign grow).trace
            terminated := (do_deallocate maxAlign w.rmr a nodeSize nodeAlign grow).thrown } ∧
      IsChain (destroyNode w.mem a) nxt rest := by
  have hnd := IsChain_nodup w.mem _ _ hchain
  simp only [List.map_cons, List.nodup_cons] at hnd
  obtain ⟨hp, ha, nxt, hn, hrest⟩ := hchain
  have h64 : (2 : Nat) ^ 64 = 18446744073709551616 := by norm_num
  have hdec : (st.sz_ + 2 ^ 64 - 1) % 2 ^ 64 = rest.length := by
    rw [h64] at hszb ⊢
    omega
  refine ⟨nxt, hp, hnd.1, ?_, ?_⟩
  · simp only [pop, hp, hn, hdec]
    rw [if_neg ha]
  · apply IsChain_frame w.mem (destroyNode w.mem a) rest nxt _ hrest
    intro c hc
    exact nodeAt_destroyNode_other w.mem a c (fun h => hnd.1 (h ▸ hc))

/-- C15 (as stated, refuted). On the one-node stack that a push on a fresh resource gives,
`free_blocks_` has to grow to take the node's block; when it cannot, `pop()` does not return:
the program ends, with `free_count()` still 0. -/
theorem pop_push_back_throws :
    runOps 16 16 8 freshWorld construct [StackOp.emplace (some 7) (some 101) true true] =
      some { world := oneNodeWorld, stack := oneNodeStack
             trace := [RawEvent.reserve 16 8 false (some 101)], terminated := false } ∧
    pop 16 16 8 oneNodeWorld oneNodeStack false =
      some { world := { rmr := { in_use_ := [], free_blocks_ := [] }, mem := [] }
             stack := { head_ := 0, sz_ := 0 }, trace := [], terminated := true } := by
  decide

/-- C15 (amended). Pop returns storage for reuse: on a non-empty stack whose nodes are the
cells `l`, `sz_` their number, each node a block of `in_use_`, a `pop()` in which the
`push_back` to `free_blocks_` does not throw returns, the size drops by one, the iteration
sequence loses its first element, `in_use_count()` drops by one, `free_count()` grows by
one, and no heap call is made; the record that left `in_use_` and the record appended to
`free_blocks_` are of the address of the old top node. -/
theorem pop_returns_storage {T : Type} (maxAlign nodeSize nodeAlign : Nat) (w : World T)
    (st : Stack) (l : List (Nat × T))
    (hchain : IsChain w.mem st.head_ l) (hsz : st.sz_ = l.length) (hszb : st.sz_ < 2 ^ 64)
    (htracked : ∀ a ∈ l.map Prod.fst, a ∈ w.rmr.in_use_.map Block.ptr)
    (hne : isEmpty st = false) :
    ∃ r, pop maxAlign nodeSize nodeAlign w st true = some r ∧
      r.terminated = false ∧
      size r.stack + 1 = size st ∧
      IsChain r.world.mem r.stack.head_ l.tail ∧
      (∀ fuel, l.length < fuel →
        iterate w.mem fuel st.head_ = some (l.map Prod.snd) ∧
        iterate r.world.mem fuel r.stack.head_ = some ((l.map Prod.snd).tail)) ∧
      in_use_count r.world.rmr + 1 = in_use_count w.rmr ∧
      free_count r.world.rmr = free_count w.rmr + 1 ∧
      r.trace = [] ∧
      (st.head_ :: r.world.rmr.in_use_.map Block.ptr).Perm (w.rmr.in_use_.map Block.ptr) ∧
      r.world.rmr.free_blocks_.map Block.ptr = w.rmr.free_blocks_.map Block.ptr ++ [st.head_] := by
  cases l with
  | nil =>
    simp [isEmpty] at hne
    simp [hsz] at hne
  | cons c rest =>
    obtain ⟨a, v⟩ := c
    have hsz2 : st.sz_ = rest.length + 1 := by simpa using hsz
    obtain ⟨nxt, hhead, -, hpop, hrest⟩ :=
      pop_cons maxAlign nodeSize nodeAlign w st true a v rest hchain hsz2 hszb
    obtain ⟨hthr, ht, hperm, hfree, hiu, hfr, -, -⟩ := do_deallocate_tracked_facts maxAlign w.rmr
      a nodeSize nodeAlign true (htracked a (by simp))
    refine ⟨_, hpop, hthr, ?_, hrest, ?_, hiu, by simpa using hfr, ht, ?_, ?_⟩
    · simp [size, hsz2]
    · intro fuel hf
      refine ⟨iterate_of_chain w.mem _ _ fuel hchain hf, ?_⟩
      have hf2 : rest.length < fuel := by
        simp only [List.length_cons] at hf
        omega
      simpa using iterate_of_chain (destroyNode w.mem a) rest nxt fuel hrest hf2
    · rw [hhead]
      exact hperm
    · rw [hhead]
      simpa using hfree

/-- Witness for C15 (amended): `pop()` on the three-node stack of `threeWorld`. -/
theorem pop_returns_storage_witness :
    (isEmpty threeStack = false ∧ threeStack.sz_ = threeCells.length ∧
      IsChain threeWorld.mem threeStack.head_ threeCells) ∧
    ∃ r, pop 16 16 8 threeWorld threeStack true = some r ∧
      r.terminated = false ∧
      size r.stack + 1 = size threeStack ∧
      IsChain r.world.mem r.stack.head_ threeCells.tail ∧
      (∀ fuel, threeCells.length < fuel →
        iterate threeWorld.mem fuel threeStack.head_ = some (threeCells.map Prod.snd) ∧
        iterate r.world.mem fuel r.stack.head_ = some ((threeCells.map Prod.snd).tail)) ∧
      in_use_count r.world.rmr + 1 = in_use_count threeWorld.rmr ∧
      free_count r.world.rmr = free_count threeWorld.rmr + 1 ∧
      r.trace = [] ∧
      (threeStack.head_ :: r.world.rmr.in_use_.map Block.ptr).Perm
        (threeWorld.rmr.in_use_.map Block.ptr) ∧
      r.world.rmr.free_blocks_.map Block.ptr =
        threeWorld.rmr.free_blocks_.map Block.ptr ++ [threeStack.head_] :=
  ⟨⟨by decide, by decide, by simp [IsChain, threeWorld, threeStack, threeCells, nodeAt]⟩,
   pop_returns_storage 16 16 8 threeWorld threeStack threeCells
     (by simp [IsChain, threeWorld, threeStack, threeCells, nodeAt]) (by decide) (by decide)
     (by decide) (by decide)⟩


theorem clearFuel_chain {T : Type} (maxAlign nodeSize nodeAlign : Nat) (l : List (Nat × T)) :
    ∀ (w : World T) (st : Stack) (grows : List Bool), IsChain w.mem st.head_ l →
      st.sz_ = l.length → st.sz_ < 2 ^ 64 →
      (∀ a ∈ l.map Prod.fst, a ∈ w.rmr.in_use_.map Block.ptr) →
      (∀ g ∈ grows, g = true) →
      ∃ r, (∀ fuel, l.length ≤ fuel →
          clearFuel maxAlign nodeSize nodeAlign fuel w st grows = some r) ∧
        r.stack = { head_ := 0, sz_ := 0 } ∧
        r.terminated = false ∧
        in_use_count r.world.rmr + l.length = in_use_count w.rmr ∧
        free_count r.world.rmr = free_count w.rmr + l.length ∧
        r.trace = [] ∧
        (l.map Prod.fst ++ r.world.rmr.in_use_.map Block.ptr).Perm
          (w.rmr.in_use_.map Block.ptr) ∧
        r.world.rmr.free_blocks_.map Block.ptr =
          w.rmr.free_blocks_.map Block.ptr ++ l.map Prod.fst := by
  induction l with
  | nil =>
    intro w st grows hchain hsz _ _ _
    have hh : st.head_ = 0 := hchain
    have hs : st = { head_ := 0, sz_ := 0 } := by
      cases st
      simp only [List.length_nil] at hsz
      simp only at hh
      subst hh
      subst hsz
      rfl
    refine ⟨{ world := w, stack := st, trace := [], terminated := false }, ?_, hs, rfl,
      by simp, by simp, rfl, by simp, by simp⟩
    intro fuel _
    cases fuel <;> simp [clearFuel, hh]
  | cons c rest ih =>
    obtain ⟨a, v⟩ := c
    intro w st grows hchain hsz hszb htracked hg
    have hsz2 : st.sz_ = rest.length + 1 := by simpa using hsz
    have hhd : grows.headD true = true := by
      cases grows with
      | nil => rfl
      | cons g gs => exact hg g (by simp)
    have htl : ∀ g ∈ grows.tail, g = true := fun g hgm => hg g (List.mem_of_mem_tail hgm)
    obtain ⟨nxt, hhead, hnotin, hpop, hrest⟩ :=
      pop_cons maxAlign nodeSize nodeAlign w st true a v rest hchain hsz2 hszb
    obtain ⟨hthr, ht, hperm, hfree, hiu, hfr, hkeep, -⟩ := do_deallocate_tracked_facts maxAlign
      w.rmr a nodeSize nodeAlign true (htracked a (by simp))
    have h64 : (2 : Nat) ^ 64 = 18446744073709551616 := by norm_num
    obtain ⟨r, hr, hstack, hterm, hiu2, hfr2, ht2, hperm2, hfree2⟩ := ih
      { rmr := (do_deallocate maxAlign w.rmr a nodeSize nodeAlign true).state
        mem := destroyNode w.mem a }
      { head_ := nxt, sz_ := rest.length } grows.tail hrest rfl
      (by
        show rest.length < 2 ^ 64
        rw [h64] at hszb ⊢
        omega)
      (fun x hx => hkeep x (fun h => hnotin (h ▸ hx)) (htracked x (by simp [hx]))) htl
    refine ⟨{ world := r.world, stack := r.stack
              trace := (do_deallocate maxAlign w.rmr a nodeSize nodeAlign true).trace ++ r.trace
              terminated := r.terminated }, ?_, hstack, hterm, ?_, ?_, ?_, ?_, ?_⟩
    · intro fuel hf
      cases fuel with
      | zero => simp at hf
      | succ f =>
        have hf2 : rest.length ≤ f := by simpa using hf
        have hh : ¬ st.head_ = 0 := by
          rw [hhead]
          exact hchain.2.1
        simp only [clearFuel, hh, if_false, hhd, hpop, hthr, Bool.not_true, Bool.false_eq_true,
          hr f hf2]
    · simp only [List.length_cons]
      simp only at hiu2
      omega
    · simp only [List.length_cons]
      simp only at hfr2
      simp only [if_true] at hfr
      omega
    · simp [ht, ht2]
    · simp only [List.map_cons, List.cons_append]
      simp only at hperm2
      exact (List.Perm.cons a hperm2).trans hperm
    · simp only at hfree2
      rw [hfree2, hfree]
      simp

/-- C16 (as stated, refuted). On the one-node stack that a push on a fresh resource gives,
`free_blocks_` has to grow to take the node's block; when it cannot, `clear()` does not
return: the program ends in its first round, with `free_count()` still 0. -/
theorem clear_push_back_throws :
    runOps 16 16 8 freshWorld construct [StackOp.emplace (some 7) (some 101) true true] =
      some { world := oneNodeWorld, stack := oneNodeStack
             trace := [RawEvent.reserve 16 8 false (some 101)], terminated := false } ∧
    clear 16 16 8 oneNodeWorld oneNodeStack [false] =
      some { world := { rmr := { in_use_ := [], free_blocks_ := [] }, mem := [] }
             stack := { head_ := 0, sz_ := 0 }, trace := [], terminated := true } := by
  decide

/-- C16 (amended). Clear / destruction: on a stack of `n` nodes, each a block of `in_use_`,
a `clear()` (which is all the destructor does) in which no `push_back` to `free_blocks_`
throws terminates and returns: any number of rounds from `n` on, and the number `clear()`
itself allows, gives the same result; then `head_` is null, the size 0, `empty()` true and the
iteration empty; the records of the `n` node addresses have left `in_use_` and records of
these addresses, in the order of the pops, are appended to `free_blocks_`, so
`in_use_count()` has dropped by `n` and `free_count()` grown by `n`, without a heap call;
`in_use_count()` is 0 when the nodes were all that was lent out. -/
theorem clear_moves_all_blocks {T : Type} (maxAlign nodeSize nodeAlign : Nat) (w : World T)
    (st : Stack) (l : List (Nat × T)) (grows : List Bool)
    (hchain : IsChain w.mem st.head_ l) (hsz : st.sz_ = l.length) (hszb : st.sz_ < 2 ^ 64)
    (htracked : ∀ a ∈ l.map Prod.fst, a ∈ w.rmr.in_use_.map Block.ptr)
    (hgrows : ∀ g ∈ grows, g = true) :
    ∃ r, (∀ fuel, l.length ≤ fuel →
        clearFuel maxAlign nodeSize nodeAlign fuel w st grows = some r) ∧
      clear maxAlign nodeSize nodeAlign w st grows = some r ∧
      r.terminated = false ∧
      size r.stack = 0 ∧ isEmpty r.stack = true ∧
      (∀ fuel, iterate r.world.mem (fuel + 1) r.stack.head_ = some []) ∧
      in_use_count r.world.rmr + size st = in_use_count w.rmr ∧
      free_count r.world.rmr = free_count w.rmr + size st ∧
      r.trace = [] ∧
      in_use_count r.world.rmr = in_use_count w.rmr - size st ∧
      (l.map Prod.fst ++ r.world.rmr.in_use_.map Block.ptr).Perm (w.rmr.in_use_.map Block.ptr) ∧
      r.world.rmr.free_blocks_.map Block.ptr =
        w.rmr.free_blocks_.map Block.ptr ++ l.map Prod.fst := by
  obtain ⟨r, hr, hstack, hterm, hiu, hfr, ht, hperm, hfree⟩ :=
    clearFuel_chain maxAlign nodeSize nodeAlign l w st grows hchain hsz hszb htracked hgrows
  refine ⟨r, hr, hr _ (IsChain_length_le w.mem l st.head_ hchain), hterm, ?_, ?_, ?_, ?_, ?_, ht,
    ?_, hperm, hfree⟩
  · rw [hstack]; rfl
  · rw [hstack]; rfl
  · intro fuel
    rw [hstack]
    simp [iterate]
  · rw [size, hsz]; exact hiu
  · rw [size, hsz]; exact hfr
  · rw [size, hsz]; omega

/-- Witness for C16 (amended): `clear()` on the three-node stack of `threeWorld`. -/
theorem clear_moves_all_blocks_witness :
    (threeStack.sz_ = threeCells.length ∧ threeStack.sz_ < 2 ^ 64 ∧
      IsChain threeWorld.mem threeStack.head_ threeCells) ∧
    ∃ r, (∀ fuel, threeCells.length ≤ fuel →
        clearFuel 16 16 8 fuel threeWorld threeStack [true, true, true] = some r) ∧
      clear 16 16 8 threeWorld threeStack [true, true, true] = some r ∧
      r.terminated = false ∧
      size r.stack = 0 ∧ isEmpty r.stack = true ∧
      (∀ fuel, iterate r.world.mem (fuel + 1) r.stack.head_ = some []) ∧
      in_use_count r.world.rmr + size threeStack = in_use_count threeWorld.rmr ∧
      free_count r.world.rmr = free_count threeWorld.rmr + size threeStack ∧
      r.trace = [] ∧
      in_use_count r.world.rmr = in_use_count threeWorld.rmr - size threeStack ∧
      (threeCells.map Prod.fst ++ r.world.rmr.in_use_.map Block.ptr).Perm
        (threeWorld.rmr.in_use_.map Block.ptr) ∧
      r.world.rmr.free_blocks_.map Block.ptr =
        threeWorld.rmr.free_blocks_.map Block.ptr ++ threeCells.map Prod.fst :=
  ⟨⟨by decide, by decide, by simp [IsChain, threeWorld, threeStack, threeCells, nodeAt]⟩,
   clear_moves_all_blocks 16 16 8 threeWorld threeStack threeCells [true, true, true]
     (by simp [IsChain, threeWorld, threeStack, threeCells, nodeAt]) (by decide) (by decide)
     (by decide) (by decide)⟩


/-! ## The representation invariant under single operations -/

theorem SysInv_size_bound {T : Type} (w : World T) (st : Stack) (l : List (Nat × T))
    (hinv : SysInv w st l) : l.length + 1 ≤ 2 ^ 64 := by
  obtain ⟨hchain, -, htracked, -, hbd⟩ := hinv
  have hnd := IsChain_nodup w.mem l st.head_ hchain
  have := length_succ_le_of_nodup_bounded (l.map Prod.fst) (2 ^ 64) (by norm_num) hnd
    (fun a ha => hbd a (by
      simp only [addrs, List.map_append, List.mem_append]
      exact Or.inl (htracked a ha)))
  simpa using this

theorem emplace_trace_eq {T : Type} (maxAlign nodeSize nodeAlign : Nat) (w : World T)
    (st : Stack) (oracle : Option Nat) (ctor : Option T) (grow growBack : Bool) :
    (emplace maxAlign nodeSize nodeAlign w st oracle ctor grow growBack).trace =
      (do_allocate maxAlign w.rmr nodeSize nodeAlign oracle grow).trace := by
  cases hres : (do_allocate maxAlign w.rmr nodeSize nodeAlign oracle grow).result with
  | bad_alloc => rw [emplace_bad_alloc_eq _ _ _ _ _ _ _ _ _ hres]
  | address node =>
    cases ctor with
    | some v => rw [emplace_done_eq _ _ _ _ _ _ _ _ _ node hres]
    | none =>
      obtain ⟨b, hb, hin, -⟩ :=
        do_allocate_address_cases maxAlign w.rmr nodeSize nodeAlign oracle grow node hres
      have hmem : node ∈ (do_allocate maxAlign w.rmr nodeSize nodeAlign oracle
          grow).state.in_use_.map Block.ptr := by
        rw [hin]
        simp [hb]
      have ht := (do_deallocate_tracked_facts maxAlign
        (do_allocate maxAlign w.rmr nodeSize nodeAlign oracle grow).state node nodeSize nodeAlign
        growBack hmem).2.1
      rw [emplace_ctor_throws_eq _ _ _ _ _ _ _ _ node hres]
      simp only [ht, List.append_nil]

/-- A successful `emplace` on a well-formed stack: the new node is a fresh cell in front of
the old ones, and the invariant holds again. -/
theorem emplace_done_inv {T : Type} (maxAlign nodeSize nodeAlign : Nat) (w : World T)
    (st : Stack) (l : List (Nat × T)) (oracle : Option Nat) (ctor : Option T)
    (grow growBack : Bool) (hinv : SysInv w st l)
    (hheap : heapAnswerOK w.rmr
      (emplace maxAlign nodeSize nodeAlign w st oracle ctor grow growBack).trace = true)
    (hres : (emplace maxAlign nodeSize nodeAlign w st oracle ctor grow growBack).result =
      EmplaceResult.done) :
    ∃ node v, ctor = some v ∧
      (do_allocate maxAlign w.rmr nodeSize nodeAlign oracle grow).result =
        AllocResult.address node ∧
      (emplace maxAlign nodeSize nodeAlign w st oracle ctor grow growBack).stack =
        { head_ := node, sz_ := l.length + 1 } ∧
      (emplace maxAlign nodeSize nodeAlign w st oracle ctor grow growBack).world =
        { rmr := (do_allocate maxAlign w.rmr nodeSize nodeAlign oracle grow).state
          mem := writeNode w.mem node { value := v, next := st.head_ } } ∧
      SysInv (emplace maxAlign nodeSize nodeAlign w st oracle ctor grow growBack).world
        (emplace maxAlign nodeSize nodeAlign w st oracle ctor grow growBack).stack
        ((node, v) :: l) := by
  rw [emplace_trace_eq] at hheap
  obtain ⟨hchain, hsz, htracked, hwf⟩ := hinv
  cases hr : (do_allocate maxAlign w.rmr nodeSize nodeAlign oracle grow).result with
  | bad_alloc =>
    rw [emplace_bad_alloc_eq _ _ _ _ _ _ _ _ _ hr] at hres
    cases hres
  | address node =>
    cases ctor with
    | none =>
      rw [emplace_ctor_throws_eq _ _ _ _ _ _ _ _ node hr] at hres
      simp only at hres
      split at hres <;> cases hres
    | some v =>
      obtain ⟨hwf2, hn0, hn64, hnotin⟩ :=
        do_allocate_wf maxAlign w.rmr nodeSize nodeAlign oracle grow node hwf hheap hr
      obtain ⟨b, hb, hin, -⟩ :=
        do_allocate_address_cases maxAlign w.rmr nodeSize nodeAlign oracle grow node hr
      have hne : ∀ a ∈ l.map Prod.fst, a ≠ node := fun a ha h => hnotin (h ▸ htracked a ha)
      have hchain2 : IsChain (writeNode w.mem node { value := v, next := st.head_ }) node
          ((node, v) :: l) := by
        refine ⟨rfl, hn0, st.head_, nodeAt_writeNode_same _ _ _, ?_⟩
        apply IsChain_frame w.mem _ l st.head_ _ hchain
        intro a ha
        exact nodeAt_writeNode_other w.mem node a _ (hne a ha)
      have htracked2 : ∀ a ∈ ((node, v) :: l).map Prod.fst,
          a ∈ (do_allocate maxAlign w.rmr nodeSize nodeAlign oracle grow).state.in_use_.map
            Block.ptr := by
        intro a ha
        rw [hin]
        simp only [List.map_cons, List.mem_cons] at ha
        simp only [List.map_append, List.map_cons, List.map_nil, List.mem_append,
          List.mem_singleton, hb]
        rcases ha with rfl | ha
        · exact Or.inr rfl
        · exact Or.inl (htracked a ha)
      have hpre : SysInv
          ({ rmr := (do_allocate maxAlign w.rmr nodeSize nodeAlign oracle grow).state
             mem := writeNode w.mem node { value := v, next := st.head_ } } : World T)
          { head_ := node, sz_ := l.length + 1 } ((node, v) :: l) :=
        ⟨hchain2, by simp, htracked2, hwf2⟩
      have hbound := SysInv_size_bound _ _ _ hpre
      have h64 : (2 : Nat) ^ 64 = 18446744073709551616 := by norm_num
      have hmod : (st.sz_ + 1) % 2 ^ 64 = l.length + 1 := by
        simp only [List.length_cons] at hbound
        rw [h64] at hbound ⊢
        rw [hsz]
        omega
      rw [emplace_done_eq _ _ _ _ _ _ _ _ _ node hr, hmod]
      exact ⟨node, v, rfl, rfl, rfl, rfl, hpre⟩

/-- An `emplace` that does not end normally (an exception, or the end of the program) on a
well-formed stack leaves the stack and the node memory alone, and the invariant holds again,
whatever happened to the registry. -/
theorem emplace_failed_inv {T : Type} (maxAlign nodeSize nodeAlign : Nat) (w : World T)
    (st : Stack) (l : List (Nat × T)) (oracle : Option Nat) (ctor : Option T)
    (grow growBack : Bool) (hinv : SysInv w st l)
    (hheap : heapAnswerOK w.rmr
      (emplace maxAlign nodeSize nodeAlign w st oracle ctor grow growBack).trace = true)
    (hres : (emplace maxAlign nodeSize nodeAlign w st oracle ctor grow growBack).result ≠
      EmplaceResult.done) :
    (emplace maxAlign nodeSize nodeAlign w st oracle ctor grow growBack).stack = st ∧
    (emplace maxAlign nodeSize nodeAlign w st oracle ctor grow growBack).world.mem = w.mem ∧
    SysInv (emplace maxAlign nodeSize nodeAlign w st oracle ctor grow growBack).world
      (emplace maxAlign nodeSize nodeAlign w st oracle ctor grow growBack).stack l := by
  rw [emplace_trace_eq] at hheap
  obtain ⟨hchain, hsz, htracked, hwf⟩ := hinv
  have hwf2 := do_allocate_wf_any maxAlign w.rmr nodeSize nodeAlign oracle grow hwf hheap
  cases hr : (do_allocate maxAlign w.rmr nodeSize nodeAlign oracle grow).result with
  | bad_alloc =>
    obtain ⟨hin, -⟩ := do_allocate_bad_alloc_cases maxAlign w.rmr nodeSize nodeAlign oracle grow hr
    rw [emplace_bad_alloc_eq _ _ _ _ _ _ _ _ _ hr]
    refine ⟨rfl, rfl, hchain, hsz, ?_, hwf2⟩
    intro a ha
    show a ∈ (do_allocate maxAlign w.rmr nodeSize nodeAlign oracle grow).state.in_use_.map
      Block.ptr
    rw [hin]
    exact htracked a ha
  | address node =>
    cases ctor with
    | some v =>
      rw [emplace_done_eq _ _ _ _ _ _ _ _ _ node hr] at hres
      exact absurd rfl hres
    | none =>
      obtain ⟨-, -, -, hnotin⟩ :=
        do_allocate_wf maxAlign w.rmr nodeSize nodeAlign oracle grow node hwf hheap hr
      obtain ⟨b, hb, hin, -⟩ :=
        do_allocate_address_cases maxAlign w.rmr nodeSize nodeAlign oracle grow node hr
      have hmem : node ∈ (do_allocate maxAlign w.rmr nodeSize nodeAlign oracle
          grow).state.in_use_.map Block.ptr := by
        rw [hin]
        simp [hb]
      have hwf3 := do_deallocate_wf_any maxAlign
        (do_allocate maxAlign w.rmr nodeSize nodeAlign oracle grow).state node nodeSize nodeAlign
        growBack hwf2
      obtain ⟨-, -, -, -, -, -, hkeep, -⟩ := do_deallocate_tracked_facts maxAlign
        (do_allocate maxAlign w.rmr nodeSize nodeAlign oracle grow).state node nodeSize nodeAlign
        growBack hmem
      rw [emplace_ctor_throws_eq _ _ _ _ _ _ _ _ node hr]
      refine ⟨rfl, rfl, hchain, hsz, ?_, hwf3⟩
      intro a ha
      apply hkeep a (fun h => hnotin (h ▸ htracked a ha))
      rw [hin]
      simp only [List.map_append, List.mem_append]
      exact Or.inl (htracked a ha)

/-- The member `pop()` on a well-formed stack: defined, removes the first cell, and the
invariant holds again, also when the program ends in the hand-back of the node. -/
theorem pop_inv {T : Type} (maxAlign nodeSize nodeAlign : Nat) (w : World T) (st : Stack)
    (grow : Bool) (l : List (Nat × T)) (hinv : SysInv w st l) :
    ∃ r, pop maxAlign nodeSize nodeAlign w st grow = some r ∧ SysInv r.world r.stack l.tail ∧
      r.stack.sz_ = l.length - 1 ∧ r.trace = [] ∧
      (l = [] → r.world = w ∧ r.stack = st ∧ r.terminated = false) ∧
      (l ≠ [] →
        r.world.rmr = (do_deallocate maxAlign w.rmr st.head_ nodeSize nodeAlign grow).state ∧
        st.head_ ∈ w.rmr.in_use_.map Block.ptr ∧ r.terminated = !grow) := by
  have hbound := SysInv_size_bound w st l hinv
  obtain ⟨hchain, hsz, htracked, hwf⟩ := hinv
  cases l with
  | nil =>
    have hh : st.head_ = 0 := hchain
    refine ⟨{ world := w, stack := st, trace := [], terminated := false }, by simp [pop, hh], ?_,
      by simp [hsz], rfl, fun _ => ⟨rfl, rfl, rfl⟩, fun h => absurd rfl h⟩
    exact ⟨hchain, hsz, htracked, hwf⟩
  | cons c rest =>
    obtain ⟨a, v⟩ := c
    have hsz2 : st.sz_ = rest.length + 1 := by simpa using hsz
    have hszb : st.sz_ < 2 ^ 64 := by
      simp only [List.length_cons] at hbound
      omega
    obtain ⟨nxt, hhead, hnotin, hpop, hrest⟩ :=
      pop_cons maxAlign nodeSize nodeAlign w st grow a v rest hchain hsz2 hszb
    have hain : a ∈ w.rmr.in_use_.map Block.ptr := htracked a (by simp)
    have hwf2 := do_deallocate_wf_any maxAlign w.rmr a nodeSize nodeAlign grow hwf
    obtain ⟨hthr, ht, -, -, -, -, hkeep, -⟩ :=
      do_deallocate_tracked_facts maxAlign w.rmr a nodeSize nodeAlign grow hain
    refine ⟨_, hpop, ⟨hrest, rfl, ?_, hwf2⟩, by simp, ht, (fun h => by cases h),
      (fun _ => ⟨by rw [hhead], by rw [hhead]; exact hain, hthr⟩)⟩
    intro x hx
    have hx2 : x ∈ rest.map Prod.fst := hx
    exact hkeep x (fun h => hnotin (h ▸ hx2))
      (htracked x (by
        simp only [List.map_cons]
        exact List.mem_cons_of_mem _ hx2))

/-- The loop of `clear()` on a well-formed stack is defined for enough fuel and ends on a
well-formed stack: the empty one when it returns, the one at the failing `pop` when the
program ends there. -/
theorem clearFuel_inv {T : Type} (maxAlign nodeSize nodeAlign : Nat) (l : List (Nat × T)) :
    ∀ (w : World T) (st : Stack) (grows : List Bool) (fuel : Nat), SysInv w st l →
      l.length ≤ fuel →
      ∃ r l2, clearFuel maxAlign nodeSize nodeAlign fuel w st grows = some r ∧
        SysInv r.world r.stack l2 ∧ r.trace = [] ∧ (r.terminated = false → l2 = []) := by
  induction l with
  | nil =>
    intro w st grows fuel hinv _
    have hh : st.head_ = 0 := hinv.1
    refine ⟨{ world := w, stack := st, trace := [], terminated := false }, [], ?_, hinv, rfl,
      fun _ => rfl⟩
    cases fuel <;> simp [clearFuel, hh]
  | cons c rest ih =>
    intro w st grows fuel hinv hf
    cases fuel with
    | zero => simp at hf
    | succ f =>
      have hf2 : rest.length ≤ f := by simpa using hf
      obtain ⟨r, hpop, hinv2, -, ht, -, -⟩ :=
        pop_inv maxAlign nodeSize nodeAlign w st (grows.headD true) _ hinv
      have hh : ¬ st.head_ = 0 := by
        intro h0
        have := (IsChain_head_zero w.mem _ st.head_ hinv.1).mp h0
        cases this
      cases hterm : r.terminated with
      | true =>
        refine ⟨r, rest, ?_, hinv2, ht, fun h => ?_⟩
        · simp only [clearFuel, hh, if_false, hpop, hterm, if_true]
        · rw [hterm] at h
          cases h
      | false =>
        obtain ⟨r2, l2, hr2, hinv3, ht2, hl2⟩ := ih r.world r.stack grows.tail f hinv2 hf2
        refine ⟨{ world := r2.world, stack := r2.stack, trace := r.trace ++ r2.trace
                  terminated := r2.terminated }, l2, ?_, hinv3, by simp [ht, ht2], hl2⟩
        simp only [clearFuel, hh, if_false, hpop, hterm, Bool.false_eq_true, hr2]

theorem clear_inv {T : Type} (maxAlign nodeSize nodeAlign : Nat) (w : World T) (st : Stack)
    (grows : List Bool) (l : List (Nat × T)) (hinv : SysInv w st l) :
    ∃ r l2, clear maxAlign nodeSize nodeAlign w st grows = some r ∧ SysInv r.world r.stack l2 ∧
      r.trace = [] ∧ (r.terminated = false → l2 = []) :=
  clearFuel_inv maxAlign nodeSize nodeAlign l w st grows w.mem.length hinv
    (IsChain_length_le w.mem l st.head_ hinv.1)

/-- C14. Emplace/push success: on a well-formed stack with cells `l`, the heap answering
properly if it is asked, a `push(v)` (which is `emplace` constructing `v`) that ends normally
leaves `top()` equal to `v`, the size one larger, `empty()` false, and the iteration sequence
`v` followed by the old one. -/
theorem push_success {T : Type} (maxAlign nodeSize nodeAlign : Nat) (w : World T) (st : Stack)
    (l : List (Nat × T)) (oracle : Option Nat) (v : T) (grow : Bool)
    (hinv : SysInv w st l)
    (hheap : heapAnswerOK w.rmr (push maxAlign nodeSize nodeAlign w st oracle v grow).trace =
      true)
    (hres : (push maxAlign nodeSize nodeAlign w st oracle v grow).result = EmplaceResult.done) :
    (∀ growBack, push maxAlign nodeSize nodeAlign w st oracle v grow =
      emplace maxAlign nodeSize nodeAlign w st oracle (some v) grow growBack) ∧
    top (push maxAlign nodeSize nodeAlign w st oracle v grow).world
      (push maxAlign nodeSize nodeAlign w st oracle v grow).stack = some v ∧
    size (push maxAlign nodeSize nodeAlign w st oracle v grow).stack = size st + 1 ∧
    isEmpty (push maxAlign nodeSize nodeAlign w st oracle v grow).stack = false ∧
    (∀ fuel, l.length < fuel →
      iterate w.mem fuel st.head_ = some (l.map Prod.snd) ∧
      iterate (push maxAlign nodeSize nodeAlign w st oracle v grow).world.mem (fuel + 1)
        (push maxAlign nodeSize nodeAlign w st oracle v grow).stack.head_ =
        some (v :: l.map Prod.snd)) := by
  obtain ⟨node, v2, hv, hnode, hstack, hworld, hinv2⟩ :=
    emplace_done_inv maxAlign nodeSize nodeAlign w st l oracle (some v) grow true hinv hheap hres
  have hvv : v2 = v := (Option.some.inj hv).symm
  subst hvv
  have hst : (push maxAlign nodeSize nodeAlign w st oracle v2 grow).stack =
      { head_ := node, sz_ := l.length + 1 } := hstack
  have hwd : (push maxAlign nodeSize nodeAlign w st oracle v2 grow).world =
      { rmr := (do_allocate maxAlign w.rmr nodeSize nodeAlign oracle grow).state
        mem := writeNode w.mem node { value := v2, next := st.head_ } } := hworld
  have hn0 : node ≠ 0 := by
    have := hinv2.1
    rw [hstack] at this
    exact this.2.1
  refine ⟨?_, ?_, ?_, ?_, ?_⟩
  · intro growBack
    show emplace maxAlign nodeSize nodeAlign w st oracle (some v2) grow true =
      emplace maxAlign nodeSize nodeAlign w st oracle (some v2) grow growBack
    rw [emplace_done_eq _ _ _ _ _ _ _ _ true node hnode,
      emplace_done_eq _ _ _ _ _ _ _ _ growBack node hnode]
  · rw [hst, hwd]
    simp only [top, hn0, if_false, nodeAt_writeNode_same]
  · rw [hst]
    simp [size, hinv.2.1]
  · rw [hst]
    simp [isEmpty]
  · intro fuel hf
    refine ⟨iterate_of_chain w.mem l st.head_ fuel hinv.1 hf, ?_⟩
    have hc : IsChain (push maxAlign nodeSize nodeAlign w st oracle v2 grow).world.mem
        (push maxAlign nodeSize nodeAlign w st oracle v2 grow).stack.head_ ((node, v2) :: l) :=
      hinv2.1
    have := iterate_of_chain _ _ _ (fuel + 1) hc (by simpa using hf)
    simpa using this

/-- Witness for C14: `push(7)` on the three-node stack of `threeWorld`, served by the free
block 4. -/
theorem push_success_witness :
    (SysInv threeWorld threeStack threeCells ∧
      heapAnswerOK threeWorld.rmr (push 16 16 8 threeWorld threeStack none 7 true).trace = true ∧
      (push 16 16 8 threeWorld threeStack none 7 true).result = EmplaceResult.done) ∧
    (∀ growBack, push 16 16 8 threeWorld threeStack none 7 true =
      emplace 16 16 8 threeWorld threeStack none (some 7) true growBack) ∧
    top (push 16 16 8 threeWorld threeStack none 7 true).world
      (push 16 16 8 threeWorld threeStack none 7 true).stack = some 7 ∧
    size (push 16 16 8 threeWorld threeStack none 7 true).stack = size threeStack + 1 ∧
    isEmpty (push 16 16 8 threeWorld threeStack none 7 true).stack = false ∧
    (∀ fuel, threeCells.length < fuel →
      iterate threeWorld.mem fuel threeStack.head_ = some (threeCells.map Prod.snd) ∧
      iterate (push 16 16 8 threeWorld threeStack none 7 true).world.mem (fuel + 1)
        (push 16 16 8 threeWorld threeStack none 7 true).stack.head_ =
        some (7 :: threeCells.map Prod.snd)) :=
  ⟨⟨⟨by simp [IsChain, threeWorld, threeStack, threeCells, nodeAt], by decide, by decide,
      by decide, by decide⟩, by decide, by decide⟩,
   push_success 16 16 8 threeWorld threeStack threeCells none 7 true
     ⟨by simp [IsChain, threeWorld, threeStack, threeCells, nodeAt], by decide, by decide,
      by decide, by decide⟩ (by decide) (by decide)⟩


/-! ## Sequences of stack operations -/

theorem SysInv_construct {T : Type} (w : World T) (hwf : RegistryWF w.rmr) :
    SysInv w construct [] :=
  ⟨rfl, rfl, fun a ha => by simp at ha, hwf⟩

theorem runOps_cons_go {T : Type} (maxAlign nodeSize nodeAlign : Nat) (w : World T)
    (st : Stack) (op : StackOp T) (ops : List (StackOp T)) (r : EmplaceOutcome T)
    (r2 : PopOutcome T)
    (hstep : stepOp maxAlign nodeSize nodeAlign w st op = some r)
    (hne : r.result ≠ EmplaceResult.terminated)
    (hrun : runOps maxAlign nodeSize nodeAlign r.world r.stack ops = some r2) :
    runOps maxAlign nodeSize nodeAlign w st (op :: ops) =
      some { world := r2.world, stack := r2.stack, trace := r.trace ++ r2.trace
             terminated := r2.terminated } := by
  simp only [runOps, hstep, hne, if_false, hrun]

theorem runOps_cons_stop {T : Type} (maxAlign nodeSize nodeAlign : Nat) (w : World T)
    (st : Stack) (op : StackOp T) (ops : List (StackOp T)) (r : EmplaceOutcome T)
    (hstep : stepOp maxAlign nodeSize nodeAlign w st op = some r)
    (hterm : r.result = EmplaceResult.terminated) :
    runOps maxAlign nodeSize nodeAlign w st (op :: ops) =
      some { world := r.world, stack := r.stack, trace := r.trace, terminated := true } := by
  simp only [runOps, hstep, hterm, if_true]

theorem heapHonest_cons {T : Type} (maxAlign nodeSize nodeAlign : Nat) (w : World T)
    (st : Stack) (op : StackOp T) (ops : List (StackOp T)) (r : EmplaceOutcome T)
    (hstep : stepOp maxAlign nodeSize nodeAlign w st op = some r)
    (h : heapHonest maxAlign nodeSize nodeAlign w st (op :: ops) = true) :
    heapAnswerOK w.rmr r.trace = true ∧
    (r.result ≠ EmplaceResult.terminated →
      heapHonest maxAlign nodeSize nodeAlign r.world r.stack ops = true) := by
  simp only [heapHonest, hstep, Bool.and_eq_true, Bool.or_eq_true, decide_eq_true_eq] at h
  exact ⟨h.1, fun hne => h.2.elim (fun h1 => absurd h1 hne) id⟩

theorem allDone_cons {T : Type} (maxAlign nodeSize nodeAlign : Nat) (w : World T)
    (st : Stack) (op : StackOp T) (ops : List (StackOp T)) (r : EmplaceOutcome T)
    (hstep : stepOp maxAlign nodeSize nodeAlign w st op = some r)
    (h : allDone maxAlign nodeSize nodeAlign w st (op :: ops) = true) :
    r.result = EmplaceResult.done ∧ r.result ≠ EmplaceResult.terminated ∧
    allDone maxAlign nodeSize nodeAlign r.world r.stack ops = true := by
  simp only [allDone, hstep, Bool.and_eq_true, decide_eq_true_eq] at h
  refine ⟨h.1, ?_, h.2⟩
  rw [h.1]
  exact fun h1 => by cases h1

theorem stepOp_pop {T : Type} (maxAlign nodeSize nodeAlign : Nat) (w : World T) (st : Stack)
    (grow : Bool) (p : PopOutcome T)
    (hpop : pop maxAlign nodeSize nodeAlign w st grow = some p) :
    stepOp maxAlign nodeSize nodeAlign w st (StackOp.pop grow) =
      some { result := if p.terminated then EmplaceResult.terminated else EmplaceResult.done
             world := p.world, stack := p.stack, trace := p.trace } := by
  simp only [stepOp, hpop]

/-- Every operation is defined on a well-formed stack and leads to a well-formed stack,
however it ends. -/
theorem stepOp_inv {T : Type} (maxAlign nodeSize nodeAlign : Nat) (w : World T) (st : Stack)
    (l : List (Nat × T)) (op : StackOp T) (hinv : SysInv w st l)
    (hheap : ∀ r, stepOp maxAlign nodeSize nodeAlign w st op = some r →
      heapAnswerOK w.rmr r.trace = true) :
    ∃ r l2, stepOp maxAlign nodeSize nodeAlign w st op = some r ∧
      SysInv r.world r.stack l2 := by
  cases op with
  | emplace ctor oracle grow growBack =>
    have hh := hheap _ rfl
    by_cases hres : (emplace maxAlign nodeSize nodeAlign w st oracle ctor grow growBack).result =
        EmplaceResult.done
    · obtain ⟨node, v, -, -, -, -, hinv2⟩ := emplace_done_inv maxAlign nodeSize nodeAlign w st l
        oracle ctor grow growBack hinv hh hres
      exact ⟨_, _, rfl, hinv2⟩
    · obtain ⟨-, -, hinv2⟩ := emplace_failed_inv maxAlign nodeSize nodeAlign w st l oracle ctor
        grow growBack hinv hh hres
      exact ⟨_, _, rfl, hinv2⟩
  | pop grow =>
    obtain ⟨r, hpop, hinv2, -⟩ := pop_inv maxAlign nodeSize nodeAlign w st grow l hinv
    exact ⟨_, l.tail, stepOp_pop maxAlign nodeSize nodeAlign w st grow r hpop, hinv2⟩
  | clear grows =>
    obtain ⟨r, l2, hclear, hinv2, -⟩ := clear_inv maxAlign nodeSize nodeAlign w st grows l hinv
    exact ⟨{ result := if r.terminated then EmplaceResult.terminated else EmplaceResult.done
             world := r.world, stack := r.stack, trace := r.trace },
      l2, by simp only [stepOp, hclear], hinv2⟩
  | move_construct follow_new =>
    cases follow_new with
    | true =>
      refine ⟨_, l, rfl, ?_⟩
      exact hinv
    | false =>
      refine ⟨_, [], rfl, ?_⟩
      exact ⟨rfl, rfl, fun a ha => by simp at ha, hinv.2.2.2⟩

theorem runOps_inv {T : Type} (maxAlign nodeSize nodeAlign : Nat) (ops : List (StackOp T)) :
    ∀ (w : World T) (st : Stack) (l : List (Nat × T)), SysInv w st l →
      heapHonest maxAlign nodeSize nodeAlign w st ops = true →
      ∃ r l2, runOps maxAlign nodeSize nodeAlign w st ops = some r ∧
        SysInv r.world r.stack l2 := by
  induction ops with
  | nil =>
    intro w st l hinv _
    exact ⟨_, l, rfl, hinv⟩
  | cons op ops ih =>
    intro w st l hinv hheap
    obtain ⟨r, l2, hstep, hinv2⟩ := stepOp_inv maxAlign nodeSize nodeAlign w st l op hinv
      (by
        intro r hr
        exact (heapHonest_cons maxAlign nodeSize nodeAlign w st op ops r hr hheap).1)
    by_cases hterm : r.result = EmplaceResult.terminated
    · exact ⟨_, l2, runOps_cons_stop maxAlign nodeSize nodeAlign w st op ops r hstep hterm,
        hinv2⟩
    · have hheap2 :=
        (heapHonest_cons maxAlign nodeSize nodeAlign w st op ops r hstep hheap).2 hterm
      obtain ⟨r2, l3, hrun, hinv3⟩ := ih r.world r.stack l2 hinv2 hheap2
      exact ⟨_, l3, runOps_cons_go maxAlign nodeSize nodeAlign w st op ops r r2 hstep hterm hrun,
        hinv3⟩

/-- C19. Stack representation invariant: in every state reached from a freshly constructed
stack (on a well-formed registry) by any sequence of push, emplace (succeeding, failing with
an exception whatever it did to the registry, or ending the program), pop, clear and move
construction, the heap answering properly, the vectors growing or failing to grow, the run
is defined up to its end or to the operation that ends the program, and in the state reached
the nodes reachable from `head_` form a finite chain ending in a null link, `size()` is their
number, and `head_` is null exactly when `size()` is 0, which is when `empty()` holds. -/
theorem stack_invariant_reachable {T : Type} (maxAlign nodeSize nodeAlign : Nat) (w : World T)
    (ops : List (StackOp T)) (hwf : RegistryWF w.rmr)
    (hheap : heapHonest maxAlign nodeSize nodeAlign w construct ops = true) :
    ∃ r l, runOps maxAlign nodeSize nodeAlign w construct ops = some r ∧
      IsChain r.world.mem r.stack.head_ l ∧
      size r.stack = l.length ∧
      (∀ fuel, l.length < fuel → iterate r.world.mem fuel r.stack.head_ = some (l.map Prod.snd)) ∧
      (r.stack.head_ = 0 ↔ size r.stack = 0) ∧
      (isEmpty r.stack = true ↔ r.stack.head_ = 0) := by
  obtain ⟨r, l, hrun, hinv⟩ := runOps_inv maxAlign nodeSize nodeAlign ops w construct []
    (SysInv_construct w hwf) hheap
  obtain ⟨hchain, hsz, -, -⟩ := hinv
  have hhead := IsChain_head_zero r.world.mem l r.stack.head_ hchain
  have hlen : r.stack.sz_ = 0 ↔ l = [] := by
    rw [hsz]
    exact List.length_eq_zero
  refine ⟨r, l, hrun, hchain, hsz, fun fuel hf => iterate_of_chain _ _ _ fuel hchain hf, ?_, ?_⟩
  · exact hhead.trans hlen.symm
  · simp only [isEmpty, decide_eq_true_eq]
    exact hlen.trans hhead.symm

/-- Witness for C19: the run `faultyOps` on a resource another client has used, in which
two pushes end in `std::bad_alloc`, one constructor throws and `clear` ends the program. -/
theorem stack_invariant_reachable_witness :
    (RegistryWF sharedWorld.rmr ∧ heapHonest 16 8 8 sharedWorld construct faultyOps = true) ∧
    ∃ r l, runOps 16 8 8 sharedWorld construct faultyOps = some r ∧
      IsChain r.world.mem r.stack.head_ l ∧
      size r.stack = l.length ∧
      (∀ fuel, l.length < fuel → iterate r.world.mem fuel r.stack.head_ = some (l.map Prod.snd)) ∧
      (r.stack.head_ = 0 ↔ size r.stack = 0) ∧
      (isEmpty r.stack = true ↔ r.stack.head_ = 0) :=
  ⟨⟨⟨by decide, by decide⟩, by decide⟩,
   stack_invariant_reachable 16 8 8 sharedWorld faultyOps ⟨by decide, by decide⟩ (by decide)⟩

theorem push_all_chain {T : Type} (maxAlign nodeSize nodeAlign : Nat)
    (items : List (T × Option Nat × Bool)) :
    ∀ (w : World T) (st : Stack) (l : List (Nat × T)), SysInv w st l →
      heapHonest maxAlign nodeSize nodeAlign w st (pushOps items) = true →
      allDone maxAlign nodeSize nodeAlign w st (pushOps items) = true →
      ∃ r l2, runOps maxAlign nodeSize nodeAlign w st (pushOps items) = some r ∧
        r.terminated = false ∧
        SysInv r.world r.stack l2 ∧
        l2.map Prod.snd = (items.map Prod.fst).reverse ++ l.map Prod.snd := by
  induction items with
  | nil =>
    intro w st l hinv _ _
    exact ⟨{ world := w, stack := st, trace := [], terminated := false }, l, rfl, rfl, hinv,
      by simp⟩
  | cons x rest ih =>
    obtain ⟨v, o, g⟩ := x
    intro w st l hinv hheap hdone
    have hstep : stepOp maxAlign nodeSize nodeAlign w st (StackOp.emplace (some v) o g true) =
        some (emplace maxAlign nodeSize nodeAlign w st o (some v) g true) := rfl
    have hops : pushOps ((v, o, g) :: rest) =
        StackOp.emplace (some v) o g true :: pushOps rest := rfl
    rw [hops] at hheap hdone ⊢
    obtain ⟨hd1, hd2, hd3⟩ := allDone_cons maxAlign nodeSize nodeAlign w st _ _ _ hstep hdone
    obtain ⟨hh1, hh2⟩ := heapHonest_cons maxAlign nodeSize nodeAlign w st _ _ _ hstep hheap
    obtain ⟨node, v2, hv, -, -, -, hinv2⟩ := emplace_done_inv maxAlign nodeSize nodeAlign w st l
      o (some v) g true hinv hh1 hd1
    have hvv : v2 = v := (Option.some.inj hv).symm
    subst hvv
    obtain ⟨r, l2, hrun, hterm, hinv3, hvals⟩ := ih _ _ _ hinv2 (hh2 hd2) hd3
    refine ⟨_, l2, runOps_cons_go maxAlign nodeSize nodeAlign w st _ _ _ r hstep hd2 hrun,
      hterm, hinv3, ?_⟩
    rw [hvals]
    simp

/-- C12. LIFO iteration: pushing `v1, ..., vn` in this order onto a freshly constructed stack
(on a well-formed registry, every push ending normally, the heap answering properly) and then
iterating from `begin()` yields `vn, ..., v1` and then reaches `end()`: any number of rounds
above `n` gives exactly this sequence. -/
theorem push_all_iterate_reverse {T : Type} (maxAlign nodeSize nodeAlign : Nat) (w : World T)
    (items : List (T × Option Nat × Bool)) (hwf : RegistryWF w.rmr)
    (hheap : heapHonest maxAlign nodeSize nodeAlign w construct (pushOps items) = true)
    (hdone : allDone maxAlign nodeSize nodeAlign w construct (pushOps items) = true) :
    ∃ r, runOps maxAlign nodeSize nodeAlign w construct (pushOps items) = some r ∧
      r.terminated = false ∧
      ∀ fuel, items.length < fuel →
        iterate r.world.mem fuel r.stack.head_ = some (items.map Prod.fst).reverse := by
  obtain ⟨r, l2, hrun, hterm, hinv, hvals⟩ := push_all_chain maxAlign nodeSize nodeAlign items w
    construct [] (SysInv_construct w hwf) hheap hdone
  refine ⟨r, hrun, hterm, ?_⟩
  intro fuel hf
  have hlen : l2.length = items.length := by
    have := congrArg List.length hvals
    simpa using this
  have := iterate_of_chain r.world.mem l2 r.stack.head_ fuel hinv.1 (by omega)
  rw [this, hvals]
  simp

/-- Witness for C12: pushing 10, 20, 30 on a fresh resource, as in the test
`ForwardIterationOrder`. -/
theorem push_all_iterate_reverse_witness :
    (RegistryWF freshWorld.rmr ∧
      heapHonest 16 16 8 freshWorld construct
        (pushOps [(10, some 101, true), (20, some 102, true), (30, some 103, true)]) = true ∧
      allDone 16 16 8 freshWorld construct
        (pushOps [(10, some 101, true), (20, some 102, true), (30, some 103, true)]) = true) ∧
    ∃ r, runOps 16 16 8 freshWorld construct
        (pushOps [(10, some 101, true), (20, some 102, true), (30, some 103, true)]) = some r ∧
      r.terminated = false ∧
      ∀ fuel, [(10, some 101, true), (20, some 102, true), (30, some 103, true)].length < fuel →
        iterate r.world.mem fuel r.stack.head_ =
          some ([(10, some 101, true), (20, some 102, true), (30, some 103, true)].map
            Prod.fst).reverse :=
  ⟨⟨⟨by decide, by decide⟩, by decide, by decide⟩,
   push_all_iterate_reverse 16 16 8 freshWorld
     [(10, some 101, true), (20, some 102, true), (30, some 103, true)]
     ⟨by decide, by decide⟩ (by decide) (by decide)⟩


theorem effectivePops_cons_go {T : Type} (maxAlign nodeSize nodeAlign : Nat) (w : World T)
    (st : Stack) (op : StackOp T) (ops : List (StackOp T)) (r : EmplaceOutcome T)
    (hstep : stepOp maxAlign nodeSize nodeAlign w st op = some r)
    (hne : r.result ≠ EmplaceResult.terminated) :
    effectivePops maxAlign nodeSize nodeAlign w st (op :: ops) =
      (match op with
        | StackOp.pop _ => if isEmpty st then 0 else 1
        | _ => 0) + effectivePops maxAlign nodeSize nodeAlign r.world r.stack ops := by
  cases op <;> simp [effectivePops, hstep, hne]

theorem peakSize_cons_go {T : Type} (maxAlign nodeSize nodeAlign : Nat) (w : World T)
    (st : Stack) (op : StackOp T) (ops : List (StackOp T)) (r : EmplaceOutcome T)
    (hstep : stepOp maxAlign nodeSize nodeAlign w st op = some r)
    (hne : r.result ≠ EmplaceResult.terminated) :
    peakSize maxAlign nodeSize nodeAlign w st (op :: ops) =
      max (size st) (peakSize maxAlign nodeSize nodeAlign r.world r.stack ops) := by
  simp only [peakSize, hstep, hne, if_false]

theorem pop_done_not_terminated {T : Type} (p : PopOutcome T)
    (h : (if p.terminated then EmplaceResult.terminated else EmplaceResult.done) =
      EmplaceResult.done) : p.terminated = false := by
  cases hterm : p.terminated with
  | false => rfl
  | true =>
    rw [hterm] at h
    cases h

theorem size_law_gen {T : Type} (maxAlign nodeSize nodeAlign : Nat) (ops : List (StackOp T)) :
    ∀ (w : World T) (st : Stack) (l : List (Nat × T)), SysInv w st l →
      pushPopOnly ops = true →
      heapHonest maxAlign nodeSize nodeAlign w st ops = true →
      allDone maxAlign nodeSize nodeAlign w st ops = true →
      ∃ r l2, runOps maxAlign nodeSize nodeAlign w st ops = some r ∧
        r.terminated = false ∧
        SysInv r.world r.stack l2 ∧
        r.stack.sz_ + effectivePops maxAlign nodeSize nodeAlign w st ops =
          st.sz_ + pushCount ops := by
  induction ops with
  | nil =>
    intro w st l hinv _ _ _
    exact ⟨{ world := w, stack := st, trace := [], terminated := false }, l, rfl, rfl, hinv, rfl⟩
  | cons op ops ih =>
    intro w st l hinv hpp hheap hdone
    cases op with
    | emplace ctor o g gb =>
      have hstep : stepOp maxAlign nodeSize nodeAlign w st (StackOp.emplace ctor o g gb) =
          some (emplace maxAlign nodeSize nodeAlign w st o ctor g gb) := rfl
      obtain ⟨hd1, hd2, hd3⟩ := allDone_cons maxAlign nodeSize nodeAlign w st _ _ _ hstep hdone
      obtain ⟨hh1, hh2⟩ := heapHonest_cons maxAlign nodeSize nodeAlign w st _ _ _ hstep hheap
      have hpp2 : pushPopOnly ops = true := hpp
      obtain ⟨node, v, -, -, hstack, -, hinv2⟩ := emplace_done_inv maxAlign nodeSize nodeAlign
        w st l o ctor g gb hinv hh1 hd1
      obtain ⟨r, l2, hrun, hterm, hinv3, hcount⟩ := ih _ _ _ hinv2 hpp2 (hh2 hd2) hd3
      refine ⟨_, l2, runOps_cons_go maxAlign nodeSize nodeAlign w st _ _ _ r hstep hd2 hrun,
        hterm, hinv3, ?_⟩
      have hsz2 : (emplace maxAlign nodeSize nodeAlign w st o ctor g gb).stack.sz_ =
          l.length + 1 := by
        rw [hstack]
      rw [hsz2] at hcount
      rw [effectivePops_cons_go maxAlign nodeSize nodeAlign w st _ _ _ hstep hd2]
      simp only [pushCount, Nat.zero_add]
      rw [hinv.2.1]
      omega
    | pop g =>
      obtain ⟨p, hpop, hinv2, hsz2, -, -, -⟩ := pop_inv maxAlign nodeSize nodeAlign w st g l hinv
      have hstep := stepOp_pop maxAlign nodeSize nodeAlign w st g p hpop
      obtain ⟨-, hd2, hd3⟩ := allDone_cons maxAlign nodeSize nodeAlign w st _ _ _ hstep hdone
      obtain ⟨-, hh2⟩ := heapHonest_cons maxAlign nodeSize nodeAlign w st _ _ _ hstep hheap
      have hpp2 : pushPopOnly ops = true := hpp
      obtain ⟨r, l2, hrun, hterm, hinv3, hcount⟩ := ih _ _ _ hinv2 hpp2 (hh2 hd2) hd3
      refine ⟨_, l2, runOps_cons_go maxAlign nodeSize nodeAlign w st _ _ _ r hstep hd2 hrun,
        hterm, hinv3, ?_⟩
      rw [effectivePops_cons_go maxAlign nodeSize nodeAlign w st _ _ _ hstep hd2]
      simp only [pushCount, isEmpty]
      rw [hsz2] at hcount
      have hl := hinv.2.1
      by_cases h0 : st.sz_ = 0
      · simp only [h0, decide_True, if_true]
        omega
      · simp only [h0, decide_False, Bool.false_eq_true, if_false]
        omega
    | clear gs => simp [pushPopOnly] at hpp
    | move_construct f => simp [pushPopOnly] at hpp

/-- C13. Size law: for every sequence of push and pop operations applied to a freshly
constructed stack (on a well-formed registry, no push throwing, the heap answering properly),
the run is defined and `size()` afterwards is the number of pushes minus the number of pops
that met a non-empty stack; a `pop()` on an empty well-formed stack changes nothing, so the
size never wraps below zero. -/
theorem size_law {T : Type} (maxAlign nodeSize nodeAlign : Nat) (w : World T)
    (ops : List (StackOp T)) (hwf : RegistryWF w.rmr) (hops : pushPopOnly ops = true)
    (hheap : heapHonest maxAlign nodeSize nodeAlign w construct ops = true)
    (hdone : allDone maxAlign nodeSize nodeAlign w construct ops = true) :
    ∃ r, runOps maxAlign nodeSize nodeAlign w construct ops = some r ∧
      r.terminated = false ∧
      size r.stack = pushCount ops - effectivePops maxAlign nodeSize nodeAlign w construct ops ∧
      effectivePops maxAlign nodeSize nodeAlign w construct ops ≤ pushCount ops ∧
      ∀ (w2 : World T) (st2 : Stack) (l2 : List (Nat × T)) (grow : Bool), SysInv w2 st2 l2 →
        isEmpty st2 = true →
        pop maxAlign nodeSize nodeAlign w2 st2 grow =
          some { world := w2, stack := st2, trace := [], terminated := false } := by
  obtain ⟨r, l2, hrun, hterm, -, hcount⟩ := size_law_gen maxAlign nodeSize nodeAlign ops w
    construct [] (SysInv_construct w hwf) hops hheap hdone
  have hc : r.stack.sz_ + effectivePops maxAlign nodeSize nodeAlign w construct ops =
      pushCount ops := by
    simpa [construct] using hcount
  refine ⟨r, hrun, hterm, by simp only [size]; omega, by omega, ?_⟩
  intro w2 st2 l3 grow hinv hempty
  have hsz0 : st2.sz_ = 0 := by simpa [isEmpty] using hempty
  have hl : l3 = [] := by
    have := hinv.2.1
    rw [hsz0] at this
    exact List.length_eq_zero.mp this.symm
  have hh : st2.head_ = 0 := (IsChain_head_zero w2.mem l3 st2.head_ hinv.1).mpr hl
  simp [pop, hh]

/-- The operations of the witness for C13: push, pop, pop on the empty stack, push, push. -/
theorem size_law_witness :
    (RegistryWF freshWorld.rmr ∧
      pushPopOnly [StackOp.emplace (some 1) (some 101) true true, StackOp.pop true,
        StackOp.pop true, StackOp.emplace (some 2) none true true,
        StackOp.emplace (some 3) (some 102) true true] = true ∧
      heapHonest 16 16 8 freshWorld construct
        [StackOp.emplace (some 1) (some 101) true true, StackOp.pop true,
          StackOp.pop true, StackOp.emplace (some 2) none true true,
          StackOp.emplace (some 3) (some 102) true true] = true ∧
      allDone 16 16 8 freshWorld construct
        [StackOp.emplace (some 1) (some 101) true true, StackOp.pop true,
          StackOp.pop true, StackOp.emplace (some 2) none true true,
          StackOp.emplace (some 3) (some 102) true true] = true) ∧
    ∃ r, runOps 16 16 8 freshWorld construct
        [StackOp.emplace (some 1) (some 101) true true, StackOp.pop true,
          StackOp.pop true, StackOp.emplace (some 2) none true true,
          StackOp.emplace (some 3) (some 102) true true] = some r ∧
      r.terminated = false ∧
      size r.stack = pushCount [StackOp.emplace (some 1) (some 101) true true, StackOp.pop true,
          StackOp.pop true, StackOp.emplace (some 2) none true true,
          StackOp.emplace (some 3) (some 102) true true] -
        effectivePops 16 16 8 freshWorld construct
          [StackOp.emplace (some 1) (some 101) true true, StackOp.pop true,
            StackOp.pop true, StackOp.emplace (some 2) none true true,
            StackOp.emplace (some 3) (some 102) true true] ∧
      effectivePops 16 16 8 freshWorld construct
          [StackOp.emplace (some 1) (some 101) true true, StackOp.pop true,
            StackOp.pop true, StackOp.emplace (some 2) none true true,
            StackOp.emplace (some 3) (some 102) true true] ≤
        pushCount [StackOp.emplace (some 1) (some 101) true true, StackOp.pop true,
          StackOp.pop true, StackOp.emplace (some 2) none true true,
          StackOp.emplace (some 3) (some 102) true true] ∧
      ∀ (w2 : World Nat) (st2 : Stack) (l2 : List (Nat × Nat)) (grow : Bool), SysInv w2 st2 l2 →
        isEmpty st2 = true →
        pop 16 16 8 w2 st2 grow =
          some { world := w2, stack := st2, trace := [], terminated := false } :=
  ⟨⟨⟨by decide, by decide⟩, by decide, by decide, by decide⟩,
   size_law 16 16 8 freshWorld _ ⟨by decide, by decide⟩ (by decide) (by decide) (by decide)⟩

/-! ## Recycling: counts of blocks under pushes and pops -/

theorem backfill_fits (b : Block) (bytes alignment : Nat)
    (h : fits bytes alignment b = true) : fits bytes alignment (backfill b bytes alignment) = true := by
  rw [fits_iff] at h
  rw [fits_iff, backfill_eq]
  constructor
  · show bytes ≤ if b.size = 0 then bytes else b.size
    split <;> omega
  · show alignment ≤ if b.alignment = 0 then alignment else b.alignment
    split <;> omega

/-- A successful allocation when every tracked block fits the request: a free block is
reused whenever there is one, and the heap is asked exactly when the free set is empty. -/
theorem do_allocate_all_fit (maxAlign : Nat) (s : Registry) (bytes alignment : Nat)
    (oracle : Option Nat) (grow : Bool) (node : Nat)
    (hfit : ∀ b ∈ s.in_use_ ++ s.free_blocks_, fits bytes alignment b = true)
    (h : (do_allocate maxAlign s bytes alignment oracle grow).result =
      AllocResult.address node) :
    (∀ b ∈ (do_allocate maxAlign s bytes alignment oracle grow).state.in_use_ ++
        (do_allocate maxAlign s bytes alignment oracle grow).state.free_blocks_,
      fits bytes alignment b = true) ∧
    in_use_count (do_allocate maxAlign s bytes alignment oracle grow).state =
      in_use_count s + 1 ∧
    ((0 < free_count s ∧
        free_count (do_allocate maxAlign s bytes alignment oracle grow).state + 1 =
          free_count s ∧
        (do_allocate maxAlign s bytes alignment oracle grow).trace = []) ∨
      (free_count s = 0 ∧
        free_count (do_allocate maxAlign s bytes alignment oracle grow).state = 0 ∧
        (do_allocate maxAlign s bytes alignment oracle grow).trace.length = 1)) := by
  obtain ⟨b, -, hin, hcase⟩ :=
    do_allocate_address_cases maxAlign s bytes alignment oracle grow node h
  rcases hcase with ⟨i, hi, -, hfree, ht⟩ | ⟨hnofit, hb, hfree, ht⟩
  · have hilt := getElem?_lt_length _ _ _ hi
    have hbmem : b ∈ s.free_blocks_ := List.getElem?_mem hi
    refine ⟨?_, by simp [in_use_count, hin], Or.inl ⟨?_, ?_, ht⟩⟩
    · intro c hc
      rw [hin, hfree] at hc
      simp only [List.mem_append, List.mem_singleton] at hc
      apply hfit c
      simp only [List.mem_append]
      rcases hc with (hc | hc) | hc
      · exact Or.inl hc
      · exact Or.inr (hc ▸ hbmem)
      · exact Or.inr (List.mem_of_mem_eraseIdx hc)
    · simp only [free_count]; omega
    · simp only [free_count, hfree, List.length_eraseIdx, hilt, if_true]
      omega
  · have hempty : s.free_blocks_ = [] := by
      cases hfb : s.free_blocks_ with
      | nil => rfl
      | cons c rest =>
        have hc : c ∈ s.free_blocks_ := by rw [hfb]; simp
        have h1 := hfit c (by simp [hc])
        exact absurd ((fits_iff _ _ _).mp h1) (hnofit c hc)
    refine ⟨?_, by simp [in_use_count, hin], Or.inr ⟨by simp [free_count, hempty],
      by simp [free_count, hfree, hempty], by simp [ht]⟩⟩
    intro c hc
    rw [hin, hfree] at hc
    simp only [List.mem_append, List.mem_singleton] at hc
    rcases hc with (hc | hc) | hc
    · exact hfit c (by simp [hc])
    · rw [hc, hb]
      simp [fits]
    · exact hfit c (by simp [hc])

theorem do_deallocate_all_fit (maxAlign : Nat) (s : Registry) (p bytes alignment : Nat)
    (grow : Bool)
    (hfit : ∀ b ∈ s.in_use_ ++ s.free_blocks_, fits bytes alignment b = true)
    (hp : p ∈ s.in_use_.map Block.ptr) :
    ∀ b ∈ (do_deallocate maxAlign s p bytes alignment grow).state.in_use_ ++
        (do_deallocate maxAlign s p bytes alignment grow).state.free_blocks_,
      fits bytes alignment b = true := by
  obtain ⟨i, b, hi, -, -, -, -, hin, hfree⟩ :=
    do_deallocate_tracked_cases maxAlign s p bytes alignment grow hp
  have hbmem : b ∈ s.in_use_ := List.getElem?_mem hi
  intro c hc
  rw [hin, hfree] at hc
  cases grow with
  | true =>
    simp only [if_true, List.mem_append, List.mem_singleton] at hc
    rcases hc with hc | hc | hc
    · exact hfit c (by simp [List.mem_of_mem_eraseIdx hc])
    · exact hfit c (by simp [hc])
    · rw [hc]
      exact backfill_fits b bytes alignment (hfit b (by simp [hbmem]))
  | false =>
    simp only [Bool.false_eq_true, if_false, List.mem_append] at hc
    rcases hc with hc | hc
    · exact hfit c (by simp [List.mem_of_mem_eraseIdx hc])
    · exact hfit c (by simp [hc])

theorem peakSize_ge {T : Type} (maxAlign nodeSize nodeAlign : Nat) (w : World T) (st : Stack)
    (ops : List (StackOp T)) : st.sz_ ≤ peakSize maxAlign nodeSize nodeAlign w st ops := by
  cases ops with
  | nil => simp [peakSize, size]
  | cons op ops =>
    simp only [peakSize, size]
    split
    · exact Nat.le_refl _
    · split
      · exact Nat.le_max_left _ _
      · exact Nat.le_max_left _ _

theorem high_water_gen {T : Type} (maxAlign nodeSize nodeAlign : Nat) (ops : List (StackOp T)) :
    ∀ (w : World T) (st : Stack) (l : List (Nat × T)), SysInv w st l →
      (∀ b ∈ w.rmr.in_use_ ++ w.rmr.free_blocks_, fits nodeSize nodeAlign b = true) →
      in_use_count w.rmr = st.sz_ →
      pushPopOnly ops = true →
      heapHonest maxAlign nodeSize nodeAlign w st ops = true →
      allDone maxAlign nodeSize nodeAlign w st ops = true →
      ∃ r, runOps maxAlign nodeSize nodeAlign w st ops = some r ∧
        r.terminated = false ∧
        in_use_count r.world.rmr = r.stack.sz_ ∧
        in_use_count r.world.rmr + free_count r.world.rmr =
          max (in_use_count w.rmr + free_count w.rmr)
            (peakSize maxAlign nodeSize nodeAlign w st ops) ∧
        in_use_count r.world.rmr + free_count r.world.rmr =
          in_use_count w.rmr + free_count w.rmr + r.trace.length := by
  induction ops with
  | nil =>
    intro w st l _ _ hcnt _ _ _
    refine ⟨{ world := w, stack := st, trace := [], terminated := false }, rfl, rfl, hcnt, ?_,
      by simp⟩
    simp only [peakSize, size]
    rw [← hcnt]
    omega
  | cons op ops ih =>
    intro w st l hinv hfit hcnt hpp hheap hdone
    cases op with
    | emplace ctor o g gb =>
      have hstep : stepOp maxAlign nodeSize nodeAlign w st (StackOp.emplace ctor o g gb) =
          some (emplace maxAlign nodeSize nodeAlign w st o ctor g gb) := rfl
      obtain ⟨hd1, hd2, hd3⟩ := allDone_cons maxAlign nodeSize nodeAlign w st _ _ _ hstep hdone
      obtain ⟨hh1, hh2⟩ := heapHonest_cons maxAlign nodeSize nodeAlign w st _ _ _ hstep hheap
      have hpp2 : pushPopOnly ops = true := hpp
      obtain ⟨node, v, -, hres, hstack, hworld, hinv2⟩ := emplace_done_inv maxAlign nodeSize
        nodeAlign w st l o ctor g gb hinv hh1 hd1
      obtain ⟨hfit2, hiu, hcase⟩ :=
        do_allocate_all_fit maxAlign w.rmr nodeSize nodeAlign o g node hfit hres
      have hrmr : (emplace maxAlign nodeSize nodeAlign w st o ctor g gb).world.rmr =
          (do_allocate maxAlign w.rmr nodeSize nodeAlign o g).state := by rw [hworld]
      have hsz2 : (emplace maxAlign nodeSize nodeAlign w st o ctor g gb).stack.sz_ =
          l.length + 1 := by
        rw [hstack]
      have htr := emplace_trace_eq maxAlign nodeSize nodeAlign w st o ctor g gb
      have hl := hinv.2.1
      obtain ⟨r, hrun, hterm, hc1, hc2, hc3⟩ := ih _ _ _ hinv2 (by rw [hrmr]; exact hfit2)
        (by rw [hrmr, hiu, hsz2, hcnt, hl]) hpp2 (hh2 hd2) hd3
      have hpk := peakSize_ge maxAlign nodeSize nodeAlign
        (emplace maxAlign nodeSize nodeAlign w st o ctor g gb).world
        (emplace maxAlign nodeSize nodeAlign w st o ctor g gb).stack ops
      refine ⟨_, runOps_cons_go maxAlign nodeSize nodeAlign w st _ _ _ r hstep hd2 hrun, hterm,
        hc1, ?_, ?_⟩
      · rw [peakSize_cons_go maxAlign nodeSize nodeAlign w st _ _ _ hstep hd2]
        simp only [size]
        rw [hrmr] at hc2
        rw [hsz2] at hpk
        rcases hcase with ⟨h1, h2, -⟩ | ⟨h1, h2, -⟩ <;> omega
      · simp only [List.length_append, htr]
        rw [hrmr] at hc3
        rcases hcase with ⟨h1, h2, h3⟩ | ⟨h1, h2, h3⟩
        · rw [h3]
          simp only [List.length_nil]
          omega
        · omega
    | pop g =>
      obtain ⟨p, hpop, hinv2, hsz2, htr, hnil, hcons⟩ :=
        pop_inv maxAlign nodeSize nodeAlign w st g l hinv
      have hstep := stepOp_pop maxAlign nodeSize nodeAlign w st g p hpop
      obtain ⟨hd1, hd2, hd3⟩ := allDone_cons maxAlign nodeSize nodeAlign w st _ _ _ hstep hdone
      obtain ⟨-, hh2⟩ := heapHonest_cons maxAlign nodeSize nodeAlign w st _ _ _ hstep hheap
      have hnt : p.terminated = false := pop_done_not_terminated p hd1
      have hpp2 : pushPopOnly ops = true := hpp
      have hl := hinv.2.1
      have hfacts : (∀ b ∈ p.world.rmr.in_use_ ++ p.world.rmr.free_blocks_,
            fits nodeSize nodeAlign b = true) ∧
          in_use_count p.world.rmr = p.stack.sz_ ∧
          in_use_count p.world.rmr + free_count p.world.rmr =
            in_use_count w.rmr + free_count w.rmr ∧ p.stack.sz_ ≤ st.sz_ := by
        by_cases hl0 : l = []
        · obtain ⟨hw, hs, -⟩ := hnil hl0
          rw [hw, hs]
          exact ⟨hfit, hcnt, rfl, Nat.le_refl _⟩
        · obtain ⟨hrmr, hhead, hthr⟩ := hcons hl0
          have hg : g = true := by
            rw [hnt] at hthr
            cases g with
            | true => rfl
            | false => cases hthr
          subst hg
          obtain ⟨-, -, -, -, hiu, hfr, -, -⟩ :=
            do_deallocate_tracked_facts maxAlign w.rmr st.head_ nodeSize nodeAlign true hhead
          simp only [if_true] at hfr
          have hpos : 0 < l.length := List.length_pos.mpr hl0
          rw [hrmr]
          refine ⟨do_deallocate_all_fit maxAlign w.rmr st.head_ nodeSize nodeAlign true hfit
            hhead, ?_, ?_, ?_⟩ <;> omega
      obtain ⟨hfit2, hcnt2, htot, hle⟩ := hfacts
      obtain ⟨r, hrun, hterm, hc1, hc2, hc3⟩ :=
        ih _ _ _ hinv2 hfit2 hcnt2 hpp2 (hh2 hd2) hd3
      have hpk := peakSize_ge maxAlign nodeSize nodeAlign p.world p.stack ops
      refine ⟨_, runOps_cons_go maxAlign nodeSize nodeAlign w st _ _ _ r hstep hd2 hrun, hterm,
        hc1, ?_, ?_⟩
      · rw [peakSize_cons_go maxAlign nodeSize nodeAlign w st _ _ _ hstep hd2]
        simp only [size]
        omega
      · simp only [List.length_append, htr, List.length_nil]
        omega
    | clear gs => simp [pushPopOnly] at hpp
    | move_construct f => simp [pushPopOnly] at hpp

theorem pushPopOnly_append_left {T : Type} (ops more : List (StackOp T))
    (h : pushPopOnly (ops ++ more) = true) : pushPopOnly ops = true := by
  induction ops with
  | nil => rfl
  | cons op ops ih =>
    cases op with
    | emplace ctor o g gb => exact ih h
    | pop g => exact ih h
    | clear gs => simp [pushPopOnly] at h
    | move_construct f => simp [pushPopOnly] at h

theorem heapHonest_append_left {T : Type} (maxAlign nodeSize nodeAlign : Nat)
    (ops more : List (StackOp T)) :
    ∀ (w : World T) (st : Stack),
      heapHonest maxAlign nodeSize nodeAlign w st (ops ++ more) = true →
      heapHonest maxAlign nodeSize nodeAlign w st ops = true := by
  induction ops with
  | nil => intro w st _; rfl
  | cons op ops ih =>
    intro w st h
    simp only [List.cons_append, heapHonest] at h ⊢
    cases hstep : stepOp maxAlign nodeSize nodeAlign w st op with
    | none => rfl
    | some r =>
      simp only [hstep, Bool.and_eq_true, Bool.or_eq_true] at h ⊢
      exact ⟨h.1, h.2.elim Or.inl (fun h2 => Or.inr (ih r.world r.stack h2))⟩

theorem allDone_append_left {T : Type} (maxAlign nodeSize nodeAlign : Nat)
    (ops more : List (StackOp T)) :
    ∀ (w : World T) (st : Stack),
      allDone maxAlign nodeSize nodeAlign w st (ops ++ more) = true →
      allDone maxAlign nodeSize nodeAlign w st ops = true := by
  induction ops with
  | nil => intro w st _; rfl
  | cons op ops ih =>
    intro w st h
    simp only [List.cons_append, allDone] at h ⊢
    cases hstep : stepOp maxAlign nodeSize nodeAlign w st op with
    | none => rfl
    | some r =>
      simp only [hstep, Bool.and_eq_true] at h ⊢
      exact ⟨h.1, ih r.world r.stack h.2⟩

/-- C20. Recycling high-water mark: take any sequence of successful push/emplace and pop
operations on one stack (fixed node size and alignment) that is the only client of a freshly
constructed resource, the heap answering properly.  After every step of it, that is after
every initial part `ops` of the sequence `ops ++ more`, `in_use_count()` equals `size()` and
`in_use_count() + free_count()` equals the largest `size()` reached so far; this total is also
the number of reservations made at the heap so far, so a reservation happens only when the
stack grows past its previous peak. -/
theorem recycling_high_water_mark {T : Type} (maxAlign nodeSize nodeAlign : Nat)
    (mem : List (Nat × Node T)) (ops more : List (StackOp T))
    (hops : pushPopOnly (ops ++ more) = true)
    (hheap : heapHonest maxAlign nodeSize nodeAlign
      { rmr := ReusingMemoryResource.empty, mem := mem } construct (ops ++ more) = true)
    (hdone : allDone maxAlign nodeSize nodeAlign
      { rmr := ReusingMemoryResource.empty, mem := mem } construct (ops ++ more) = true) :
    ∃ r, runOps maxAlign nodeSize nodeAlign
        { rmr := ReusingMemoryResource.empty, mem := mem } construct ops = some r ∧
      r.terminated = false ∧
      in_use_count r.world.rmr = size r.stack ∧
      in_use_count r.world.rmr + free_count r.world.rmr =
        peakSize maxAlign nodeSize nodeAlign
          { rmr := ReusingMemoryResource.empty, mem := mem } construct ops ∧
      r.trace.length = in_use_count r.world.rmr + free_count r.world.rmr := by
  have hwf : RegistryWF (ReusingMemoryResource.empty) :=
    ⟨by simp [addrs, ReusingMemoryResource.empty],
     fun a ha => by simp [addrs, ReusingMemoryResource.empty] at ha⟩
  obtain ⟨r, hrun, hterm, h1, h2, h3⟩ := high_water_gen maxAlign nodeSize nodeAlign ops
    ({ rmr := ReusingMemoryResource.empty, mem := mem } : World T) construct []
    (SysInv_construct _ hwf)
    (fun b hb => by simp [ReusingMemoryResource.empty] at hb) rfl
    (pushPopOnly_append_left ops more hops)
    (heapHonest_append_left maxAlign nodeSize nodeAlign ops more _ _ hheap)
    (allDone_append_left maxAlign nodeSize nodeAlign ops more _ _ hdone)
  have e1 : in_use_count (ReusingMemoryResource.empty) = 0 := rfl
  have e2 : free_count (ReusingMemoryResource.empty) = 0 := rfl
  simp only [e1, e2, Nat.zero_add, Nat.zero_max] at h2 h3
  exact ⟨r, hrun, hterm, h1, h2, by omega⟩

/-- Witness for C20: the test's three `emplace`, one `pop`, one `emplace` on a fresh
resource, looked at after the fourth step (two lent out, one free, peak 3). -/
theorem recycling_high_water_mark_witness :
    (pushPopOnly (testOps.take 4 ++ testOps.drop 4) = true ∧
      heapHonest 16 16 8 freshWorld construct (testOps.take 4 ++ testOps.drop 4) = true ∧
      allDone 16 16 8 freshWorld construct (testOps.take 4 ++ testOps.drop 4) = true) ∧
    ∃ r, runOps 16 16 8 freshWorld construct (testOps.take 4) = some r ∧
      r.terminated = false ∧
      in_use_count r.world.rmr = size r.stack ∧
      in_use_count r.world.rmr + free_count r.world.rmr =
        peakSize 16 16 8 freshWorld construct (testOps.take 4) ∧
      r.trace.length = in_use_count r.world.rmr + free_count r.world.rmr :=
  ⟨⟨by decide, by decide, by decide⟩,
   recycling_high_water_mark 16 16 8 [] (testOps.take 4) (testOps.drop 4) (by decide)
     (by decide) (by decide)⟩

end PmrStack
